import Mathlib

/-!
Shallow embedding of the text-processing core of `src/loucura.jsx`
(the SVG/CSV map editor): the CSV parser (`parseCSV`, `parseCSVLine`),
the lookup-index builder (`buildLookup`) and the SVG attribute merger
(`editSvg`), together with proofs of the specification's claims.

Strings are modelled as `List Char` (`Str`).  JavaScript regular-expression
scanning is modelled by explicit left-to-right scanners with the same
semantics as the regexes in the source (leftmost match, greedy quantifiers,
`lastIndex` continuation for global replaces).  Case-insensitive (`/i`)
matching uses ASCII lowercasing, which is exactly the canonicalization the
source's ASCII-only patterns perform.
-/

namespace Loucura

abbrev Str := List Char

/-- Convert a Lean string literal to the `List Char` representation. -/
def str (s : String) : Str := s.data

/-- ASCII lowercasing, the canonicalization used by the `/i` regex flag for
the ASCII-only patterns appearing in the source. -/
def lowerA (c : Char) : Char :=
  if 65 ≤ c.toNat ∧ c.toNat ≤ 90 then Char.ofNat (c.toNat + 32) else c

/-- The character set matched by JavaScript's `\s` (and removed by
`String.prototype.trim`): tab, LF, VT, FF, CR, space, NBSP, Ogham space,
the U+2000 block, LS, PS, NNBSP, MMSP, ideographic space, BOM. -/
def isSpaceJS (c : Char) : Bool :=
  let n := c.toNat
  n == 9 || n == 10 || n == 11 || n == 12 || n == 13 || n == 32 ||
  n == 160 || n == 5760 || (8192 ≤ n && n ≤ 8202) || n == 8232 ||
  n == 8233 || n == 8239 || n == 8287 || n == 12288 || n == 65279

/-- JavaScript word characters `[A-Za-z0-9_]`, for the `\b` boundary in
`/<path\b[^>]*>/`. -/
def isWordChar (c : Char) : Bool :=
  let n := c.toNat
  (48 ≤ n && n ≤ 57) || (65 ≤ n && n ≤ 90) || (97 ≤ n && n ≤ 122) || n == 95

/-- Case-insensitive "the pattern `p` is a prefix of `s`" (ASCII `/i`). -/
def ciStarts : Str → Str → Bool
  | [], _ => true
  | _ :: _, [] => false
  | p :: ps, c :: cs => (lowerA p == lowerA c) && ciStarts ps cs

/-- JavaScript `String.prototype.trim` on both ends. -/
def trimL (s : Str) : Str :=
  ((s.dropWhile isSpaceJS).reverse.dropWhile isSpaceJS).reverse

/-- ASCII lowercasing of a whole string (`toLowerCase` on the ASCII
field names the source uses). -/
def lowerStr (s : Str) : Str := s.map lowerA

/-! ### The CSV parser (`parseCSVLine`, `parseCSV` in the source) -/

/-- The state machine of `parseCSVLine`: `inQ` is the `inQuotes` flag,
`cur` the field accumulated so far.  A quote toggles `inQ`, a doubled
quote inside quotes emits a literal quote, a comma outside quotes ends
the field, everything else is copied. -/
def splitLine : Bool → Str → Str → List Str
  | _, cur, [] => [cur]
  | inQ, cur, '"' :: '"' :: rest =>
      if inQ then splitLine true (cur ++ ['"']) rest
      else splitLine true cur ('"' :: rest)
  | inQ, cur, '"' :: rest => splitLine (!inQ) cur rest
  | inQ, cur, ',' :: rest =>
      if inQ then splitLine true (cur ++ [',']) rest
      else cur :: splitLine false [] rest
  | inQ, cur, c :: rest => splitLine inQ (cur ++ [c]) rest

/-- `parseCSVLine` from the source. -/
def parseCSVLine (line : Str) : List Str := splitLine false [] line

/-- `text.replace(/\r\n/g, "\n")`. -/
def normalizeNL : Str → Str
  | [] => []
  | '\r' :: '\n' :: rest => '\n' :: normalizeNL rest
  | c :: rest => c :: normalizeNL rest

/-- `text.split("\n")`. -/
def splitNL : Str → List Str
  | [] => [[]]
  | '\n' :: rest => [] :: splitNL rest
  | c :: rest =>
      match splitNL rest with
      | [] => [[c]]
      | h :: t => (c :: h) :: t

/-- A record is the JavaScript object built per data row: assignments of
values to header names, later assignments overwriting earlier ones. -/
abbrev Record := List (Str × Str)

/-- JavaScript object property read (`obj[k]`), last assignment wins. -/
def objGet (r : Record) (k : Str) : Option Str :=
  r.foldl (fun acc p => if p.1 = k then some p.2 else acc) none

/-- Right-pad the value list with empty fields up to the header length
(the `while (values.length < headers.length) values.push("")` loop). -/
def padTo (n : Nat) (vs : List Str) : List Str :=
  vs ++ List.replicate (n - vs.length) []

/-- The non-blank lines of the input after CR-LF normalization. -/
def csvLines (text : Str) : List Str :=
  (splitNL (normalizeNL text)).filter (fun l => decide (trimL l ≠ []))

/-- The header names: first non-blank line, each field trimmed and
lowercased. -/
def headersOf (text : Str) : List Str :=
  match csvLines text with
  | [] => []
  | h :: _ => (parseCSVLine h).map (fun f => lowerStr (trimL f))

/-- `parseCSV` from the source: header on the first non-blank line, each
later non-blank line split, padded and zipped against the header. -/
def parseCSV (text : Str) : List Record :=
  match csvLines text with
  | [] => []
  | h :: rest =>
      let headers := (parseCSVLine h).map (fun f => lowerStr (trimL f))
      rest.map (fun line => headers.zip (padTo headers.length (parseCSVLine line)))

/-! ### The lookup index builder (`buildLookup`) -/

/-- A `byId` entry: `{ value, region, label }`. -/
structure IdEntry where
  value : Str
  region : Str
  label : Str
deriving DecidableEq

/-- A `byLabel` entry: `{ value, region, id }`. -/
structure LabelEntry where
  value : Str
  region : Str
  id : Str
deriving DecidableEq

/-- The pair of key-to-attributes maps built from the table. -/
structure Lookup where
  byId : Str → Option IdEntry
  byLabel : Str → Option LabelEntry

/-- JavaScript `x || d` for an optionally-missing string property
(`undefined` and the empty string are falsy). -/
def jsOr (o : Option Str) (d : Str) : Str :=
  match o with
  | some v => if v = [] then d else v
  | none => d

/-- JavaScript `s || d` for a string already at hand. -/
def orD (v d : Str) : Str := if v = [] then d else v

/-- The fields `buildLookup` reads from one record. -/
def rowId (r : Record) : Str := trimL (jsOr (objGet r (str "id")) [])
def rowLabel (r : Record) : Str := trimL (jsOr (objGet r (str "label")) [])
def rowValue (r : Record) : Str := trimL (jsOr (objGet r (str "value")) (str "0"))
def rowRegion (r : Record) : Str := trimL (jsOr (objGet r (str "region")) (str "0"))

/-- One step of the `for (const r of rows)` loop in `buildLookup`. -/
def buildStep (l : Lookup) (r : Record) : Lookup :=
  let id := rowId r
  let label := rowLabel r
  let value := rowValue r
  let region := rowRegion r
  let byId' := if id ≠ [] then
      (fun k => if k = id then some ⟨value, region, label⟩ else l.byId k)
    else l.byId
  let byLabel' := if label ≠ [] then
      (fun k => if k = label then some ⟨value, region, id⟩ else l.byLabel k)
    else l.byLabel
  ⟨byId', byLabel'⟩

/-- `buildLookup` from the source. -/
def buildLookup (rows : List Record) : Lookup :=
  rows.foldl buildStep ⟨fun _ => none, fun _ => none⟩

/-! ### The SVG attribute merger (`editSvg`) -/

/-- `sanitizeAttrValue`: escape every double quote as `&quot;`. -/
def sanitize (s : Str) : Str :=
  s.foldr (fun c acc => (if c = '"' then str "&quot;" else [c]) ++ acc) []

/-- The pattern `<path` of `/<path\b[^>]*>/gi`. -/
def pathPat : Str := ['<', 'p', 'a', 't', 'h']

/-- Index of the first `'>'`, for the `[^>]*>` part of the tag pattern. -/
def findGt : Str → Option Nat
  | [] => none
  | c :: rest => if c = '>' then some 0 else (findGt rest).map (· + 1)

/-- If `/<path\b[^>]*>/i` matches at the start of `s`, the length of the
match: `<path` case-insensitively, a word boundary after the `h`, then
everything up to and including the first `'>'`. -/
def matchLenAt (s : Str) : Option Nat :=
  if ciStarts pathPat s then
    match s.drop 5 with
    | [] => none
    | c :: rest =>
        if isWordChar c then none
        else match findGt (c :: rest) with
          | some k => some (5 + k + 1)
          | none => none
  else none

/-- One attribute-strip pattern `\s+name="[^"]*"` (with `/i`): if it
matches at the start of `s`, the length of the (greedy, leftmost) match:
the maximal whitespace run, the attribute name, `="`, the characters up
to the next quote, and the closing quote. -/
def tryAttrMatch (name : Str) (s : Str) : Option Nat :=
  let w := (s.takeWhile isSpaceJS).length
  if w = 0 then none
  else
    let t := s.drop w
    if ciStarts (name ++ ['=', '"']) t then
      let u := t.drop (name.length + 2)
      if u.contains '"' then
        some (w + name.length + 2 + (u.takeWhile (· != '"')).length + 1)
      else none
    else none

/-- The scanning loop of one global strip replace
(`clean.replace(/\s+name="[^"]*"/gi, "")`), fueled for structural
termination; each step consumes at least one character, so fuel
`s.length` always suffices. -/
def stripGoF (name : Str) : Nat → Str → Str
  | 0, s => s
  | _ + 1, [] => []
  | fuel + 1, c :: rest =>
      match tryAttrMatch name (c :: rest) with
      | some n => stripGoF name fuel ((c :: rest).drop n)
      | none => c :: stripGoF name fuel rest

/-- One global strip replace. -/
def stripAttr (name : Str) (s : Str) : Str := stripGoF name s.length s

/-- The attribute names stripped (and re-inserted) by `editSvg`. -/
def lnName : Str := ['l', 'o', 'n', 'g', '-', 'n', 'a', 'm', 'e']
def vName : Str := ['v', 'a', 'l', 'u', 'e']
def rName : Str := ['r', 'e', 'g', 'i', 'o', 'n']

/-- The three strip passes of `editSvg`, in source order. -/
def cleanTag (tag : Str) : Str :=
  stripAttr rName (stripAttr vName (stripAttr lnName tag))

/-- Capture of `([^"]*)"`: the characters before the next quote, failing
if no closing quote exists. -/
def takeCapture (u : Str) : Option Str :=
  if u.contains '"' then some (u.takeWhile (· != '"')) else none

/-- The pattern `inkscape:label="` of `/inkscape:label="([^"]*)"/i`. -/
def labelPat : Str :=
  ['i', 'n', 'k', 's', 'c', 'a', 'p', 'e', ':', 'l', 'a', 'b', 'e', 'l', '=', '"']

/-- The pattern `id="` of `/\sid="([^"]*)"/i`. -/
def idPat : Str := ['i', 'd', '=', '"']

/-- `clean.match(/inkscape:label="([^"]*)"/i)`: first position where the
pattern and its capture (with closing quote) match. -/
def findLabelFrom : Str → Option Str
  | [] => none
  | c :: rest =>
      match (if ciStarts labelPat (c :: rest)
             then takeCapture ((c :: rest).drop labelPat.length) else none) with
      | some v => some v
      | none => findLabelFrom rest

/-- `clean.match(/\sid="([^"]*)"/i)`: a whitespace character, then `id="`,
then the capture with its closing quote. -/
def findIdFrom : Str → Option Str
  | [] => none
  | c :: rest =>
      match (if isSpaceJS c && ciStarts idPat rest
             then takeCapture (rest.drop 4) else none) with
      | some v => some v
      | none => findIdFrom rest

/-- The resolved attribute triple (step 3 of the merge). -/
structure Resolved where
  value : Str
  region : Str
  longName : Str
deriving DecidableEq

/-- The resolution block of `editSvg` (lines 111-127): identifier first,
then the style label, then defaults, with JavaScript truthiness on the
extracted strings and the entry fields. -/
def resolve (l : Lookup) (elemId inkLabel : Option Str) : Resolved :=
  let longName0 := jsOr inkLabel (str "None")
  match elemId with
  | some i =>
      if h : i ≠ [] ∧ (l.byId i).isSome then
        let e := (l.byId i).get h.2
        ⟨orD e.value (str "0"), orD e.region (str "0"),
         if e.label ≠ [] then e.label else longName0⟩
      else
        match inkLabel with
        | some lb =>
            if h : lb ≠ [] ∧ (l.byLabel lb).isSome then
              let e := (l.byLabel lb).get h.2
              ⟨orD e.value (str "0"), orD e.region (str "0"), longName0⟩
            else ⟨str "0", str "0", longName0⟩
        | none => ⟨str "0", str "0", longName0⟩
  | none =>
      match inkLabel with
      | some lb =>
          if h : lb ≠ [] ∧ (l.byLabel lb).isSome then
            let e := (l.byLabel lb).get h.2
            ⟨orD e.value (str "0"), orD e.region (str "0"), longName0⟩
          else ⟨str "0", str "0", longName0⟩
      | none => ⟨str "0", str "0", longName0⟩

/-- The three freshly formatted attribute lines (`newlineAttrs`). -/
def mkAttrs (r : Resolved) : Str :=
  '\n' :: str "    long-name=\"" ++ sanitize r.longName ++
  ('"' :: '\n' :: str "    value=\"") ++ sanitize r.value ++
  ('"' :: '\n' :: str "    region=\"") ++ sanitize r.region ++ ['"']

/-- `GetSubstitution` for a replacement string in `String.prototype.replace`
with one capture group whose capture equals the whole match: `$$`, `$&`,
a backtick dollar escape, `$'`, and `$1`/`$01` are special, everything
else is literal. -/
def expandRepl (m before after : Str) : Str → Str
  | [] => []
  | ['$'] => ['$']
  | '$' :: '0' :: '1' :: rest => m ++ expandRepl m before after rest
  | '$' :: c :: rest =>
      if c = '$' then '$' :: expandRepl m before after rest
      else if c = '&' then m ++ expandRepl m before after rest
      else if c = '`' then before ++ expandRepl m before after rest
      else if c = '\'' then after ++ expandRepl m before after rest
      else if c = '1' then m ++ expandRepl m before after rest
      else '$' :: c :: expandRepl m before after rest
  | c :: rest => c :: expandRepl m before after rest

/-- The first position where `/(\s+id=")/i` matches: a maximal whitespace
run followed by `id="`. -/
def findInsIdx : Str → Option Nat
  | [] => none
  | c :: rest =>
      let w := ((c :: rest).takeWhile isSpaceJS).length
      if 0 < w && ciStarts idPat ((c :: rest).drop w) then some 0
      else (findInsIdx rest).map (· + 1)

/-- `clean.replace(/(\s+id=")/i, newlineAttrs + "$1")`: splice the
replacement (with `$`-substitution) in place of the first match. -/
def insertBeforeId (attrs clean : Str) : Str :=
  match findInsIdx clean with
  | none => clean
  | some p =>
      let pre := clean.take p
      let rest := clean.drop p
      let w := (rest.takeWhile isSpaceJS).length
      let matched := rest.take (w + 4)
      let post := rest.drop (w + 4)
      pre ++ expandRepl matched pre post (attrs ++ ['$', '1']) ++ post

/-- `clean.replace(/>\s*$/, "")`: drop the leftmost `'>'` that is followed
only by whitespace, together with everything after it. -/
def stripTrailGt : Str → Str
  | [] => []
  | '>' :: rest => if rest.all isSpaceJS then [] else '>' :: stripTrailGt rest
  | c :: rest => c :: stripTrailGt rest

/-- The replacer callback of `editSvg`: strip the three attributes,
extract the style label and the id, resolve, and insert the fresh
attribute lines before the id attribute or before the closing `'>'`. -/
def rewriteTag (l : Lookup) (tag : Str) : Str :=
  let clean := cleanTag tag
  let inkLabel := findLabelFrom clean
  let elemId := findIdFrom clean
  let r := resolve l elemId inkLabel
  let attrs := mkAttrs r
  if elemId.isSome then insertBeforeId attrs clean
  else stripTrailGt clean ++ attrs ++ ['>']

/-- The global scan of `svgStr.replace(pathRegex, ...)`, fueled for
structural termination (each step consumes at least one character). -/
def scanSvgF (l : Lookup) : Nat → Str → Str
  | 0, s => s
  | _ + 1, [] => []
  | fuel + 1, c :: rest =>
      match matchLenAt (c :: rest) with
      | some n => rewriteTag l ((c :: rest).take n) ++ scanSvgF l fuel ((c :: rest).drop n)
      | none => c :: scanSvgF l fuel rest

/-- `editSvg` from the source. -/
def editSvg (svgStr : Str) (l : Lookup) : Str := scanSvgF l svgStr.length svgStr

/-- The whole pipeline (`handleFiles` minus the I/O shell): parse the CSV,
build the lookup, edit the SVG. -/
def runMerge (svgStr csvText : Str) : Str :=
  editSvg svgStr (buildLookup (parseCSV csvText))

/-! ### Auxiliary notions used by the claim statements -/

/-- Comma-join a field list (for the splitter round-trip statement). -/
def joinComma : List Str → Str
  | [] => []
  | [f] => f
  | f :: g :: rest => f ++ ',' :: joinComma (g :: rest)

/-- Number of positions of `s` at which the pattern `pat` matches
case-insensitively. -/
def countGo (pat : Str) : Str → Nat
  | [] => 0
  | c :: rest => (if ciStarts pat (c :: rest) then 1 else 0) + countGo pat rest

/-- The full attribute patterns counted inside rewritten tags. -/
def lnPat : Str := lnName ++ ['=', '"']
def vPat : Str := vName ++ ['=', '"']
def rPat : Str := rName ++ ['=', '"']

/-- The segmentation computed by the global tag scan: `true` chunks are
matched `<path ...>` tags, `false` chunks are single passed-through
characters.  Mirrors `scanSvgF` exactly. -/
def segsF : Nat → Str → List (Bool × Str)
  | 0, s => if s = [] then [] else [(false, s)]
  | _ + 1, [] => []
  | fuel + 1, c :: rest =>
      match matchLenAt (c :: rest) with
      | some n => (true, (c :: rest).take n) :: segsF fuel ((c :: rest).drop n)
      | none => (false, [c]) :: segsF fuel rest

/-- The segmentation of a document under the target-tag pattern. -/
def segsOf (s : Str) : List (Bool × Str) := segsF s.length s

/-- Concatenate the chunks of a segmentation. -/
def joinSegs (xs : List (Bool × Str)) : Str := (xs.map Prod.snd).foldr (· ++ ·) []

/-- Concatenate a segmentation, rewriting the matched-tag chunks. -/
def joinRewrite (l : Lookup) (xs : List (Bool × Str)) : Str :=
  (xs.map fun p => if p.1 then rewriteTag l p.2 else p.2).foldr (· ++ ·) []

/-- ASCII alphanumeric characters (the benign character class used to
state the amended algebraic claims). -/
def alnumChar (c : Char) : Bool :=
  let n := c.toNat
  (48 ≤ n && n ≤ 57) || (65 ≤ n && n ≤ 90) || (97 ≤ n && n ≤ 122)

/-- A string of ASCII alphanumeric characters. -/
def alnumStr (s : Str) : Prop := ∀ c ∈ s, alnumChar c = true

/-- A lookup index whose stored strings are alphanumeric. -/
def okLookup (l : Lookup) : Prop :=
  (∀ k e, l.byId k = some e →
    alnumStr e.value ∧ alnumStr e.region ∧ alnumStr e.label) ∧
  (∀ k e, l.byLabel k = some e → alnumStr e.value ∧ alnumStr e.region)

/-- A value string that cannot interfere with the attribute patterns, the
tag pattern or the replacement-string escapes: no `=`, `"`, `>`, `$`, and
no whitespace. -/
def safeVal (s : Str) : Prop :=
  ∀ c ∈ s, c ≠ '=' ∧ c ≠ '"' ∧ c ≠ '>' ∧ c ≠ '$' ∧ isSpaceJS c = false

/-- Canonical document pieces for the amended idempotence claim: plain
text free of `'<'`, and the canonical forms of the target tag. -/
inductive Seg where
  | plain (s : Str)
  | bare
  | tagId (i : Str)
  | tagLabel (lb : Str)
  | tagFull (lb i : Str)

/-- The text of one canonical piece. -/
def Seg.render : Seg → Str
  | .plain s => s
  | .bare => str "<path>"
  | .tagId i => str "<path id=\"" ++ i ++ str "\">"
  | .tagLabel lb => str "<path inkscape:label=\"" ++ lb ++ str "\">"
  | .tagFull lb i =>
      str "<path inkscape:label=\"" ++ lb ++ (str "\" id=\"" ++ i ++ str "\">")

/-- The side conditions on one canonical piece. -/
def Seg.ok : Seg → Prop
  | .plain s => ∀ c ∈ s, c ≠ '<'
  | .bare => True
  | .tagId i => alnumStr i
  | .tagLabel lb => alnumStr lb
  | .tagFull lb i => alnumStr lb ∧ alnumStr i

/-- A document assembled from canonical pieces. -/
def renderDoc (segs : List Seg) : Str := (segs.map Seg.render).foldr (· ++ ·) []

/-- The resolution input/output of one tag, as `rewriteTag` computes it. -/
def resolveOf (l : Lookup) (tag : Str) : Resolved :=
  resolve l (findIdFrom (cleanTag tag)) (findLabelFrom (cleanTag tag))

/-! ### Concrete fixtures for counterexamples and witnesses -/

/-- The empty lookup index. -/
def emptyLookup : Lookup := ⟨fun _ => none, fun _ => none⟩

/-- A lookup whose stored value contains `'>'`. -/
def gtLookup : Lookup :=
  ⟨fun k => if k = str "p1" then some ⟨str "1>2", str "0", []⟩ else none,
   fun _ => none⟩

/-- A lookup whose `byId` entry for `p1` has an empty stored value. -/
def emptyValLookup : Lookup :=
  ⟨fun k => if k = str "p1" then some ⟨[], str "2", str "North"⟩ else none,
   fun _ => none⟩

/-- The identifier-precedence table of the specification's test: `byId`
has `p1` with value 7, region 2, label `North`; `byLabel` has a
conflicting `Norte` entry with value and region 99. -/
def precCsv : Str := str "id,label,value,region\np1,North,7,2\nx9,Norte,99,99"

/-- A tag whose style label contains a replacement-string escape. -/
def dollarDoc : Str := str "<path inkscape:label=\"$&\" id=\"x\">"

/-- A tag in which stripping `region` creates a fresh `value` attribute. -/
def dupDoc : Str := str "<path value region=\"q\"=\"z\" id=\"w\">"

/-- The id-carrying tag used by the idempotence counterexample. -/
def gtDoc : Str := str "<path id=\"p1\">"

/-- The attribute block of `mkAttrs` in right-nested normal form, for
alphanumeric (hence sanitization-free) field values. -/
def mkA (n v r : Str) : Str :=
  '\n' :: ' ' :: ' ' :: ' ' :: ' ' ::
    ('l' :: 'o' :: 'n' :: 'g' :: '-' :: 'n' :: 'a' :: 'm' :: 'e' :: '=' :: '"' ::
      (n ++ ('"' :: '\n' :: ' ' :: ' ' :: ' ' :: ' ' ::
        ('v' :: 'a' :: 'l' :: 'u' :: 'e' :: '=' :: '"' ::
          (v ++ ('"' :: '\n' :: ' ' :: ' ' :: ' ' :: ' ' ::
            ('r' :: 'e' :: 'g' :: 'i' :: 'o' :: 'n' :: '=' :: '"' ::
              (r ++ ['"']))))))))

/-- The suffix of the attribute block from the `region` line on, followed
by a tail `T`. -/
def attrR (r T : Str) : Str :=
  '\n' :: ' ' :: ' ' :: ' ' :: ' ' ::
    ('r' :: 'e' :: 'g' :: 'i' :: 'o' :: 'n' :: '=' :: '"' :: (r ++ ('"' :: T)))

/-- The suffix of the attribute block from the `value` line on, followed
by a tail `T`. -/
def attrV (v r T : Str) : Str :=
  '\n' :: ' ' :: ' ' :: ' ' :: ' ' ::
    ('v' :: 'a' :: 'l' :: 'u' :: 'e' :: '=' :: '"' ::
      (v ++ ('"' :: attrR r T)))

/-- Whether a canonical piece is a target tag (as opposed to plain text). -/
def Seg.isTag : Seg → Bool
  | .plain _ => false
  | _ => true

/-- The text a canonical piece becomes after one merge pass. -/
def outSeg (l : Lookup) : Seg → Str
  | .plain s => s
  | g => rewriteTag l (Seg.render g)

/-- The whole document after one merge pass over canonical pieces. -/
def outDoc (l : Lookup) (segs : List Seg) : Str :=
  (segs.map (outSeg l)).foldr (· ++ ·) []

/-- A sample canonical document exercising every piece form. -/
def demoSegs : List Seg :=
  [.plain (str "ab "), .tagId (str "p1"), .bare, .tagLabel (str "Norte"),
   .tagFull (str "Norte") (str "p1")]

/-! ## Lemmas about the field splitter -/

theorem splitLine_nil (q : Bool) (cur : Str) : splitLine q cur [] = [cur] := rfl

theorem splitLine_other {c : Char} (hq : c ≠ '"') (hc : c ≠ ',') (q : Bool)
    (cur rest : Str) : splitLine q cur (c :: rest) = splitLine q (cur ++ [c]) rest := by
  rw [splitLine.eq_def]
  split <;> simp_all

theorem splitLine_comma (q : Bool) (cur rest : Str) :
    splitLine q cur (',' :: rest) =
      if q then splitLine true (cur ++ [',']) rest
      else cur :: splitLine false [] rest := by
  rw [splitLine.eq_def]
  split
  · simp_all
  · simp_all
  · simp_all
  · rename_i h
    injection h with h1 h2
    subst h2
    rfl
  · rename_i h1 h2 h3
    injection h3 with h4 h5
    exact absurd h4.symm h2

theorem splitLine_quote2 (q : Bool) (cur rest : Str) :
    splitLine q cur ('"' :: '"' :: rest) =
      if q then splitLine true (cur ++ ['"']) rest
      else splitLine true cur ('"' :: rest) := rfl

theorem splitLine_quote1 {rest : Str} (h : ∀ r, rest ≠ '"' :: r) (q : Bool)
    (cur : Str) : splitLine q cur ('"' :: rest) = splitLine (!q) cur rest := by
  rw [splitLine.eq_def]
  split
  · simp_all
  · simp_all
  · simp_all
  · simp_all
  · rename_i h1 h2 h3
    injection h3 with h4 h5
    exact absurd h4.symm h1

/-- Copying a quote-free, comma-free block outside quotes. -/
theorem splitLine_copy_out {f : Str} (hf : ∀ c ∈ f, c ≠ '"' ∧ c ≠ ',') :
    ∀ cur rest, splitLine false cur (f ++ rest) = splitLine false (cur ++ f) rest := by
  induction f with
  | nil => intro cur rest; simp
  | cons c f ih =>
      intro cur rest
      have hc := hf c (List.mem_cons_self c f)
      have hrec : ∀ c' ∈ f, c' ≠ '"' ∧ c' ≠ ',' := fun c' hc' => hf c' (List.mem_cons_of_mem c hc')
      rw [List.cons_append, splitLine_other hc.1 hc.2, ih hrec]
      simp

/-- Copying a quote-free block inside quotes (commas are literal there). -/
theorem splitLine_copy_in {f : Str} (hf : ∀ c ∈ f, c ≠ '"') :
    ∀ cur rest, splitLine true cur (f ++ rest) = splitLine true (cur ++ f) rest := by
  induction f with
  | nil => intro cur rest; simp
  | cons c f ih =>
      intro cur rest
      have hc := hf c (List.mem_cons_self c f)
      have hrec : ∀ c' ∈ f, c' ≠ '"' := fun c' hc' => hf c' (List.mem_cons_of_mem c hc')
      by_cases hcm : c = ','
      · subst hcm
        rw [List.cons_append, splitLine_comma, if_pos rfl, ih hrec]
        simp
      · rw [List.cons_append, splitLine_other hc hcm, ih hrec]
        simp

/-- The comma-join of plain fields splits back into exactly those fields. -/
theorem splitLine_joinComma {f : Str} {fs : List Str}
    (hf : ∀ g ∈ f :: fs, ∀ c ∈ g, c ≠ '"' ∧ c ≠ ',') :
    ∀ cur, splitLine false cur (joinComma (f :: fs)) = (cur ++ f) :: fs := by
  induction fs generalizing f with
  | nil =>
      intro cur
      have : joinComma [f] = f := rfl
      rw [this, ← List.append_nil f, splitLine_copy_out (hf f (by simp)), splitLine_nil]
      simp
  | cons g fs ih =>
      intro cur
      have hjc : joinComma (f :: g :: fs) = f ++ ',' :: joinComma (g :: fs) := rfl
      rw [hjc, splitLine_copy_out (hf f (by simp)), splitLine_comma]
      simp only [if_neg (by simp : ¬(false = true))]
      rw [ih (fun g' hg' c hc => hf g' (List.mem_cons_of_mem f hg') c hc)]
      simp

/-- Entering a quoted field: the leading quote toggles the state. -/
theorem splitLine_enter {a rest : Str} (ha : ¬ '"' ∈ a) (cur : Str) :
    splitLine false cur ('"' :: (a ++ '"' :: rest)) =
      splitLine true cur (a ++ '"' :: rest) := by
  cases a with
  | nil =>
      rw [List.nil_append, splitLine_quote2]
      simp
  | cons c a' =>
      have hc : c ≠ '"' := fun h => ha (h ▸ List.mem_cons_self c a')
      rw [List.cons_append,
        @splitLine_quote1 (c :: (a' ++ '"' :: rest))
          (fun r h => hc (List.cons_eq_cons.mp h).1)]
      simp

/-- Every splitter run yields at least one field (the trailing
`result.push(cur)`). -/
theorem splitLine_len : ∀ (n : Nat) (q : Bool) (cur l : Str), l.length ≤ n →
    1 ≤ (splitLine q cur l).length := by
  intro n
  induction n with
  | zero =>
      intro q cur l hl
      have : l = [] := List.length_eq_zero.mp (Nat.le_zero.mp hl)
      subst this
      simp [splitLine_nil]
  | succ n ih =>
      intro q cur l hl
      match l with
      | [] => simp [splitLine_nil]
      | [c] =>
          by_cases hc : c = '"'
          · subst hc
            rw [splitLine_quote1 (by simp)]
            simp [splitLine_nil]
          · by_cases hcm : c = ','
            · subst hcm
              rw [splitLine_comma]
              split
              · simp [splitLine_nil]
              · simp
            · rw [splitLine_other hc hcm]
              simp [splitLine_nil]
      | c :: d :: rest =>
          simp only [List.length_cons] at hl
          by_cases hc : c = '"'
          · subst hc
            by_cases hd : d = '"'
            · subst hd
              rw [splitLine_quote2]
              split
              · exact ih _ _ _ (by omega)
              · exact ih _ _ _ (by simpa using hl)
            · rw [splitLine_quote1 (fun r h => hd (List.cons_eq_cons.mp h).1)]
              exact ih _ _ _ (by simp; omega)
          · by_cases hcm : c = ','
            · subst hcm
              rw [splitLine_comma]
              split
              · exact ih _ _ _ (by simp; omega)
              · simp
            · rw [splitLine_other hc hcm]
              exact ih _ _ _ (by simp; omega)

/-! ## The claims about the tabular parser and the index builder -/

/-- C6: the field splitter honors double-quoted fields: a comma-join of
quote-free, comma-free fields splits back into exactly those fields
(commas separate only outside quotes, other characters are copied
literally); a doubled quote inside a quoted field yields one literal
quote (and the quotes toggle the in-quotes state); and the row
`1,"Region, North",10,5` under header `id,label,value,region` parses to
the record `{id:"1", label:"Region, North", value:"10", region:"5"}`. -/
theorem C6_splitter :
    (∀ (f : Str) (fs : List Str),
        (∀ g ∈ f :: fs, ∀ c ∈ g, c ≠ '"' ∧ c ≠ ',') →
        parseCSVLine (joinComma (f :: fs)) = f :: fs) ∧
    (∀ a b : Str, ¬ '"' ∈ a → ¬ '"' ∈ b →
        parseCSVLine ('"' :: (a ++ ('"' :: '"' :: (b ++ ['"'])))) = [a ++ '"' :: b]) ∧
    parseCSV (str "id,label,value,region\n1,\"Region, North\",10,5") =
      [[(str "id", str "1"), (str "label", str "Region, North"),
        (str "value", str "10"), (str "region", str "5")]] := by
  refine ⟨fun f fs hf => ?_, fun a b ha hb => ?_, by decide⟩
  · have h := splitLine_joinComma hf []
    simpa [parseCSVLine] using h
  · show splitLine false [] ('"' :: (a ++ ('"' :: '"' :: (b ++ ['"'])))) = [a ++ '"' :: b]
    rw [@splitLine_enter a ('"' :: (b ++ ['"'])) ha,
      splitLine_copy_in (fun c hc h => ha (h ▸ hc)),
      splitLine_quote2, if_pos rfl, splitLine_copy_in (fun c hc h => hb (h ▸ hc)),
      splitLine_quote1 (by simp), splitLine_nil]
    simp

/-- C8: the core is total and anomaly-tolerant: every line splits into at
least one field; every parsed record has exactly one value per header
column (short rows are padded, extra fields are dropped); an unterminated
quote consumes the rest of the line as a single field; and the
orchestrator is exactly the composition of the three stages. -/
theorem C8_total :
    (∀ line : Str, 1 ≤ (parseCSVLine line).length) ∧
    (∀ text : Str, ∀ r ∈ parseCSV text, r.length = (headersOf text).length) ∧
    (∀ s : Str, ¬ '"' ∈ s → parseCSVLine ('"' :: s) = [s]) ∧
    (∀ svgStr csvText : Str,
        runMerge svgStr csvText = editSvg svgStr (buildLookup (parseCSV csvText))) := by
  refine ⟨fun line => splitLine_len line.length false [] line le_rfl,
    fun text r hr => ?_, fun s hs => ?_, fun _ _ => rfl⟩
  · unfold parseCSV at hr
    cases h : csvLines text with
    | nil => rw [h] at hr; exact absurd hr (by simp)
    | cons hd rest =>
        rw [h] at hr
        simp only [List.mem_map] at hr
        obtain ⟨line, _, rfl⟩ := hr
        have hh : headersOf text = (parseCSVLine hd).map (fun f => lowerStr (trimL f)) := by
          unfold headersOf
          rw [h]
        rw [hh, List.length_zip]
        unfold padTo
        rw [List.length_append, List.length_replicate]
        omega
  · show splitLine false [] ('"' :: s) = [s]
    cases s with
    | nil => rfl
    | cons c s' =>
        have hc : c ≠ '"' := fun h => hs (h ▸ List.mem_cons_self c s')
        rw [splitLine_quote1 (fun r h => hc (List.cons_eq_cons.mp h).1)]
        have := splitLine_copy_in (f := c :: s') (fun d hd h => hs (h ▸ hd)) [] []
        simpa [splitLine_nil] using this

/-- Witness for C6 at concrete fields. -/
theorem C6_witness :
    parseCSVLine (joinComma [str "ab", str "cd"]) = [str "ab", str "cd"] :=
  C6_splitter.1 (str "ab") [str "cd"] (by decide)

/-- Witness for C8 at a concrete table. -/
theorem C8_witness :
    [(str "id", str "1"), (str "v", str "2")].length =
      (headersOf (str "id,v\n1,2")).length :=
  C8_total.2.1 (str "id,v\n1,2") _ (by decide)

/-- C5 counterexample: the raw parsed field ` 10 ` is stored as `10` in
the index — the builder trims `value` (and `region`), contrary to the
claim that only `id` and `label` are trimmed. -/
theorem C5_counterexample :
    objGet ((parseCSV (str "id,value\na, 10 ")).headD []) (str "value") =
        some (str " 10 ") ∧
    ((buildLookup (parseCSV (str "id,value\na, 10 "))).byId (str "a")).map
        IdEntry.value = some (str "10") ∧
    str "10" ≠ str " 10 " := by decide

/-- C5 (amended): the index builder trims all four fields; `value` and
`region` equal the trimmed raw field when the raw field is present and
non-empty, and the literal `"0"` when it is absent or empty. -/
theorem C5_fields :
    (∀ (rows : List Record) (r : Record), rowId r ≠ [] →
        (buildLookup (rows ++ [r])).byId (rowId r) =
          some ⟨rowValue r, rowRegion r, rowLabel r⟩) ∧
    (∀ (r : Record) (v : Str), objGet r (str "value") = some v → v ≠ [] →
        rowValue r = trimL v) ∧
    (∀ r : Record, objGet r (str "value") = none ∨ objGet r (str "value") = some [] →
        rowValue r = str "0") ∧
    (∀ (r : Record) (v : Str), objGet r (str "region") = some v → v ≠ [] →
        rowRegion r = trimL v) ∧
    (∀ r : Record, objGet r (str "region") = none ∨ objGet r (str "region") = some [] →
        rowRegion r = str "0") := by
  refine ⟨fun rows r hid => ?_, fun r v hv hne => ?_, fun r hv => ?_,
    fun r v hv hne => ?_, fun r hv => ?_⟩
  · unfold buildLookup
    rw [List.foldl_append]
    show (buildStep (List.foldl buildStep _ rows) r).byId (rowId r) = _
    unfold buildStep
    simp [hid]
  · unfold rowValue
    rw [hv]
    simp [jsOr, hne]
  · unfold rowValue
    rcases hv with h | h <;> rw [h] <;> decide
  · unfold rowRegion
    rw [hv]
    simp [jsOr, hne]
  · unfold rowRegion
    rcases hv with h | h <;> rw [h] <;> decide

/-- Witness for C5 at a concrete row. -/
theorem C5_witness :
    (buildLookup ([] ++ [[(str "id", str "a"), (str "value", str " 10 ")]])).byId
        (rowId [(str "id", str "a"), (str "value", str " 10 ")]) =
      some ⟨rowValue [(str "id", str "a"), (str "value", str " 10 ")],
            rowRegion [(str "id", str "a"), (str "value", str " 10 ")],
            rowLabel [(str "id", str "a"), (str "value", str " 10 ")]⟩ :=
  C5_fields.1 [] _ (by decide)

/-! ## The claims about per-tag resolution -/

/-- C2 counterexample: a `byId` entry with an empty stored value (reachable
from a whitespace-only CSV `value` field after the builder's trim) is *not*
copied into the merged attributes: the merge substitutes `"0"` for it, so
the merged value does not come from the `byId` entry as the claim states. -/
theorem C2_counterexample :
    (emptyValLookup.byId (str "p1")).map IdEntry.value = some [] ∧
    resolve emptyValLookup (some (str "p1")) none =
      ⟨str "0", str "2", str "North"⟩ ∧
    editSvg (str "<path id=\"p1\"/>") emptyValLookup =
      str "<path\n    long-name=\"North\"\n    value=\"0\"\n    region=\"2\" id=\"p1\"/>" ∧
    (str "0" : Str) ≠ [] := by decide

/-- C2 (amended): identifier-first resolution: whenever the post-strip id is
non-empty and present in `byId`, the merged value and region come from that
entry *with empty fields replaced by the literal `"0"`*, and long-name is
the entry's stored label if non-empty, else the style label via the `"None"`
fallback; the `byId` entry wins even when a conflicting `byLabel` entry
exists (proved end-to-end on the specification's precedence example). -/
theorem C2_id_first :
    (∀ (l : Lookup) (i : Str) (e : IdEntry) (inkLabel : Option Str),
        i ≠ [] → l.byId i = some e →
        resolve l (some i) inkLabel =
          ⟨orD e.value (str "0"), orD e.region (str "0"),
           if e.label ≠ [] then e.label else jsOr inkLabel (str "None")⟩) ∧
    editSvg (str "<path inkscape:label=\"Norte\" id=\"p1\"/>")
        (buildLookup (parseCSV precCsv)) =
      str "<path inkscape:label=\"Norte\"\n    long-name=\"North\"\n    value=\"7\"\n    region=\"2\" id=\"p1\"/>" ∧
    ((buildLookup (parseCSV precCsv)).byLabel (str "Norte")).map LabelEntry.value =
      some (str "99") := by
  refine ⟨fun l i e inkLabel hi he => ?_, by decide, by decide⟩
  have hs : i ≠ [] ∧ (l.byId i).isSome := ⟨hi, by simp [he]⟩
  unfold resolve
  dsimp only
  rw [dif_pos hs]
  simp [he]

/-- Witness for C2 at a concrete entry. -/
theorem C2_witness :
    resolve gtLookup (some (str "p1")) none =
      ⟨orD (str "1>2") (str "0"), orD (str "0") (str "0"),
       if ([] : Str) ≠ [] then ([] : Str) else jsOr none (str "None")⟩ :=
  C2_id_first.1 gtLookup (str "p1") ⟨str "1>2", str "0", []⟩ none
    (by decide) (by decide)

/-- C7: no-match degradation: when the extracted id misses `byId` (or is
absent or empty) and the style label misses `byLabel` (or is absent or
empty), resolution yields `value = "0"`, `region = "0"` and long-name the
style label when truthy, else `"None"`; shown end-to-end on a tag with
neither id nor label. -/
theorem C7_no_match :
    (∀ (l : Lookup) (elemId inkLabel : Option Str),
        (∀ i, elemId = some i → i = [] ∨ l.byId i = none) →
        (∀ lb, inkLabel = some lb → lb = [] ∨ l.byLabel lb = none) →
        resolve l elemId inkLabel = ⟨str "0", str "0", jsOr inkLabel (str "None")⟩) ∧
    editSvg (str "<path/>") emptyLookup =
      str "<path/\n    long-name=\"None\"\n    value=\"0\"\n    region=\"0\">" := by
  refine ⟨fun l elemId inkLabel hid hlb => ?_, by decide⟩
  have hbid : ∀ i (e : IdEntry), elemId = some i → l.byId i = some e → i = [] := by
    intro i e hi he
    rcases hid i hi with h | h
    · exact h
    · rw [he] at h; exact absurd h (by simp)
  have hblb : ∀ lb (e : LabelEntry), inkLabel = some lb → l.byLabel lb = some e →
      lb = [] := by
    intro lb e hl he
    rcases hlb lb hl with h | h
    · exact h
    · rw [he] at h; exact absurd h (by simp)
  unfold resolve
  cases elemId with
  | none =>
      cases inkLabel with
      | none => rfl
      | some lb =>
          have : ¬(lb ≠ [] ∧ (l.byLabel lb).isSome) := by
            rintro ⟨h1, h2⟩
            rcases hlb lb rfl with h | h
            · exact h1 h
            · rw [h] at h2; exact absurd h2 (by simp)
          dsimp only
          rw [dif_neg this]
  | some i =>
      have hni : ¬(i ≠ [] ∧ (l.byId i).isSome) := by
        rintro ⟨h1, h2⟩
        rcases hid i rfl with h | h
        · exact h1 h
        · rw [h] at h2; exact absurd h2 (by simp)
      dsimp only
      rw [dif_neg hni]
      cases inkLabel with
      | none => rfl
      | some lb =>
          have : ¬(lb ≠ [] ∧ (l.byLabel lb).isSome) := by
            rintro ⟨h1, h2⟩
            rcases hlb lb rfl with h | h
            · exact h1 h
            · rw [h] at h2; exact absurd h2 (by simp)
          dsimp only
          rw [dif_neg this]

/-- Witness for C7 at a concrete miss. -/
theorem C7_witness :
    resolve emptyLookup (some (str "zz")) none =
      ⟨str "0", str "0", jsOr none (str "None")⟩ :=
  C7_no_match.1 emptyLookup (some (str "zz")) none
    (fun _ _ => Or.inr rfl) (fun _ h => absurd h (by simp))

/-! ## Lemmas about the insertion machinery -/

theorem expandRepl_cons {c : Char} (hc : c ≠ '$') (m b a rest : Str) :
    expandRepl m b a (c :: rest) = c :: expandRepl m b a rest := by
  rw [expandRepl.eq_def]
  split <;> simp_all

theorem expandRepl_free {a : Str} (ha : ¬ '$' ∈ a) (m b aft : Str) :
    expandRepl m b aft (a ++ ['$', '1']) = a ++ m := by
  induction a with
  | nil =>
      show expandRepl m b aft ['$', '1'] = m
      simp [expandRepl]
  | cons c a' ih =>
      have hc : c ≠ '$' := fun h => ha (h ▸ List.mem_cons_self _ _)
      rw [List.cons_append, expandRepl_cons hc,
        ih (fun h => ha (List.mem_cons_of_mem _ h))]
      rfl

/-- The head matched by the `id="` pattern is never a whitespace
character. -/
theorem ci_idPat_head {t : Str} (h : ciStarts idPat t = true) :
    ∃ c cs, t = c :: cs ∧ isSpaceJS c = false := by
  cases t with
  | nil => exact absurd h (by decide)
  | cons c cs =>
      refine ⟨c, cs, rfl, ?_⟩
      have h2 : lowerA c = 'i' := by
        have h1 : (lowerA 'i' == lowerA c) = true := by
          simp only [idPat, ciStarts, Bool.and_eq_true] at h
          exact h.1
        have : lowerA 'i' = 'i' := by decide
        rw [this] at h1
        exact (beq_iff_eq.mp h1).symm
      by_contra hsp
      rw [Bool.not_eq_false] at hsp
      have hna : ¬(65 ≤ c.toNat ∧ c.toNat ≤ 90) := by
        simp only [isSpaceJS, Bool.or_eq_true, beq_iff_eq, Bool.and_eq_true,
          decide_eq_true_eq] at hsp
        omega
      have hc : lowerA c = c := by
        unfold lowerA
        rw [if_neg hna]
      rw [hc] at h2
      subst h2
      exact absurd hsp (by decide)

theorem findIdFrom_nil : findIdFrom [] = none := rfl

theorem findIdFrom_cons_skip {c : Char} {rest : Str}
    (h : ¬(isSpaceJS c && ciStarts idPat rest) = true) :
    findIdFrom (c :: rest) = findIdFrom rest := by
  show (match (if isSpaceJS c && ciStarts idPat rest
      then takeCapture (rest.drop 4) else none) with
    | some v => some v
    | none => findIdFrom rest) = findIdFrom rest
  rw [if_neg h]

theorem findIdFrom_cons_nocap {c : Char} {rest : Str}
    (hcap : takeCapture (rest.drop 4) = none) :
    findIdFrom (c :: rest) = findIdFrom rest := by
  show (match (if isSpaceJS c && ciStarts idPat rest
      then takeCapture (rest.drop 4) else none) with
    | some v => some v
    | none => findIdFrom rest) = findIdFrom rest
  by_cases h : (isSpaceJS c && ciStarts idPat rest) = true
  · rw [if_pos h, hcap]
  · rw [if_neg h]

theorem findIdFrom_cons_found {c : Char} {rest v : Str}
    (h : (isSpaceJS c && ciStarts idPat rest) = true)
    (hcap : takeCapture (rest.drop 4) = some v) :
    findIdFrom (c :: rest) = some v := by
  show (match (if isSpaceJS c && ciStarts idPat rest
      then takeCapture (rest.drop 4) else none) with
    | some v => some v
    | none => findIdFrom rest) = some v
  rw [if_pos h, hcap]

theorem findInsIdx_nil : findInsIdx [] = none := rfl

theorem findInsIdx_cons (c : Char) (rest : Str) :
    findInsIdx (c :: rest) =
      if (decide (0 < ((c :: rest).takeWhile isSpaceJS).length) &&
          ciStarts idPat ((c :: rest).drop
            ((c :: rest).takeWhile isSpaceJS).length)) = true
      then some 0 else (findInsIdx rest).map (· + 1) := rfl

/-- If the extraction regex found an id attribute, the insertion regex
finds a match as well. -/
theorem findInsIdx_isSome_of_findIdFrom {s : Str}
    (h : (findIdFrom s).isSome = true) : (findInsIdx s).isSome = true := by
  induction s with
  | nil => rw [findIdFrom_nil] at h; exact absurd h (by simp)
  | cons c rest ih =>
      by_cases hcond : (isSpaceJS c && ciStarts idPat rest) = true
      · obtain ⟨hsp, hci⟩ : isSpaceJS c = true ∧ ciStarts idPat rest = true := by
          simpa using hcond
        obtain ⟨d, cs, rfl, hd⟩ := ci_idPat_head hci
        have htw : ((c :: d :: cs).takeWhile isSpaceJS).length = 1 := by
          rw [List.takeWhile_cons, if_pos hsp, List.takeWhile_cons, if_neg (by simp [hd])]
          rfl
        rw [findInsIdx_cons, if_pos]
        · rfl
        · rw [htw]
          simpa using hci
      · rw [findIdFrom_cons_skip hcond] at h
        have := ih h
        rw [findInsIdx_cons]
        split
        · rfl
        · simpa using this

/-- What the insertion scanner found: a non-empty whitespace run followed
by `id="`. -/
theorem findInsIdx_spec {s : Str} {p : Nat} (h : findInsIdx s = some p) :
    0 < ((s.drop p).takeWhile isSpaceJS).length ∧
    ciStarts idPat ((s.drop p).drop ((s.drop p).takeWhile isSpaceJS).length) = true := by
  induction s generalizing p with
  | nil => rw [findInsIdx_nil] at h; exact absurd h (by simp)
  | cons c rest ih =>
      rw [findInsIdx_cons] at h
      split at h
      · rename_i hc
        have hp0 : p = 0 := by injection h with h'; omega
        subst hp0
        simp only [decide_eq_true_eq, Bool.and_eq_true] at hc
        simpa using hc
      · obtain ⟨q, hq, rfl⟩ := Option.map_eq_some'.mp h
        simpa using ih hq

/-- Splicing the replacement for a `$`-free attribute block: the
replacement lands textually before the matched `\s+id="` occurrence. -/
theorem insertBeforeId_eq {attrs clean : Str} {p : Nat} (ha : ¬ '$' ∈ attrs)
    (hp : findInsIdx clean = some p) :
    insertBeforeId attrs clean = clean.take p ++ attrs ++ clean.drop p := by
  unfold insertBeforeId
  rw [hp]
  dsimp only
  rw [expandRepl_free ha]
  simp [List.append_assoc, List.take_append_drop]

theorem stripTrailGt_gt (rest : Str) :
    stripTrailGt ('>' :: rest) =
      if rest.all isSpaceJS then [] else '>' :: stripTrailGt rest := rfl

theorem stripTrailGt_cons {c : Char} (hc : c ≠ '>') (rest : Str) :
    stripTrailGt (c :: rest) = c :: stripTrailGt rest := by
  rw [stripTrailGt.eq_def]
  split <;> simp_all

/-- `>\s*$` removes exactly a trailing `'>'` plus whitespace, when any. -/
theorem stripTrailGt_split (s : Str) :
    ∃ r, s = stripTrailGt s ++ r ∧
      (r = [] ∨ ∃ t, r = '>' :: t ∧ t.all isSpaceJS = true) := by
  induction s with
  | nil => exact ⟨[], rfl, Or.inl rfl⟩
  | cons c rest ih =>
      by_cases hc : c = '>'
      · subst hc
        by_cases hall : rest.all isSpaceJS = true
        · exact ⟨'>' :: rest, by rw [stripTrailGt_gt, if_pos hall]; rfl,
            Or.inr ⟨rest, rfl, hall⟩⟩
        · obtain ⟨r, hr, hcase⟩ := ih
          refine ⟨r, ?_, hcase⟩
          rw [stripTrailGt_gt, if_neg hall, List.cons_append, ← hr]
      · obtain ⟨r, hr, hcase⟩ := ih
        refine ⟨r, ?_, hcase⟩
        rw [stripTrailGt_cons hc, List.cons_append, ← hr]

/-! ## The insertion-position claim -/

/-- C3 counterexample: the id-branch insertion is a JavaScript
`String.replace` with a replacement *string*, so `$`-escapes inside the
formatted attribute values are expanded: with style label `$&` the text
spliced in is not the three formatted attribute lines (the output contains
`long-name=" id=""` instead of `long-name="$&"`). -/
theorem C3_counterexample :
    editSvg dollarDoc emptyLookup =
      str "<path inkscape:label=\"$&\"\n    long-name=\" id=\"\"\n    value=\"0\"\n    region=\"0\" id=\"x\">" ∧
    editSvg dollarDoc emptyLookup ≠
      str "<path inkscape:label=\"$&\"\n    long-name=\"$&\"\n    value=\"0\"\n    region=\"0\" id=\"x\">" := by
  constructor
  · decide
  · decide

/-- C3 (amended): insertion position: when the stripped tag contains a
(whitespace-preceded) id attribute and the formatted attribute block is
`$`-free, the block is spliced textually at the first `\s+id="` occurrence
(everything before it is preserved, and what follows starts with the
whitespace run and `id="`); otherwise the output is the stripped tag with
its trailing `'>'` (plus trailing whitespace) removed, then the attribute
block, then `'>'`. -/
theorem C3_insertion :
    (∀ (l : Lookup) (tag : Str), (findIdFrom (cleanTag tag)).isSome = true →
        ¬ '$' ∈ mkAttrs (resolveOf l tag) →
        ∃ p, findInsIdx (cleanTag tag) = some p ∧
          rewriteTag l tag =
            (cleanTag tag).take p ++ mkAttrs (resolveOf l tag) ++ (cleanTag tag).drop p ∧
          0 < (((cleanTag tag).drop p).takeWhile isSpaceJS).length ∧
          ciStarts idPat (((cleanTag tag).drop p).drop
            (((cleanTag tag).drop p).takeWhile isSpaceJS).length) = true) ∧
    (∀ (l : Lookup) (tag : Str), findIdFrom (cleanTag tag) = none →
        rewriteTag l tag =
          stripTrailGt (cleanTag tag) ++ mkAttrs (resolveOf l tag) ++ ['>'] ∧
        ∃ r, cleanTag tag = stripTrailGt (cleanTag tag) ++ r ∧
          (r = [] ∨ ∃ t, r = '>' :: t ∧ t.all isSpaceJS = true)) := by
  constructor
  · intro l tag hsome hd
    obtain ⟨p, hp⟩ := Option.isSome_iff_exists.mp (findInsIdx_isSome_of_findIdFrom hsome)
    refine ⟨p, hp, ?_, (findInsIdx_spec hp).1, (findInsIdx_spec hp).2⟩
    unfold rewriteTag
    dsimp only
    rw [if_pos hsome]
    exact insertBeforeId_eq hd hp
  · intro l tag hnone
    refine ⟨?_, stripTrailGt_split _⟩
    unfold rewriteTag resolveOf
    dsimp only
    rw [hnone]
    simp

/-- Witness for C3 at a concrete tag with an id attribute. -/
theorem C3_witness :
    ∃ p, findInsIdx (cleanTag gtDoc) = some p ∧
      rewriteTag emptyLookup gtDoc =
        (cleanTag gtDoc).take p ++ mkAttrs (resolveOf emptyLookup gtDoc) ++
          (cleanTag gtDoc).drop p ∧
      0 < (((cleanTag gtDoc).drop p).takeWhile isSpaceJS).length ∧
      ciStarts idPat (((cleanTag gtDoc).drop p).drop
        (((cleanTag gtDoc).drop p).takeWhile isSpaceJS).length) = true :=
  C3_insertion.1 emptyLookup gtDoc (by decide) (by decide)

/-! ## Character-level lemmas for case-insensitive matching -/

theorem char_eq_of_toNat {a b : Char} (h : a.toNat = b.toNat) : a = b :=
  Char.ext (UInt32.ext h)

theorem toNat_lowerA (c : Char) :
    (lowerA c).toNat =
      if 65 ≤ c.toNat ∧ c.toNat ≤ 90 then c.toNat + 32 else c.toNat := by
  unfold lowerA
  split
  · rename_i h
    unfold Char.ofNat
    rw [dif_pos (Or.inl (by omega))]
    rfl
  · rfl

theorem lowerA_toNat_eq {c d : Char} (h : lowerA c = lowerA d) :
    (if 65 ≤ c.toNat ∧ c.toNat ≤ 90 then c.toNat + 32 else c.toNat) =
      (if 65 ≤ d.toNat ∧ d.toNat ≤ 90 then d.toNat + 32 else d.toNat) := by
  rw [← toNat_lowerA, ← toNat_lowerA, h]

/-- Whitespace-ness only depends on the case-canonicalized character. -/
theorem isSpaceJS_congr {c d : Char} (h : lowerA c = lowerA d) :
    isSpaceJS c = isSpaceJS d := by
  have he := lowerA_toNat_eq h
  rw [Bool.eq_iff_iff]
  simp only [isSpaceJS, Bool.or_eq_true, Bool.and_eq_true, beq_iff_eq,
    decide_eq_true_eq]
  split_ifs at he <;> omega

/-- Word-character-ness only depends on the case-canonicalized character. -/
theorem isWordChar_congr {c d : Char} (h : lowerA c = lowerA d) :
    isWordChar c = isWordChar d := by
  have he := lowerA_toNat_eq h
  rw [Bool.eq_iff_iff]
  simp only [isWordChar, Bool.or_eq_true, Bool.and_eq_true, beq_iff_eq,
    decide_eq_true_eq]
  split_ifs at he <;> omega

/-- Equality with a non-letter character only depends on the
case-canonicalized character. -/
theorem eq_char_congr {c d : Char} (h : lowerA c = lowerA d) {k : Char}
    (hk : k.toNat < 65 ∨ (90 < k.toNat ∧ k.toNat < 97) ∨ 122 < k.toNat) :
    c = k ↔ d = k := by
  have he := lowerA_toNat_eq h
  constructor
  · rintro rfl
    apply char_eq_of_toNat
    split_ifs at he <;> omega
  · rintro rfl
    apply char_eq_of_toNat
    split_ifs at he <;> omega

theorem ciStarts_congr (p : Str) : ∀ {s t : Str}, lowerStr s = lowerStr t →
    ciStarts p s = ciStarts p t := by
  induction p with
  | nil => intro s t _; rfl
  | cons x ps ih =>
      intro s t h
      match s, t with
      | [], [] => rfl
      | [], _ :: _ => exact absurd h (by simp [lowerStr])
      | _ :: _, [] => exact absurd h (by simp [lowerStr])
      | c :: cs, d :: ds =>
          simp only [lowerStr, List.map_cons, List.cons.injEq] at h
          simp only [ciStarts]
          rw [h.1, ih (show lowerStr cs = lowerStr ds from h.2)]

theorem findGt_congr : ∀ {s t : Str}, lowerStr s = lowerStr t →
    findGt s = findGt t := by
  intro s
  induction s with
  | nil =>
      intro t h
      match t with
      | [] => rfl
      | _ :: _ => exact absurd h (by simp [lowerStr])
  | cons c cs ih =>
      intro t h
      match t with
      | [] => exact absurd h (by simp [lowerStr])
      | d :: ds =>
          simp only [lowerStr, List.map_cons, List.cons.injEq] at h
          have hgt : c = '>' ↔ d = '>' := eq_char_congr h.1 (by decide)
          simp only [findGt]
          by_cases hc : c = '>'
          · rw [if_pos hc, if_pos (hgt.mp hc)]
          · rw [if_neg hc, if_neg (fun hd => hc (hgt.mpr hd)),
              ih (show lowerStr cs = lowerStr ds from h.2)]

theorem lowerStr_drop (n : Nat) (s : Str) :
    lowerStr (s.drop n) = (lowerStr s).drop n := by
  unfold lowerStr
  rw [List.map_drop]

/-- The tag pattern `/<path\b[^>]*>/i` matches case-insensitively: two
inputs equal up to case match identically (and with the same length). -/
theorem matchLenAt_congr {s t : Str} (h : lowerStr s = lowerStr t) :
    matchLenAt s = matchLenAt t := by
  unfold matchLenAt
  rw [ciStarts_congr pathPat h]
  split
  · have hd : lowerStr (s.drop 5) = lowerStr (t.drop 5) := by
      rw [lowerStr_drop, lowerStr_drop, h]
    match hs5 : s.drop 5, ht5 : t.drop 5 with
    | [], [] => rfl
    | [], _ :: _ => rw [hs5, ht5] at hd; exact absurd hd (by simp [lowerStr])
    | _ :: _, [] => rw [hs5, ht5] at hd; exact absurd hd (by simp [lowerStr])
    | c :: cs, d :: ds =>
        rw [hs5, ht5] at hd
        simp only [lowerStr, List.map_cons, List.cons.injEq] at hd
        dsimp only
        rw [isWordChar_congr hd.1]
        split
        · rfl
        · rw [findGt_congr (show lowerStr (c :: cs) = lowerStr (d :: ds) by
            simp [lowerStr, hd.1, hd.2])]
  · rfl

theorem takeWhile_len_congr {p : Char → Bool}
    (hp : ∀ c d, lowerA c = lowerA d → p c = p d) :
    ∀ {s t : Str}, lowerStr s = lowerStr t →
      (s.takeWhile p).length = (t.takeWhile p).length := by
  intro s
  induction s with
  | nil =>
      intro t h
      match t with
      | [] => rfl
      | _ :: _ => exact absurd h (by simp [lowerStr])
  | cons c cs ih =>
      intro t h
      match t with
      | [] => exact absurd h (by simp [lowerStr])
      | d :: ds =>
          simp only [lowerStr, List.map_cons, List.cons.injEq] at h
          rw [List.takeWhile_cons, List.takeWhile_cons, ← hp c d h.1]
          split
          · simp only [List.length_cons,
              ih (show lowerStr cs = lowerStr ds from h.2)]
          · rfl

theorem contains_quote_congr : ∀ {s t : Str}, lowerStr s = lowerStr t →
    s.contains '"' = t.contains '"' := by
  intro s
  induction s with
  | nil =>
      intro t h
      match t with
      | [] => rfl
      | _ :: _ => exact absurd h (by simp [lowerStr])
  | cons c cs ih =>
      intro t h
      match t with
      | [] => exact absurd h (by simp [lowerStr])
      | d :: ds =>
          simp only [lowerStr, List.map_cons, List.cons.injEq] at h
          have hq : c = '"' ↔ d = '"' := eq_char_congr h.1 (by decide)
          simp only [List.contains_cons]
          rw [Bool.eq_iff_iff]
          simp only [Bool.or_eq_true, beq_iff_eq]
          rw [eq_comm (a := '"') (b := c), eq_comm (a := '"') (b := d), hq,
            ih (show lowerStr cs = lowerStr ds from h.2)]

/-- The attribute-strip pattern `\s+name="[^"]*"` matches
case-insensitively. -/
theorem tryAttrMatch_congr (name : Str) {s t : Str}
    (h : lowerStr s = lowerStr t) :
    tryAttrMatch name s = tryAttrMatch name t := by
  have hsp : ∀ c d : Char, lowerA c = lowerA d → isSpaceJS c = isSpaceJS d :=
    fun _ _ => isSpaceJS_congr
  have hq : ∀ c d : Char, lowerA c = lowerA d → (c != '"') = (d != '"') := by
    intro c d hcd
    have := eq_char_congr hcd (k := '"') (by decide)
    rw [Bool.eq_iff_iff]
    simp only [bne_iff_ne, ne_eq, not_iff_not]
    exact this
  have hw : (s.takeWhile isSpaceJS).length = (t.takeWhile isSpaceJS).length :=
    takeWhile_len_congr hsp h
  unfold tryAttrMatch
  dsimp only
  rw [hw]
  split
  · rfl
  · have hd : lowerStr (s.drop (t.takeWhile isSpaceJS).length) =
        lowerStr (t.drop (t.takeWhile isSpaceJS).length) := by
      rw [lowerStr_drop, lowerStr_drop, h]
    rw [ciStarts_congr _ hd]
    split
    · have hd2 : lowerStr ((s.drop (t.takeWhile isSpaceJS).length).drop
          (name.length + 2)) =
          lowerStr ((t.drop (t.takeWhile isSpaceJS).length).drop
          (name.length + 2)) := by
        simp only [lowerStr_drop]
        rw [h]
      rw [contains_quote_congr hd2]
      split
      · rw [takeWhile_len_congr hq hd2]
      · rfl
    · rfl

/-- The label-extraction pattern `inkscape:label="..."` matches
case-insensitively (success is case-invariant). -/
theorem findLabelFrom_congr : ∀ {s t : Str}, lowerStr s = lowerStr t →
    (findLabelFrom s).isSome = (findLabelFrom t).isSome := by
  intro s
  induction s with
  | nil =>
      intro t h
      match t with
      | [] => rfl
      | _ :: _ => exact absurd h (by simp [lowerStr])
  | cons c cs ih =>
      intro t h
      match t with
      | [] => exact absurd h (by simp [lowerStr])
      | d :: ds =>
          have hcd : lowerStr (c :: cs) = lowerStr (d :: ds) := h
          simp only [lowerStr, List.map_cons, List.cons.injEq] at h
          have hci := ciStarts_congr labelPat hcd
          have hdl : lowerStr ((c :: cs).drop labelPat.length) =
              lowerStr ((d :: ds).drop labelPat.length) := by
            rw [lowerStr_drop, lowerStr_drop, hcd]
          have hcap : (takeCapture ((c :: cs).drop labelPat.length)).isSome =
              (takeCapture ((d :: ds).drop labelPat.length)).isSome := by
            unfold takeCapture
            rw [contains_quote_congr hdl]
            split <;> rfl
          have e1 : findLabelFrom (c :: cs) =
              match (if ciStarts labelPat (c :: cs)
                  then takeCapture ((c :: cs).drop labelPat.length) else none) with
              | some v => some v
              | none => findLabelFrom cs := rfl
          have e2 : findLabelFrom (d :: ds) =
              match (if ciStarts labelPat (d :: ds)
                  then takeCapture ((d :: ds).drop labelPat.length) else none) with
              | some v => some v
              | none => findLabelFrom ds := rfl
          rw [e1, e2, hci]
          by_cases hcit : ciStarts labelPat (d :: ds) = true
          · rw [if_pos hcit, if_pos hcit]
            cases hc1 : takeCapture ((c :: cs).drop labelPat.length) with
            | some v =>
                cases hc2 : takeCapture ((d :: ds).drop labelPat.length) with
                | some w => rfl
                | none => rw [hc1, hc2] at hcap; exact absurd hcap (by simp)
            | none =>
                cases hc2 : takeCapture ((d :: ds).drop labelPat.length) with
                | some w => rw [hc1, hc2] at hcap; exact absurd hcap (by simp)
                | none =>
                    exact ih (show lowerStr cs = lowerStr ds from h.2)
          · rw [if_neg hcit, if_neg hcit]
            exact ih (show lowerStr cs = lowerStr ds from h.2)

/-- The id-extraction pattern `\sid="..."` matches case-insensitively
(success is case-invariant). -/
theorem findIdFrom_congr : ∀ {s t : Str}, lowerStr s = lowerStr t →
    (findIdFrom s).isSome = (findIdFrom t).isSome := by
  intro s
  induction s with
  | nil =>
      intro t h
      match t with
      | [] => rfl
      | _ :: _ => exact absurd h (by simp [lowerStr])
  | cons c cs ih =>
      intro t h
      match t with
      | [] => exact absurd h (by simp [lowerStr])
      | d :: ds =>
          simp only [lowerStr, List.map_cons, List.cons.injEq] at h
          have hco : (isSpaceJS c && ciStarts idPat cs) =
              (isSpaceJS d && ciStarts idPat ds) := by
            rw [isSpaceJS_congr h.1,
              ciStarts_congr idPat (show lowerStr cs = lowerStr ds from h.2)]
          have hdl : lowerStr (cs.drop 4) = lowerStr (ds.drop 4) := by
            rw [lowerStr_drop, lowerStr_drop,
              (show lowerStr cs = lowerStr ds from h.2)]
          have hcap : (takeCapture (cs.drop 4)).isSome =
              (takeCapture (ds.drop 4)).isSome := by
            unfold takeCapture
            rw [contains_quote_congr hdl]
            split <;> rfl
          have e1 : findIdFrom (c :: cs) =
              match (if isSpaceJS c && ciStarts idPat cs
                  then takeCapture (cs.drop 4) else none) with
              | some v => some v
              | none => findIdFrom cs := rfl
          have e2 : findIdFrom (d :: ds) =
              match (if isSpaceJS d && ciStarts idPat ds
                  then takeCapture (ds.drop 4) else none) with
              | some v => some v
              | none => findIdFrom ds := rfl
          rw [e1, e2, hco]
          by_cases hcit : (isSpaceJS d && ciStarts idPat ds) = true
          · rw [if_pos hcit, if_pos hcit]
            cases hc1 : takeCapture (cs.drop 4) with
            | some v =>
                cases hc2 : takeCapture (ds.drop 4) with
                | some w => rfl
                | none => rw [hc1, hc2] at hcap; exact absurd hcap (by simp)
            | none =>
                cases hc2 : takeCapture (ds.drop 4) with
                | some w => rw [hc1, hc2] at hcap; exact absurd hcap (by simp)
                | none => exact ih (show lowerStr cs = lowerStr ds from h.2)
          · rw [if_neg hcit, if_neg hcit]
            exact ih (show lowerStr cs = lowerStr ds from h.2)

/-! ## The case-insensitivity claim -/

/-- C9: tag and attribute matching are case-insensitive: the tag-pattern
match (and its length), the strip pattern, and the success of the label
and id extractions are all invariant under case changes of the input;
end-to-end, an upper-case `<PATH ... VALUE="9" ID="p1">` is stripped,
resolved through `byId` and rewritten exactly like its lower-case
counterpart. -/
theorem C9_case_insensitive :
    (∀ s t : Str, lowerStr s = lowerStr t → matchLenAt s = matchLenAt t) ∧
    (∀ (name : Str) {s t : Str}, lowerStr s = lowerStr t →
        tryAttrMatch name s = tryAttrMatch name t) ∧
    (∀ s t : Str, lowerStr s = lowerStr t →
        (findLabelFrom s).isSome = (findLabelFrom t).isSome ∧
        (findIdFrom s).isSome = (findIdFrom t).isSome) ∧
    editSvg (str "<PATH INKSCAPE:LABEL=\"Norte\" VALUE=\"9\" ID=\"p1\"/>")
        (buildLookup (parseCSV precCsv)) =
      str "<PATH INKSCAPE:LABEL=\"Norte\"\n    long-name=\"North\"\n    value=\"7\"\n    region=\"2\" ID=\"p1\"/>" :=
  ⟨fun _ _ h => matchLenAt_congr h,
   fun name _ _ h => tryAttrMatch_congr name h,
   fun _ _ h => ⟨findLabelFrom_congr h, findIdFrom_congr h⟩,
   by decide⟩

/-- Witness for C9 at a concrete case-variant pair. -/
theorem C9_witness :
    matchLenAt (str "<PATH Id=\"p1\"/>") = matchLenAt (str "<path id=\"p1\"/>") :=
  C9_case_insensitive.1 (str "<PATH Id=\"p1\"/>") (str "<path id=\"p1\"/>")
    (by decide)

/-! ## The strip-pass machinery -/

theorem stripGoF_zero (name s : Str) : stripGoF name 0 s = s := rfl

theorem stripGoF_nil (name : Str) (f : Nat) : stripGoF name f [] = [] := by
  cases f <;> rfl

theorem stripGoF_cons_match {name : Str} {c : Char} {rest : Str} {n : Nat}
    (h : tryAttrMatch name (c :: rest) = some n) (f : Nat) :
    stripGoF name (f + 1) (c :: rest) = stripGoF name f ((c :: rest).drop n) := by
  show (match tryAttrMatch name (c :: rest) with
    | some n => stripGoF name f ((c :: rest).drop n)
    | none => c :: stripGoF name f rest) = _
  rw [h]

theorem stripGoF_cons_skip {name : Str} {c : Char} {rest : Str}
    (h : tryAttrMatch name (c :: rest) = none) (f : Nat) :
    stripGoF name (f + 1) (c :: rest) = c :: stripGoF name f rest := by
  show (match tryAttrMatch name (c :: rest) with
    | some n => stripGoF name f ((c :: rest).drop n)
    | none => c :: stripGoF name f rest) = _
  rw [h]

theorem ciStarts_length : ∀ {p s : Str}, ciStarts p s = true → p.length ≤ s.length := by
  intro p
  induction p with
  | nil => intro s _; simp
  | cons x ps ih =>
      intro s h
      match s with
      | [] => exact absurd h (by simp [ciStarts])
      | c :: cs =>
          simp only [ciStarts, Bool.and_eq_true] at h
          simpa using ih h.2

theorem takeWhile_len_le (p : Char → Bool) : ∀ s : Str,
    (s.takeWhile p).length ≤ s.length := by
  intro s
  induction s with
  | nil => simp
  | cons c cs ih =>
      rw [List.takeWhile_cons]
      split
      · simpa using ih
      · simp

theorem contains_quote_append (v rest : Str) :
    (v ++ '"' :: rest).contains '"' = true := by
  induction v with
  | nil => simp [List.contains_cons]
  | cons c v' ih => simp [List.contains_cons, ih]

theorem takeWhile_lt_of_contains {u : Str} (h : u.contains '"' = true) :
    (u.takeWhile (· != '"')).length < u.length := by
  induction u with
  | nil => exact absurd h (by simp [List.contains])
  | cons c cs ih =>
      by_cases hc : c = '"'
      · subst hc
        rw [List.takeWhile_cons, if_neg (by simp)]
        simp
      · rw [List.takeWhile_cons, if_pos (by simp [hc])]
        simp only [List.contains_cons] at h
        have hcs : cs.contains '"' = true := by
          rcases (by simpa using h : '"' = c ∨ cs.contains '"' = true) with h' | h'
          · exact absurd h'.symm hc
          · exact h'
        simpa using ih hcs

/-- A successful strip match consumes at least one character. -/
theorem tryAttrMatch_pos {name s : Str} {n : Nat}
    (h : tryAttrMatch name s = some n) : 0 < n := by
  simp only [tryAttrMatch] at h
  split at h
  · exact absurd h (by simp)
  · split at h
    · split at h
      · rename_i hw _ _
        simp only [Option.some.injEq] at h
        omega
      · exact absurd h (by simp)
    · exact absurd h (by simp)

/-- A successful strip match consumes at most the whole string. -/
theorem tryAttrMatch_le {name s : Str} {n : Nat}
    (h : tryAttrMatch name s = some n) : n ≤ s.length := by
  simp only [tryAttrMatch] at h
  split at h
  · exact absurd h (by simp)
  · split at h
    · split at h
      · rename_i hw hci hq
        simp only [Option.some.injEq] at h
        have h1 : (s.takeWhile isSpaceJS).length ≤ s.length :=
          takeWhile_len_le _ _
        have h2 := ciStarts_length hci
        have h3 := takeWhile_lt_of_contains hq
        rw [List.length_append] at h2
        simp only [List.length_drop] at h2 h3 ⊢
        omega
      · exact absurd h (by simp)
    · exact absurd h (by simp)

theorem stripGoF_irrel (name : Str) : ∀ (k f g : Nat) (s : Str),
    s.length ≤ k → s.length ≤ f → s.length ≤ g →
    stripGoF name f s = stripGoF name g s := by
  intro k
  induction k with
  | zero =>
      intro f g s hk _ _
      have : s = [] := List.length_eq_zero.mp (Nat.le_zero.mp hk)
      subst this
      rw [stripGoF_nil, stripGoF_nil]
  | succ k ih =>
      intro f g s hk hf hg
      match s with
      | [] => rw [stripGoF_nil, stripGoF_nil]
      | c :: rest =>
          simp only [List.length_cons] at hk hf hg
          match f, g with
          | f' + 1, g' + 1 =>
              cases hm : tryAttrMatch name (c :: rest) with
              | some n =>
                  rw [stripGoF_cons_match hm, stripGoF_cons_match hm]
                  have hn1 := tryAttrMatch_pos hm
                  have hn2 := tryAttrMatch_le hm
                  simp only [List.length_cons] at hn2
                  apply ih
                  · simp only [List.length_drop, List.length_cons]; omega
                  · simp only [List.length_drop, List.length_cons]; omega
                  · simp only [List.length_drop, List.length_cons]; omega
              | none =>
                  rw [stripGoF_cons_skip hm, stripGoF_cons_skip hm]
                  congr 1
                  exact ih f' g' rest (by omega) (by omega) (by omega)

theorem stripAttr_nil (name : Str) : stripAttr name [] = [] := rfl

theorem stripAttr_cons_skip {name : Str} {c : Char} {rest : Str}
    (h : tryAttrMatch name (c :: rest) = none) :
    stripAttr name (c :: rest) = c :: stripAttr name rest :=
  stripGoF_cons_skip h rest.length

theorem stripAttr_cons_match {name : Str} {c : Char} {rest : Str} {n : Nat}
    (h : tryAttrMatch name (c :: rest) = some n) :
    stripAttr name (c :: rest) = stripAttr name ((c :: rest).drop n) := by
  unfold stripAttr
  rw [show (c :: rest).length = rest.length + 1 from rfl, stripGoF_cons_match h]
  have h1 := tryAttrMatch_pos h
  have h2 := tryAttrMatch_le h
  simp only [List.length_cons] at h2
  exact stripGoF_irrel name ((c :: rest).drop n).length _ _ _
    le_rfl (by simp only [List.length_drop, List.length_cons]; omega) le_rfl

/-- A string in which no suffix position matches the strip pattern is left
unchanged by the strip pass. -/
theorem stripAttr_id {name s : Str}
    (h : ∀ t, t <:+ s → tryAttrMatch name t = none) :
    stripAttr name s = s := by
  induction s with
  | nil => rfl
  | cons c rest ih =>
      rw [stripAttr_cons_skip (h _ List.suffix_rfl),
        ih (fun t ht => h t (ht.trans (List.suffix_cons c rest)))]

/-- Skipping a block in which no strip match can start. -/
theorem stripAttr_append_skip {name a b : Str}
    (hc : ∀ t, t <:+ a → t ≠ [] → tryAttrMatch name (t ++ b) = none) :
    stripAttr name (a ++ b) = a ++ stripAttr name b := by
  induction a with
  | nil => simp
  | cons c a' ih =>
      rw [List.cons_append,
        stripAttr_cons_skip
          (by simpa using hc (c :: a') List.suffix_rfl (by simp)),
        ih (fun t ht hne => hc t (ht.trans (List.suffix_cons c a')) hne)]
      simp

theorem tryAttrMatch_not_space {name : Str} {c : Char} {rest : Str}
    (h : isSpaceJS c = false) : tryAttrMatch name (c :: rest) = none := by
  have htw : (c :: rest).takeWhile isSpaceJS = [] := by
    rw [List.takeWhile_cons, if_neg (by rw [h]; exact Bool.false_ne_true)]
  unfold tryAttrMatch
  dsimp only
  rw [htw]
  rfl

theorem ciStarts_self_append : ∀ (p u : Str), ciStarts p (p ++ u) = true := by
  intro p
  induction p with
  | nil => intro u; rfl
  | cons x ps ih => intro u; simp [ciStarts, ih]

theorem ciStarts_append_cancel : ∀ (p t u : Str),
    ciStarts (p ++ t) (p ++ u) = ciStarts t u := by
  intro p
  induction p with
  | nil => intro t u; rfl
  | cons x ps ih => intro t u; simp [ciStarts, ih]

theorem takeWhile_all_append {p : Char → Bool} {a b : Str}
    (ha : ∀ c ∈ a, p c = true) (hb : ∀ c cs, b = c :: cs → p c = false) :
    (a ++ b).takeWhile p = a := by
  induction a with
  | nil =>
      match b with
      | [] => rfl
      | c :: cs => simp [List.takeWhile_cons, hb c cs rfl]
  | cons c a' ih =>
      rw [List.cons_append, List.takeWhile_cons,
        if_pos (ha c (List.mem_cons_self c a')),
        ih (fun d hd => ha d (List.mem_cons_of_mem c hd))]

/-- The whitespace-block-then-mismatch case: no strip match here. -/
theorem tryAttrMatch_ws_block {name ws : Str} {d : Char} {rest : Str}
    (hws : ∀ c ∈ ws, isSpaceJS c = true) (hd : isSpaceJS d = false)
    (hci : ciStarts (name ++ ['=', '"']) (d :: rest) = false) :
    tryAttrMatch name (ws ++ d :: rest) = none := by
  match ws with
  | [] => exact tryAttrMatch_not_space hd
  | w :: ws' =>
      unfold tryAttrMatch
      dsimp only
      rw [takeWhile_all_append hws (fun c cs h => by
        injection h with h1 _
        rw [← h1]
        exact hd)]
      rw [if_neg (by simp), List.drop_left,
        if_neg (by rw [hci]; exact Bool.false_ne_true)]

/-- The strip pattern matches a fresh whitespace-plus-attribute block
exactly, consuming through the closing quote. -/
theorem tryAttrMatch_found {name ws v rest : Str} {nc : Char} {ncs : Str}
    (hname : name = nc :: ncs) (hnc : isSpaceJS nc = false)
    (hws0 : ws ≠ []) (hwsall : ∀ c ∈ ws, isSpaceJS c = true)
    (hv : ∀ c ∈ v, c ≠ '"') :
    tryAttrMatch name (ws ++ (name ++ '=' :: '"' :: (v ++ '"' :: rest))) =
      some (ws.length + name.length + 2 + v.length + 1) := by
  unfold tryAttrMatch
  dsimp only
  rw [takeWhile_all_append hwsall (fun c cs h => by
    rw [hname] at h
    injection h with h1 _
    rw [← h1]
    exact hnc)]
  rw [if_neg (by simpa using hws0), List.drop_left]
  have hsh : name ++ '=' :: '"' :: (v ++ '"' :: rest) =
      (name ++ ['=', '"']) ++ (v ++ '"' :: rest) := by simp
  rw [hsh, ciStarts_self_append, if_pos rfl]
  rw [show name.length + 2 = (name ++ ['=', '"']).length by simp, List.drop_left]
  rw [if_pos (contains_quote_append v rest)]
  rw [takeWhile_all_append (fun c hc => by simp [hv c hc])
    (fun c cs h => by injection h with h1 _; rw [← h1]; simp)]

/-- What remains after the strip pattern removes one attribute block. -/
theorem stripAttr_attr_head {name ws v rest : Str} {nc wc : Char} {ncs wcs : Str}
    (hname : name = nc :: ncs) (hnc : isSpaceJS nc = false)
    (hws : ws = wc :: wcs) (hwsall : ∀ c ∈ ws, isSpaceJS c = true)
    (hv : ∀ c ∈ v, c ≠ '"') :
    stripAttr name (ws ++ (name ++ '=' :: '"' :: (v ++ '"' :: rest))) =
      stripAttr name rest := by
  have hm : tryAttrMatch name (ws ++ (name ++ '=' :: '"' :: (v ++ '"' :: rest))) =
      some (ws.length + name.length + 2 + v.length + 1) :=
    tryAttrMatch_found hname hnc (by rw [hws]; simp) hwsall hv
  subst hws
  rw [List.cons_append] at hm ⊢
  rw [stripAttr_cons_match hm]
  congr 1
  rw [← List.cons_append]
  have hsh : (wc :: wcs) ++ (name ++ '=' :: '"' :: (v ++ '"' :: rest)) =
      ((wc :: wcs) ++ (name ++ '=' :: '"' :: (v ++ ['"']))) ++ rest := by simp
  rw [hsh]
  rw [show (wc :: wcs).length + name.length + 2 + v.length + 1 =
      ((wc :: wcs) ++ (name ++ '=' :: '"' :: (v ++ ['"']))).length by
    simp
    omega]
  exact List.drop_left _ _

/-- "No strip match starts anywhere": composing blocks of non-whitespace
characters. -/
theorem noStrip_nospace_block {name a s : Str}
    (ha : ∀ c ∈ a, isSpaceJS c = false)
    (hs : ∀ t, t <:+ s → tryAttrMatch name t = none) :
    ∀ t, t <:+ a ++ s → tryAttrMatch name t = none := by
  induction a with
  | nil => simpa using hs
  | cons c a' ih =>
      intro t ht
      rw [List.cons_append] at ht
      rcases List.suffix_cons_iff.mp ht with rfl | ht'
      · exact tryAttrMatch_not_space (ha c (List.mem_cons_self c a'))
      · exact ih (fun d hd => ha d (List.mem_cons_of_mem c hd)) t ht'

/-- "No strip match starts anywhere": a whitespace run whose follower does
not continue the pattern. -/
theorem noStrip_ws_block {name ws : Str} {d : Char} {rest : Str}
    (hws : ∀ c ∈ ws, isSpaceJS c = true) (hd : isSpaceJS d = false)
    (hci : ciStarts (name ++ ['=', '"']) (d :: rest) = false)
    (hs : ∀ t, t <:+ d :: rest → tryAttrMatch name t = none) :
    ∀ t, t <:+ ws ++ d :: rest → tryAttrMatch name t = none := by
  induction ws with
  | nil => simpa using hs
  | cons c ws' ih =>
      intro t ht
      rw [List.cons_append] at ht
      rcases List.suffix_cons_iff.mp ht with rfl | ht'
      · rw [← List.cons_append]
        exact tryAttrMatch_ws_block hws hd hci
      · exact ih (fun e he => hws e (List.mem_cons_of_mem c he)) t ht'

theorem noStrip_nil (name : Str) :
    ∀ t, t <:+ ([] : Str) → tryAttrMatch name t = none := by
  intro t ht
  rw [List.suffix_nil.mp ht]
  rfl

/-- Cross-boundary skipping: a block of non-whitespace characters can
never begin a strip match, whatever follows. -/
theorem cross_nospace {name a : Str} (ha : ∀ c ∈ a, isSpaceJS c = false)
    (b : Str) : ∀ t, t <:+ a → t ≠ [] → tryAttrMatch name (t ++ b) = none := by
  intro t ht hne
  match t with
  | [] => exact absurd rfl hne
  | c :: t' =>
      exact tryAttrMatch_not_space (ha c (ht.subset (List.mem_cons_self c t')))

/-! ## The tag-scan machinery -/

theorem matchLenAt_nil : matchLenAt [] = none := rfl

theorem matchLenAt_pos {s : Str} {n : Nat} (h : matchLenAt s = some n) : 0 < n := by
  unfold matchLenAt at h
  split at h
  · split at h
    · exact absurd h (by simp)
    · split at h
      · exact absurd h (by simp)
      · split at h
        · simp only [Option.some.injEq] at h
          omega
        · exact absurd h (by simp)
  · exact absurd h (by simp)

theorem findGt_lt : ∀ {u : Str} {k : Nat}, findGt u = some k → k < u.length := by
  intro u
  induction u with
  | nil => intro k h; exact absurd h (by simp [findGt])
  | cons c cs ih =>
      intro k h
      simp only [findGt] at h
      split at h
      · simp only [Option.some.injEq] at h
        simp only [List.length_cons]
        omega
      · obtain ⟨q, hq, rfl⟩ := Option.map_eq_some'.mp h
        have := ih hq
        simp only [List.length_cons]
        omega

theorem matchLenAt_le {s : Str} {n : Nat} (h : matchLenAt s = some n) :
    n ≤ s.length := by
  unfold matchLenAt at h
  split at h
  · rename_i hci
    have h5 : (5 : Nat) ≤ s.length := by
      have := ciStarts_length hci
      simpa [pathPat] using this
    split at h
    · exact absurd h (by simp)
    · rename_i c rest hdrop
      split at h
      · exact absurd h (by simp)
      · split at h
        · rename_i k hk
          simp only [Option.some.injEq] at h
          have h1 := findGt_lt hk
          have hdl : (c :: rest).length = s.length - 5 := by
            rw [← hdrop]
            simp
          rw [hdl] at h1
          omega
        · exact absurd h (by simp)
  · exact absurd h (by simp)

theorem scanSvgF_zero (l : Lookup) (s : Str) : scanSvgF l 0 s = s := rfl

theorem scanSvgF_nil (l : Lookup) (f : Nat) : scanSvgF l f [] = [] := by
  cases f <;> rfl

theorem scanSvgF_cons_match {c : Char} {rest : Str} {n : Nat} {l : Lookup}
    (h : matchLenAt (c :: rest) = some n) (f : Nat) :
    scanSvgF l (f + 1) (c :: rest) =
      rewriteTag l ((c :: rest).take n) ++ scanSvgF l f ((c :: rest).drop n) := by
  show (match matchLenAt (c :: rest) with
    | some n => rewriteTag l ((c :: rest).take n) ++ scanSvgF l f ((c :: rest).drop n)
    | none => c :: scanSvgF l f rest) = _
  rw [h]

theorem scanSvgF_cons_skip {c : Char} {rest : Str} {l : Lookup}
    (h : matchLenAt (c :: rest) = none) (f : Nat) :
    scanSvgF l (f + 1) (c :: rest) = c :: scanSvgF l f rest := by
  show (match matchLenAt (c :: rest) with
    | some n => rewriteTag l ((c :: rest).take n) ++ scanSvgF l f ((c :: rest).drop n)
    | none => c :: scanSvgF l f rest) = _
  rw [h]

theorem scanSvgF_irrel (l : Lookup) : ∀ (k f g : Nat) (s : Str),
    s.length ≤ k → s.length ≤ f → s.length ≤ g →
    scanSvgF l f s = scanSvgF l g s := by
  intro k
  induction k with
  | zero =>
      intro f g s hk _ _
      have : s = [] := List.length_eq_zero.mp (Nat.le_zero.mp hk)
      subst this
      rw [scanSvgF_nil, scanSvgF_nil]
  | succ k ih =>
      intro f g s hk hf hg
      match s with
      | [] => rw [scanSvgF_nil, scanSvgF_nil]
      | c :: rest =>
          simp only [List.length_cons] at hk hf hg
          match f, g with
          | f' + 1, g' + 1 =>
              cases hm : matchLenAt (c :: rest) with
              | some n =>
                  rw [scanSvgF_cons_match hm, scanSvgF_cons_match hm]
                  congr 1
                  have hn1 := matchLenAt_pos hm
                  have hn2 := matchLenAt_le hm
                  simp only [List.length_cons] at hn2
                  apply ih
                  · simp only [List.length_drop, List.length_cons]; omega
                  · simp only [List.length_drop, List.length_cons]; omega
                  · simp only [List.length_drop, List.length_cons]; omega
              | none =>
                  rw [scanSvgF_cons_skip hm, scanSvgF_cons_skip hm]
                  congr 1
                  exact ih f' g' rest (by omega) (by omega) (by omega)

theorem editSvg_nil (l : Lookup) : editSvg [] l = [] := rfl

theorem editSvg_cons_skip {c : Char} {rest : Str} {l : Lookup}
    (h : matchLenAt (c :: rest) = none) :
    editSvg (c :: rest) l = c :: editSvg rest l := by
  unfold editSvg
  rw [show (c :: rest).length = rest.length + 1 from rfl]
  exact scanSvgF_cons_skip h _

theorem editSvg_match {s : Str} {n : Nat} {l : Lookup}
    (h : matchLenAt s = some n) :
    editSvg s l = rewriteTag l (s.take n) ++ editSvg (s.drop n) l := by
  match s with
  | [] => exact absurd h (by rw [matchLenAt_nil]; simp)
  | c :: rest =>
      unfold editSvg
      rw [show (c :: rest).length = rest.length + 1 from rfl,
        scanSvgF_cons_match h]
      congr 1
      have h1 := matchLenAt_pos h
      have h2 := matchLenAt_le h
      simp only [List.length_cons] at h2
      exact scanSvgF_irrel l ((c :: rest).drop n).length _ _ _ le_rfl
        (by simp only [List.length_drop, List.length_cons]; omega) le_rfl

theorem eq_of_lowerA_nonletter {c k : Char}
    (hk : k.toNat < 65 ∨ (90 < k.toNat ∧ k.toNat < 97) ∨ 122 < k.toNat)
    (h : lowerA c = k) : c = k := by
  have hc := toNat_lowerA c
  rw [h] at hc
  apply char_eq_of_toNat
  split_ifs at hc <;> omega

/-- A position whose head is not `'<'` can never start a tag match. -/
theorem matchLenAt_not_lt {c : Char} {rest : Str} (h : c ≠ '<') :
    matchLenAt (c :: rest) = none := by
  have hci : ciStarts pathPat (c :: rest) = false := by
    cases hci : ciStarts pathPat (c :: rest)
    · rfl
    · exfalso
      simp only [pathPat, ciStarts, Bool.and_eq_true, beq_iff_eq] at hci
      have h1 : lowerA c = '<' := by
        have := hci.1
        rw [show lowerA '<' = '<' by decide] at this
        exact this.symm
      exact h (eq_of_lowerA_nonletter (by decide) h1)
  unfold matchLenAt
  rw [hci]
  simp

/-- Text free of `'<'` is passed through unchanged by the scan. -/
theorem editSvg_skip_block {a : Str} (ha : ∀ c ∈ a, c ≠ '<') (b : Str)
    (l : Lookup) : editSvg (a ++ b) l = a ++ editSvg b l := by
  induction a with
  | nil => simp
  | cons c a' ih =>
      rw [List.cons_append,
        editSvg_cons_skip (matchLenAt_not_lt (ha c (List.mem_cons_self c a'))),
        ih (fun d hd => ha d (List.mem_cons_of_mem c hd))]
      simp

theorem findGt_append_no {a : Str} (ha : ∀ c ∈ a, c ≠ '>') (r : Str) :
    findGt (a ++ '>' :: r) = some a.length := by
  induction a with
  | nil => simp [findGt]
  | cons c a' ih =>
      rw [List.cons_append]
      simp only [findGt]
      rw [if_neg (ha c (List.mem_cons_self c a')),
        ih (fun d hd => ha d (List.mem_cons_of_mem c hd))]
      simp

/-- The tag pattern matches the canonical `<path`-to-`'>'` span, whatever
follows. -/
theorem matchLenAt_pathTag {inner rest : Str} (hin : ∀ c ∈ inner, c ≠ '>')
    (hb : ∀ c cs, inner = c :: cs → isWordChar c = false) :
    matchLenAt (pathPat ++ (inner ++ '>' :: rest)) =
      some (5 + inner.length + 1) := by
  unfold matchLenAt
  rw [ciStarts_self_append, if_pos rfl,
    show (5 : Nat) = pathPat.length from rfl, List.drop_left]
  match inner with
  | [] =>
      rw [List.nil_append]
      dsimp only
      rw [if_neg (by decide)]
      simp [findGt]
  | c :: inner' =>
      rw [List.cons_append]
      dsimp only
      rw [if_neg (by rw [hb c inner' rfl]; exact Bool.false_ne_true),
        show (c :: (inner' ++ '>' :: rest)) = (c :: inner') ++ '>' :: rest
          from rfl,
        findGt_append_no hin]

/-- Scanning a matched tag rewrites exactly that span and continues. -/
theorem editSvg_tag {tag rest : Str} {l : Lookup}
    (hm : matchLenAt (tag ++ rest) = some tag.length) :
    editSvg (tag ++ rest) l = rewriteTag l tag ++ editSvg rest l := by
  rw [editSvg_match hm, List.take_left, List.drop_left]

/-! ## Alphanumeric character facts -/

theorem alnum_ranges {c : Char} (h : alnumChar c = true) :
    (48 ≤ c.toNat ∧ c.toNat ≤ 57) ∨ (65 ≤ c.toNat ∧ c.toNat ≤ 90) ∨
      (97 ≤ c.toNat ∧ c.toNat ≤ 122) := by
  simp only [alnumChar, Bool.or_eq_true, Bool.and_eq_true, decide_eq_true_eq] at h
  tauto

theorem alnum_not_space {c : Char} (h : alnumChar c = true) :
    isSpaceJS c = false := by
  have hr := alnum_ranges h
  rw [Bool.eq_false_iff]
  intro hsp
  simp only [isSpaceJS, Bool.or_eq_true, Bool.and_eq_true, beq_iff_eq,
    decide_eq_true_eq] at hsp
  omega

theorem alnum_word {c : Char} (h : alnumChar c = true) : isWordChar c = true := by
  have hr := alnum_ranges h
  simp only [isWordChar, Bool.or_eq_true, Bool.and_eq_true, beq_iff_eq,
    decide_eq_true_eq]
  omega

theorem alnum_ne {c : Char} (h : alnumChar c = true) {k : Char}
    (hk : k.toNat < 48 ∨ (57 < k.toNat ∧ k.toNat < 65) ∨
      (90 < k.toNat ∧ k.toNat < 97) ∨ 122 < k.toNat) : c ≠ k := by
  have hr := alnum_ranges h
  intro hc
  subst hc
  omega

theorem alnum_lower_ne_colon {c : Char} (h : alnumChar c = true) :
    lowerA c ≠ ':' := by
  have hr := alnum_ranges h
  intro hcol
  have h1 : (lowerA c).toNat = (':' : Char).toNat := by rw [hcol]
  rw [toNat_lowerA] at h1
  have h2 : (':' : Char).toNat = 58 := by decide
  split_ifs at h1 <;> omega

/-- Escaping is the identity on quote-free strings. -/
theorem sanitize_id {s : Str} (h : ∀ c ∈ s, c ≠ '"') : sanitize s = s := by
  induction s with
  | nil => rfl
  | cons c cs ih =>
      show (if c = '"' then str "&quot;" else [c]) ++ sanitize cs = c :: cs
      rw [if_neg (h c (List.mem_cons_self c cs)),
        ih (fun d hd => h d (List.mem_cons_of_mem c hd))]
      rfl

theorem alnumStr_sanitize {s : Str} (h : alnumStr s) : sanitize s = s :=
  sanitize_id (fun c hc => alnum_ne (h c hc) (by decide))

/-- Resolution of alphanumeric index entries and labels yields
alphanumeric attribute values. -/
theorem resolve_alnum {l : Lookup} (hl : okLookup l) {io lo : Option Str}
    (hlo : ∀ s, lo = some s → alnumStr s) :
    alnumStr (resolve l io lo).value ∧ alnumStr (resolve l io lo).region ∧
      alnumStr (resolve l io lo).longName := by
  have hzero : alnumStr (str "0") := by unfold alnumStr; decide
  have hnone : alnumStr (str "None") := by unfold alnumStr; decide
  have hln0 : alnumStr (jsOr lo (str "None")) := by
    match lo with
    | none => exact hnone
    | some s =>
        show alnumStr (if s = [] then str "None" else s)
        split
        · exact hnone
        · exact hlo s rfl
  have horD : ∀ v : Str, alnumStr v → alnumStr (orD v (str "0")) := by
    intro v hv
    unfold orD
    split
    · exact hzero
    · exact hv
  have hlabelCase : ∀ lb : Str,
      alnumStr (resolve l none (some lb)).value ∧
      alnumStr (resolve l none (some lb)).region ∧
      alnumStr (resolve l none (some lb)).longName → True := fun _ _ => trivial
  clear hlabelCase
  unfold resolve
  match io with
  | some i =>
      dsimp only
      split
      · rename_i hcond
        obtain ⟨e, he⟩ := Option.isSome_iff_exists.mp hcond.2
        have hfields := hl.1 i e he
        simp only [he, Option.get_some]
        refine ⟨horD _ hfields.1, horD _ hfields.2.1, ?_⟩
        split
        · exact hfields.2.2
        · exact hln0
      · match lo with
        | some lb =>
            dsimp only
            split
            · rename_i hcond
              obtain ⟨e, he⟩ := Option.isSome_iff_exists.mp hcond.2
              have hfields := hl.2 lb e he
              simp only [he, Option.get_some]
              exact ⟨horD _ hfields.1, horD _ hfields.2, hln0⟩
            · exact ⟨hzero, hzero, hln0⟩
        | none => exact ⟨hzero, hzero, hln0⟩
  | none =>
      match lo with
      | some lb =>
          dsimp only
          split
          · rename_i hcond
            obtain ⟨e, he⟩ := Option.isSome_iff_exists.mp hcond.2
            have hfields := hl.2 lb e he
            simp only [he, Option.get_some]
            exact ⟨horD _ hfields.1, horD _ hfields.2, hln0⟩
          · exact ⟨hzero, hzero, hln0⟩
      | none => exact ⟨hzero, hzero, hln0⟩

/-- The formatted attribute block of alphanumeric resolved values is
`$`-free (so the id-branch insertion is literal). -/
theorem mkAttrs_no_dollar {r : Resolved} (h1 : alnumStr r.longName)
    (h2 : alnumStr r.value) (h3 : alnumStr r.region) : ¬ '$' ∈ mkAttrs r := by
  unfold mkAttrs
  rw [alnumStr_sanitize h1, alnumStr_sanitize h2, alnumStr_sanitize h3]
  intro hm
  have k1 : ¬ '$' ∈ r.longName := fun hc => alnum_ne (h1 _ hc) (by decide) rfl
  have k2 : ¬ '$' ∈ r.value := fun hc => alnum_ne (h2 _ hc) (by decide) rfl
  have k3 : ¬ '$' ∈ r.region := fun hc => alnum_ne (h3 _ hc) (by decide) rfl
  simp [str, k1, k2, k3] at hm

/-! ## Further extraction and insertion helpers -/

theorem noStrip_nospace_only {name a : Str} (ha : ∀ c ∈ a, isSpaceJS c = false) :
    ∀ t, t <:+ a → tryAttrMatch name t = none := by
  intro t ht
  match t with
  | [] => rfl
  | c :: t' =>
      exact tryAttrMatch_not_space (ha c (ht.subset (List.mem_cons_self c t')))

theorem ciStarts_head_false {x c : Char} {ps cs : Str}
    (h : (lowerA x == lowerA c) = false) :
    ciStarts (x :: ps) (c :: cs) = false := by
  simp [ciStarts, h]

theorem ciStarts_mem : ∀ {p s : Str}, ciStarts p s = true →
    ∀ x ∈ p, ∃ y ∈ s, lowerA y = lowerA x := by
  intro p
  induction p with
  | nil => intro s _ x hx; cases hx
  | cons z ps ih =>
      intro s h x hx
      match s with
      | [] => exact absurd h (by simp [ciStarts])
      | c :: cs =>
          simp only [ciStarts, Bool.and_eq_true, beq_iff_eq] at h
          rcases List.mem_cons.mp hx with rfl | hx'
          · exact ⟨c, List.mem_cons_self c cs, h.1.symm⟩
          · obtain ⟨y, hy, hly⟩ := ih h.2 x hx'
            exact ⟨y, List.mem_cons_of_mem c hy, hly⟩

theorem findLabelFrom_cons_skipA {c : Char} {rest : Str}
    (h : ciStarts labelPat (c :: rest) = false) :
    findLabelFrom (c :: rest) = findLabelFrom rest := by
  show (match (if ciStarts labelPat (c :: rest)
      then takeCapture ((c :: rest).drop labelPat.length) else none) with
    | some v => some v
    | none => findLabelFrom rest) = findLabelFrom rest
  rw [if_neg (by rw [h]; exact Bool.false_ne_true)]

theorem findLabelFrom_cons_found {c : Char} {rest v : Str}
    (h : ciStarts labelPat (c :: rest) = true)
    (hcap : takeCapture ((c :: rest).drop labelPat.length) = some v) :
    findLabelFrom (c :: rest) = some v := by
  show (match (if ciStarts labelPat (c :: rest)
      then takeCapture ((c :: rest).drop labelPat.length) else none) with
    | some v => some v
    | none => findLabelFrom rest) = some v
  rw [if_pos h, hcap]

/-- A colon-free string contains no `inkscape:label` occurrence. -/
theorem findLabelFrom_no_colon {s : Str} (h : ∀ c ∈ s, lowerA c ≠ ':') :
    findLabelFrom s = none := by
  induction s with
  | nil => rfl
  | cons c cs ih =>
      have hci : ciStarts labelPat (c :: cs) = false := by
        cases hci : ciStarts labelPat (c :: cs)
        · rfl
        · exfalso
          obtain ⟨y, hy, hly⟩ := ciStarts_mem hci ':' (by decide)
          rw [show lowerA ':' = ':' by decide] at hly
          exact h y hy hly
      rw [findLabelFrom_cons_skipA hci,
        ih (fun d hd => h d (List.mem_cons_of_mem c hd))]

theorem findIdFrom_skip_nospace {c : Char} {rest : Str}
    (h : isSpaceJS c = false) : findIdFrom (c :: rest) = findIdFrom rest :=
  findIdFrom_cons_skip (by rw [h]; simp)

theorem takeCapture_of {v r : Str} (hv : ∀ c ∈ v, c ≠ '"') :
    takeCapture (v ++ '"' :: r) = some v := by
  unfold takeCapture
  rw [if_pos (contains_quote_append v r),
    takeWhile_all_append (fun c hc => by simp [hv c hc])
      (fun c cs h => by injection h with h1 _; rw [← h1]; simp)]

theorem findInsIdx_skip_nospace {c : Char} {rest : Str}
    (h : isSpaceJS c = false) :
    findInsIdx (c :: rest) = (findInsIdx rest).map (· + 1) := by
  have htw : (c :: rest).takeWhile isSpaceJS = [] := by
    rw [List.takeWhile_cons, if_neg (by rw [h]; exact Bool.false_ne_true)]
  rw [findInsIdx_cons, htw]
  simp

/-! ## The canonical id-carrying tag -/

theorem render_tagId (i : Str) :
    Seg.render (.tagId i) =
      '<' :: 'p' :: 'a' :: 't' :: 'h' :: ' ' :: 'i' :: 'd' :: '=' :: '"' ::
        (i ++ ['"', '>']) := by
  show (str "<path id=\"" ++ i) ++ str "\">" = _
  rw [List.append_assoc]
  rfl

theorem cleanTag_tagId {i : Str} (hi : alnumStr i) :
    cleanTag (Seg.render (.tagId i)) = Seg.render (.tagId i) := by
  have hialn : ∀ c ∈ i, isSpaceJS c = false := fun c hc => alnum_not_space (hi c hc)
  have key : ∀ name : Str,
      (∀ u : Str, ciStarts (name ++ ['=', '"']) ('i' :: u) = false) →
      ∀ t, t <:+ Seg.render (.tagId i) → tryAttrMatch name t = none := by
    intro name hn
    rw [render_tagId]
    have h5 : ∀ t, t <:+ (['"', '>'] : Str) → tryAttrMatch name t = none :=
      noStrip_nospace_only (by decide)
    have h4 : ∀ t, t <:+ i ++ ['"', '>'] → tryAttrMatch name t = none :=
      noStrip_nospace_block hialn h5
    have h3 : ∀ t, t <:+ 'i' :: 'd' :: '=' :: '"' :: (i ++ ['"', '>']) →
        tryAttrMatch name t = none :=
      noStrip_nospace_block (a := ['i', 'd', '=', '"']) (by decide) h4
    have h2 : ∀ t, t <:+ ' ' :: 'i' :: 'd' :: '=' :: '"' :: (i ++ ['"', '>']) →
        tryAttrMatch name t = none :=
      @noStrip_ws_block name [' '] 'i' ('d' :: '=' :: '"' :: (i ++ ['"', '>']))
        (by decide) (by decide) (hn _) h3
    exact noStrip_nospace_block (a := ['<', 'p', 'a', 't', 'h']) (by decide) h2
  have hnl : ∀ u : Str, ciStarts (lnName ++ ['=', '"']) ('i' :: u) = false :=
    fun u => ciStarts_head_false (by decide)
  have hnv : ∀ u : Str, ciStarts (vName ++ ['=', '"']) ('i' :: u) = false :=
    fun u => ciStarts_head_false (by decide)
  have hnr : ∀ u : Str, ciStarts (rName ++ ['=', '"']) ('i' :: u) = false :=
    fun u => ciStarts_head_false (by decide)
  unfold cleanTag
  rw [stripAttr_id (key lnName hnl), stripAttr_id (key vName hnv),
    stripAttr_id (key rName hnr)]

theorem findLabelFrom_tagId {i : Str} (hi : alnumStr i) :
    findLabelFrom (Seg.render (.tagId i)) = none := by
  apply findLabelFrom_no_colon
  have hsh : Seg.render (.tagId i) =
      (['<', 'p', 'a', 't', 'h', ' ', 'i', 'd', '=', '"'] : Str) ++
        (i ++ ['"', '>']) := render_tagId i
  rw [hsh]
  intro c hc
  rcases List.mem_append.mp hc with h | h
  · exact (by decide :
      ∀ d ∈ (['<', 'p', 'a', 't', 'h', ' ', 'i', 'd', '=', '"'] : Str),
        lowerA d ≠ ':') c h
  · rcases List.mem_append.mp h with h | h
    · exact alnum_lower_ne_colon (hi c h)
    · exact (by decide : ∀ d ∈ (['"', '>'] : Str), lowerA d ≠ ':') c h

theorem findIdFrom_tagId {i : Str} (hi : alnumStr i) :
    findIdFrom (Seg.render (.tagId i)) = some i := by
  rw [render_tagId]
  rw [findIdFrom_skip_nospace (by decide), findIdFrom_skip_nospace (by decide),
    findIdFrom_skip_nospace (by decide), findIdFrom_skip_nospace (by decide),
    findIdFrom_skip_nospace (by decide)]
  apply findIdFrom_cons_found
  · rw [show ('i' :: 'd' :: '=' :: '"' :: (i ++ ['"', '>'])) =
      idPat ++ (i ++ ['"', '>']) from rfl, ciStarts_self_append]
    decide
  · show takeCapture (i ++ '"' :: ['>']) = some i
    exact takeCapture_of (fun c hc => alnum_ne (hi c hc) (by decide))

theorem findInsIdx_tagId (i : Str) :
    findInsIdx (Seg.render (.tagId i)) = some 5 := by
  rw [render_tagId]
  rw [findInsIdx_skip_nospace (by decide), findInsIdx_skip_nospace (by decide),
    findInsIdx_skip_nospace (by decide), findInsIdx_skip_nospace (by decide),
    findInsIdx_skip_nospace (by decide)]
  have hfound : findInsIdx (' ' :: 'i' :: 'd' :: '=' :: '"' :: (i ++ ['"', '>'])) =
      some 0 := by
    have htw : (' ' :: 'i' :: 'd' :: '=' :: '"' :: (i ++ ['"', '>'])).takeWhile
        isSpaceJS = [' '] := by
      rw [List.takeWhile_cons, if_pos (by decide), List.takeWhile_cons,
        if_neg (by decide)]
    rw [findInsIdx_cons, htw, if_pos]
    rw [show (List.length [' '] : Nat) = 1 from rfl]
    rw [show List.drop 1 (' ' :: 'i' :: 'd' :: '=' :: '"' :: (i ++ ['"', '>'])) =
      idPat ++ (i ++ ['"', '>']) from rfl, ciStarts_self_append]
    decide
  rw [hfound]
  rfl

theorem ciStarts_two_false {x y c d : Char} {ps cs : Str}
    (h : (lowerA y == lowerA d) = false) :
    ciStarts (x :: y :: ps) (c :: d :: cs) = false := by
  simp [ciStarts, h]

theorem stripTrailGt_no_gt {a : Str} (ha : ∀ c ∈ a, c ≠ '>') :
    stripTrailGt (a ++ ['>']) = a := by
  induction a with
  | nil =>
      show stripTrailGt ['>'] = []
      rw [stripTrailGt_gt]
      simp
  | cons c a' ih =>
      rw [List.cons_append, stripTrailGt_cons (ha c (List.mem_cons_self c a')),
        ih (fun d hd => ha d (List.mem_cons_of_mem c hd))]

theorem findIdFrom_append_nospace {a b : Str}
    (ha : ∀ c ∈ a, isSpaceJS c = false) : findIdFrom (a ++ b) = findIdFrom b := by
  induction a with
  | nil => rfl
  | cons c a' ih =>
      rw [List.cons_append,
        findIdFrom_skip_nospace (ha c (List.mem_cons_self c a')),
        ih (fun d hd => ha d (List.mem_cons_of_mem c hd))]

theorem findInsIdx_append_nospace {a b : Str}
    (ha : ∀ c ∈ a, isSpaceJS c = false) :
    findInsIdx (a ++ b) = (findInsIdx b).map (· + a.length) := by
  induction a with
  | nil => cases h : findInsIdx b <;> simp [h]
  | cons c a' ih =>
      rw [List.cons_append,
        findInsIdx_skip_nospace (ha c (List.mem_cons_self c a')),
        ih (fun d hd => ha d (List.mem_cons_of_mem c hd))]
      cases findInsIdx b <;> simp +arith

theorem findInsIdx_sp_skip {d : Char} {cs : Str} (hd : isSpaceJS d = false)
    (hci : ciStarts idPat (d :: cs) = false) :
    findInsIdx (' ' :: d :: cs) = (findInsIdx (d :: cs)).map (· + 1) := by
  have htw : (' ' :: d :: cs).takeWhile isSpaceJS = [' '] := by
    rw [List.takeWhile_cons, if_pos (by decide), List.takeWhile_cons,
      if_neg (by rw [hd]; exact Bool.false_ne_true)]
  rw [findInsIdx_cons, htw]
  simp [hci]

theorem crossOK_append {name a c : Str}
    (h1 : ∀ (b t : Str), t <:+ a → t ≠ [] → tryAttrMatch name (t ++ b) = none)
    (h2 : ∀ (b t : Str), t <:+ c → t ≠ [] → tryAttrMatch name (t ++ b) = none) :
    ∀ (b t : Str), t <:+ a ++ c → t ≠ [] → tryAttrMatch name (t ++ b) = none := by
  induction a with
  | nil => simpa using h2
  | cons x a' ih =>
      intro b t ht hne
      rw [List.cons_append] at ht
      rcases List.suffix_cons_iff.mp ht with rfl | ht'
      · have hx := h1 (c ++ b) (x :: a') List.suffix_rfl (by simp)
        simpa [List.append_assoc] using hx
      · exact ih (fun b t ht hn => h1 b t (ht.trans (List.suffix_cons x a')) hn)
          b t ht' hne

theorem crossOK_sp_block {name : Str} {d : Char} {cs : Str}
    (hC : ∀ c ∈ d :: cs, isSpaceJS c = false)
    (hci : ∀ u, ciStarts (name ++ ['=', '"']) (d :: u) = false) :
    ∀ (b t : Str), t <:+ ' ' :: d :: cs → t ≠ [] →
      tryAttrMatch name (t ++ b) = none := by
  intro b t ht hne
  rcases List.suffix_cons_iff.mp ht with rfl | ht'
  · have hx := @tryAttrMatch_ws_block name [' '] d (cs ++ b) (by decide)
      (hC d (List.mem_cons_self d cs)) (hci (cs ++ b))
    simpa using hx
  · exact cross_nospace hC b t ht' hne

theorem suffix_trunc {t a : Str} (ht : t <:+ a) {n : Nat}
    (hn : t.length ≤ n) : t <:+ a.drop (a.length - n) := by
  obtain ⟨u, rfl⟩ := ht
  have hk : (u ++ t).length - n ≤ u.length := by
    simp only [List.length_append]
    omega
  rw [List.drop_append_of_le_length hk]
  exact ⟨u.drop ((u ++ t).length - n), rfl⟩

theorem ciStarts_short : ∀ {p s : Str}, s.length < p.length →
    ciStarts p s = false := by
  intro p
  induction p with
  | nil => intro s h; simp at h
  | cons x ps ih =>
      intro s h
      match s with
      | [] => rfl
      | c :: cs =>
          have hcs : cs.length < ps.length := by
            simp only [List.length_cons] at h
            omega
          simp [ciStarts, ih hcs]

theorem ciStarts_of_long : ∀ {p t : Str} (b : Str), p.length ≤ t.length →
    ciStarts p (t ++ b) = ciStarts p t := by
  intro p
  induction p with
  | nil => intro t b _; rfl
  | cons x ps ih =>
      intro t b h
      match t with
      | [] => simp at h
      | c :: cs =>
          have hcs : ps.length ≤ cs.length := by
            simp only [List.length_cons] at h
            omega
          rw [List.cons_append]
          simp [ciStarts, ih b hcs]

theorem hshort_of_no_head {p0 : Char} (ps : Str) {a : Str}
    (ha : ∀ x ∈ a, (lowerA p0 == lowerA x) = false) (b : Str) :
    ∀ t, t <:+ a → t ≠ [] → ciStarts (p0 :: ps) (t ++ b) = false := by
  intro t ht hne
  match t with
  | [] => exact absurd rfl hne
  | c :: t' =>
      exact ciStarts_head_false (ha c (ht.subset (List.mem_cons_self c t')))

theorem countGo_cons (pat : Str) (c : Char) (rest : Str) :
    countGo pat (c :: rest) =
      (if ciStarts pat (c :: rest) then 1 else 0) + countGo pat rest := rfl

theorem countGo_append_of (pat a b : Str)
    (hshort : ∀ t, t <:+ a → t ≠ [] → t.length < pat.length →
      ciStarts pat (t ++ b) = false) :
    countGo pat (a ++ b) = countGo pat a + countGo pat b := by
  induction a with
  | nil => simp [countGo]
  | cons c a' ih =>
      rw [List.cons_append, countGo_cons, countGo_cons,
        ih (fun t ht hne hlen =>
          hshort t (ht.trans (List.suffix_cons c a')) hne hlen)]
      have he : ciStarts pat (c :: (a' ++ b)) = ciStarts pat (c :: a') := by
        by_cases hl : pat.length ≤ (c :: a').length
        · have hx := ciStarts_of_long b hl
          simpa using hx
        · push_neg at hl
          have hx := hshort (c :: a') List.suffix_rfl (by simp) hl
          rw [ciStarts_short hl]
          simpa using hx
      rw [he]
      omega

theorem countGo_zero_of {pat a : Str}
    (h : ∀ t, t <:+ a → ciStarts pat t = false) : countGo pat a = 0 := by
  induction a with
  | nil => rfl
  | cons c a' ih =>
      rw [countGo_cons, h _ List.suffix_rfl,
        ih (fun t ht => h t (ht.trans (List.suffix_cons c a')))]
      simp

theorem lowerA_alnum_ranges {c : Char} (h : alnumChar c = true) :
    (48 ≤ (lowerA c).toNat ∧ (lowerA c).toNat ≤ 57) ∨
      (97 ≤ (lowerA c).toNat ∧ (lowerA c).toNat ≤ 122) := by
  have hr := alnum_ranges h
  rw [toNat_lowerA]
  split_ifs with h1 <;> omega

theorem ciStarts_alnum_false {p t : Str} (hp : '=' ∈ p) (ht : alnumStr t) :
    ciStarts p t = false := by
  cases hcs : ciStarts p t
  · rfl
  · exfalso
    obtain ⟨y, hy, hly⟩ := ciStarts_mem hcs '=' hp
    have h2 := lowerA_alnum_ranges (ht y hy)
    have h3 : (lowerA y).toNat = 61 := by rw [hly]; decide
    omega

theorem ciStarts_alnum_quote {n : Str} (hn : ∀ x ∈ n, (lowerA x == '"') = false)
    {t : Str} (ht : alnumStr t) (rest : Str) :
    ciStarts (n ++ ['=', '"']) (t ++ '"' :: rest) = false := by
  induction t generalizing n with
  | nil =>
      match n with
      | [] => exact ciStarts_head_false (by decide)
      | x :: n' =>
          exact ciStarts_head_false
            (by simpa [show lowerA '"' = '"' from by decide] using
              hn x (List.mem_cons_self x n'))
  | cons c t' ih =>
      match n with
      | [] =>
          apply ciStarts_head_false
          have h2 := lowerA_alnum_ranges (ht c (List.mem_cons_self c t'))
          have h3 : lowerA '=' = '=' := by decide
          rw [h3]
          simp only [beq_eq_false_iff_ne, ne_eq]
          intro heq
          rw [← heq] at h2
          have h4 : ('=' : Char).toNat = 61 := by decide
          omega
      | x :: n' =>
          show ciStarts (x :: (n' ++ ['=', '"'])) (c :: (t' ++ '"' :: rest)) =
            false
          have hrec := ih (fun y hy => hn y (List.mem_cons_of_mem x hy))
            (fun d hd => ht d (List.mem_cons_of_mem c hd))
          simp [ciStarts, hrec]

theorem mkAttrs_no_gt {r : Resolved} (h1 : alnumStr r.longName)
    (h2 : alnumStr r.value) (h3 : alnumStr r.region) : ¬ '>' ∈ mkAttrs r := by
  unfold mkAttrs
  rw [alnumStr_sanitize h1, alnumStr_sanitize h2, alnumStr_sanitize h3]
  intro hm
  have k1 : ¬ '>' ∈ r.longName := fun hc => alnum_ne (h1 _ hc) (by decide) rfl
  have k2 : ¬ '>' ∈ r.value := fun hc => alnum_ne (h2 _ hc) (by decide) rfl
  have k3 : ¬ '>' ∈ r.region := fun hc => alnum_ne (h3 _ hc) (by decide) rfl
  simp [str, k1, k2, k3] at hm

theorem rewriteTag_tagId {i : Str} (hi : alnumStr i) {l : Lookup}
    (hl : okLookup l) :
    rewriteTag l (Seg.render (.tagId i)) =
      ['<', 'p', 'a', 't', 'h'] ++ mkAttrs (resolve l (some i) none) ++
        (' ' :: 'i' :: 'd' :: '=' :: '"' :: (i ++ ['"', '>'])) := by
  have hres := @resolve_alnum l hl (some i) none (fun s h => by cases h)
  have hd : ¬ '$' ∈ mkAttrs (resolve l (some i) none) :=
    mkAttrs_no_dollar hres.2.2 hres.1 hres.2.1
  unfold rewriteTag
  dsimp only
  rw [cleanTag_tagId hi, findLabelFrom_tagId hi, findIdFrom_tagId hi]
  rw [if_pos (show ((some i).isSome = true) from rfl)]
  rw [insertBeforeId_eq hd (findInsIdx_tagId i)]
  rw [render_tagId]
  rfl

/-! ## Normal forms of the formatted attribute block -/

theorem mkAttrs_eq_mkA {r : Resolved} (h1 : alnumStr r.longName)
    (h2 : alnumStr r.value) (h3 : alnumStr r.region) :
    mkAttrs r = mkA r.longName r.value r.region := by
  unfold mkAttrs mkA
  rw [alnumStr_sanitize h1, alnumStr_sanitize h2, alnumStr_sanitize h3,
    show str "    long-name=\"" =
      ([' ', ' ', ' ', ' ', 'l', 'o', 'n', 'g', '-', 'n', 'a', 'm', 'e', '=',
        '"'] : Str) from rfl,
    show str "    value=\"" =
      ([' ', ' ', ' ', ' ', 'v', 'a', 'l', 'u', 'e', '=', '"'] : Str) from rfl,
    show str "    region=\"" =
      ([' ', ' ', ' ', ' ', 'r', 'e', 'g', 'i', 'o', 'n', '=', '"'] : Str)
      from rfl]
  simp [List.append_assoc]

theorem mkA_no_gt {n v r : Str} (h1 : alnumStr n) (h2 : alnumStr v)
    (h3 : alnumStr r) : ∀ c ∈ mkA n v r, c ≠ '>' := by
  intro c hc heq
  subst heq
  have k1 : ¬ '>' ∈ n := fun hx => alnum_ne (h1 _ hx) (by decide) rfl
  have k2 : ¬ '>' ∈ v := fun hx => alnum_ne (h2 _ hx) (by decide) rfl
  have k3 : ¬ '>' ∈ r := fun hx => alnum_ne (h3 _ hx) (by decide) rfl
  simp [mkA, k1, k2, k3] at hc

theorem hb_of_head {a : Str} {d : Char} (hd : a = d :: a.drop 1)
    (hw : isWordChar d = false) :
    ∀ c cs, a = c :: cs → isWordChar c = false := by
  intro c cs h
  rw [hd] at h
  injection h with h1 _
  rw [← h1]
  exact hw

theorem rewriteTag_congr {a b : Str} (l : Lookup)
    (h : cleanTag a = cleanTag b) : rewriteTag l a = rewriteTag l b := by
  unfold rewriteTag
  rw [h]

/-! ## The bare canonical tag -/

theorem rewriteTag_bare (l : Lookup) :
    rewriteTag l (Seg.render .bare) =
      pathPat ++ (mkA (str "None") (str "0") (str "0") ++ ['>']) := by
  unfold rewriteTag
  dsimp only
  rw [show cleanTag (Seg.render .bare) = Seg.render .bare from by decide,
    show findLabelFrom (Seg.render .bare) = none from by decide,
    show findIdFrom (Seg.render .bare) = none from by decide,
    if_neg (show ¬((none : Option Str).isSome = true) from by simp),
    show stripTrailGt (Seg.render .bare) = pathPat from by decide,
    show resolve l none none = ⟨str "0", str "0", str "None"⟩ from rfl,
    show mkAttrs ⟨str "0", str "0", str "None"⟩ =
      mkA (str "None") (str "0") (str "0") from by decide,
    List.append_assoc]

theorem rewriteTag_bare_idem (l : Lookup) :
    rewriteTag l (rewriteTag l (Seg.render .bare)) =
      rewriteTag l (Seg.render .bare) := by
  rw [rewriteTag_bare]
  unfold rewriteTag
  dsimp only
  rw [show cleanTag (pathPat ++ (mkA (str "None") (str "0") (str "0") ++
      ['>'])) = Seg.render .bare from by decide,
    show findLabelFrom (Seg.render .bare) = none from by decide,
    show findIdFrom (Seg.render .bare) = none from by decide,
    if_neg (show ¬((none : Option Str).isSome = true) from by simp),
    show stripTrailGt (Seg.render .bare) = pathPat from by decide,
    show resolve l none none = ⟨str "0", str "0", str "None"⟩ from rfl,
    show mkAttrs ⟨str "0", str "0", str "None"⟩ =
      mkA (str "None") (str "0") (str "0") from by decide,
    List.append_assoc]

theorem matchLen_bare (rest : Str) :
    matchLenAt (Seg.render .bare ++ rest) = some (Seg.render .bare).length := by
  show matchLenAt (pathPat ++ ([] ++ '>' :: rest)) = some 6
  rw [matchLenAt_pathTag (fun c hc => absurd hc (List.not_mem_nil c))
    (fun c cs h => List.noConfusion h)]
  rfl

theorem matchLen_bare_out (l : Lookup) (rest : Str) :
    matchLenAt (rewriteTag l (Seg.render .bare) ++ rest) =
      some (rewriteTag l (Seg.render .bare)).length := by
  rw [rewriteTag_bare]
  show matchLenAt
      (pathPat ++ (mkA (str "None") (str "0") (str "0") ++ '>' :: rest)) =
    some ((pathPat ++ (mkA (str "None") (str "0") (str "0") ++ ['>'])).length)
  rw [matchLenAt_pathTag (by decide) (hb_of_head rfl (by decide))]
  decide

/-! ## The canonical label-carrying tag -/

theorem render_tagLabel (lb : Str) :
    Seg.render (.tagLabel lb) =
      '<' :: 'p' :: 'a' :: 't' :: 'h' :: ' ' :: 'i' :: 'n' :: 'k' :: 's' ::
        'c' :: 'a' :: 'p' :: 'e' :: ':' :: 'l' :: 'a' :: 'b' :: 'e' :: 'l' ::
        '=' :: '"' :: (lb ++ ['"', '>']) := by
  show (str "<path inkscape:label=\"" ++ lb) ++ str "\">" = _
  rw [List.append_assoc]
  rfl

theorem cleanTag_tagLabel {lb : Str} (hlb : alnumStr lb) :
    cleanTag (Seg.render (.tagLabel lb)) = Seg.render (.tagLabel lb) := by
  have hlbn : ∀ c ∈ lb, isSpaceJS c = false :=
    fun c hc => alnum_not_space (hlb c hc)
  have key : ∀ name : Str,
      (∀ u : Str, ciStarts (name ++ ['=', '"']) ('i' :: u) = false) →
      ∀ t, t <:+ Seg.render (.tagLabel lb) → tryAttrMatch name t = none := by
    intro name hn
    rw [render_tagLabel]
    have h5 : ∀ t, t <:+ (['"', '>'] : Str) → tryAttrMatch name t = none :=
      noStrip_nospace_only (by decide)
    have h4 : ∀ t, t <:+ lb ++ ['"', '>'] → tryAttrMatch name t = none :=
      noStrip_nospace_block hlbn h5
    have h3 : ∀ t, t <:+ 'i' :: 'n' :: 'k' :: 's' :: 'c' :: 'a' :: 'p' :: 'e' ::
        ':' :: 'l' :: 'a' :: 'b' :: 'e' :: 'l' :: '=' :: '"' ::
        (lb ++ ['"', '>']) → tryAttrMatch name t = none :=
      noStrip_nospace_block
        (a := ['i', 'n', 'k', 's', 'c', 'a', 'p', 'e', ':', 'l', 'a', 'b',
          'e', 'l', '=', '"']) (by decide) h4
    have h2 : ∀ t, t <:+ ' ' :: 'i' :: 'n' :: 'k' :: 's' :: 'c' :: 'a' :: 'p' ::
        'e' :: ':' :: 'l' :: 'a' :: 'b' :: 'e' :: 'l' :: '=' :: '"' ::
        (lb ++ ['"', '>']) → tryAttrMatch name t = none :=
      @noStrip_ws_block name [' '] 'i'
        ('n' :: 'k' :: 's' :: 'c' :: 'a' :: 'p' :: 'e' :: ':' :: 'l' :: 'a' ::
          'b' :: 'e' :: 'l' :: '=' :: '"' :: (lb ++ ['"', '>']))
        (by decide) (by decide) (hn _) h3
    exact noStrip_nospace_block (a := ['<', 'p', 'a', 't', 'h']) (by decide) h2
  have hnl : ∀ u : Str, ciStarts (lnName ++ ['=', '"']) ('i' :: u) = false :=
    fun u => ciStarts_head_false (by decide)
  have hnv : ∀ u : Str, ciStarts (vName ++ ['=', '"']) ('i' :: u) = false :=
    fun u => ciStarts_head_false (by decide)
  have hnr : ∀ u : Str, ciStarts (rName ++ ['=', '"']) ('i' :: u) = false :=
    fun u => ciStarts_head_false (by decide)
  unfold cleanTag
  rw [stripAttr_id (key lnName hnl), stripAttr_id (key vName hnv),
    stripAttr_id (key rName hnr)]

theorem findLabelFrom_tagLabel {lb : Str} (hlb : alnumStr lb) :
    findLabelFrom (Seg.render (.tagLabel lb)) = some lb := by
  rw [render_tagLabel]
  rw [findLabelFrom_cons_skipA (ciStarts_head_false (by decide)),
    findLabelFrom_cons_skipA (ciStarts_head_false (by decide)),
    findLabelFrom_cons_skipA (ciStarts_head_false (by decide)),
    findLabelFrom_cons_skipA (ciStarts_head_false (by decide)),
    findLabelFrom_cons_skipA (ciStarts_head_false (by decide)),
    findLabelFrom_cons_skipA (ciStarts_head_false (by decide))]
  apply findLabelFrom_cons_found
  · rw [show ('i' :: 'n' :: 'k' :: 's' :: 'c' :: 'a' :: 'p' :: 'e' :: ':' ::
      'l' :: 'a' :: 'b' :: 'e' :: 'l' :: '=' :: '"' :: (lb ++ ['"', '>'])) =
      labelPat ++ (lb ++ ['"', '>']) from rfl, ciStarts_self_append]
  · show takeCapture (lb ++ '"' :: ['>']) = some lb
    exact takeCapture_of (fun c hc => alnum_ne (hlb c hc) (by decide))

theorem findIdFrom_tagLabel {lb : Str} (hlb : alnumStr lb) :
    findIdFrom (Seg.render (.tagLabel lb)) = none := by
  have hlbn : ∀ c ∈ lb, isSpaceJS c = false :=
    fun c hc => alnum_not_space (hlb c hc)
  have hsp2 : ∀ u : Str,
      ¬(isSpaceJS ' ' && ciStarts idPat ('i' :: 'n' :: u)) = true := by
    intro u
    have hx : ciStarts idPat ('i' :: 'n' :: u) = false :=
      ciStarts_two_false (by decide)
    simp [hx]
  rw [render_tagLabel]
  rw [findIdFrom_skip_nospace (by decide), findIdFrom_skip_nospace (by decide),
    findIdFrom_skip_nospace (by decide), findIdFrom_skip_nospace (by decide),
    findIdFrom_skip_nospace (by decide),
    findIdFrom_cons_skip (hsp2 _),
    findIdFrom_skip_nospace (by decide), findIdFrom_skip_nospace (by decide),
    findIdFrom_skip_nospace (by decide), findIdFrom_skip_nospace (by decide),
    findIdFrom_skip_nospace (by decide), findIdFrom_skip_nospace (by decide),
    findIdFrom_skip_nospace (by decide), findIdFrom_skip_nospace (by decide),
    findIdFrom_skip_nospace (by decide), findIdFrom_skip_nospace (by decide),
    findIdFrom_skip_nospace (by decide), findIdFrom_skip_nospace (by decide),
    findIdFrom_skip_nospace (by decide), findIdFrom_skip_nospace (by decide),
    findIdFrom_skip_nospace (by decide), findIdFrom_skip_nospace (by decide),
    findIdFrom_append_nospace hlbn]
  rfl

theorem stripTrailGt_tagLabel {lb : Str} (hlb : alnumStr lb) :
    stripTrailGt (Seg.render (.tagLabel lb)) =
      '<' :: 'p' :: 'a' :: 't' :: 'h' :: ' ' :: 'i' :: 'n' :: 'k' :: 's' ::
        'c' :: 'a' :: 'p' :: 'e' :: ':' :: 'l' :: 'a' :: 'b' :: 'e' :: 'l' ::
        '=' :: '"' :: (lb ++ ['"']) := by
  rw [render_tagLabel]
  have hsplit : ('<' :: 'p' :: 'a' :: 't' :: 'h' :: ' ' :: 'i' :: 'n' :: 'k' ::
      's' :: 'c' :: 'a' :: 'p' :: 'e' :: ':' :: 'l' :: 'a' :: 'b' :: 'e' ::
      'l' :: '=' :: '"' :: (lb ++ ['"', '>'])) =
      ('<' :: 'p' :: 'a' :: 't' :: 'h' :: ' ' :: 'i' :: 'n' :: 'k' :: 's' ::
        'c' :: 'a' :: 'p' :: 'e' :: ':' :: 'l' :: 'a' :: 'b' :: 'e' :: 'l' ::
        '=' :: '"' :: (lb ++ ['"'])) ++ ['>'] := by
    simp
  rw [hsplit, stripTrailGt_no_gt]
  intro c hc heq
  subst heq
  have k1 : ¬ '>' ∈ lb := fun hx => alnum_ne (hlb _ hx) (by decide) rfl
  simp [k1] at hc

theorem rewriteTag_tagLabel {lb : Str} (hlb : alnumStr lb) (l : Lookup) :
    rewriteTag l (Seg.render (.tagLabel lb)) =
      ('<' :: 'p' :: 'a' :: 't' :: 'h' :: ' ' :: 'i' :: 'n' :: 'k' :: 's' ::
        'c' :: 'a' :: 'p' :: 'e' :: ':' :: 'l' :: 'a' :: 'b' :: 'e' :: 'l' ::
        '=' :: '"' :: (lb ++ ['"'])) ++
        mkAttrs (resolve l none (some lb)) ++ ['>'] := by
  unfold rewriteTag
  dsimp only
  rw [cleanTag_tagLabel hlb, findLabelFrom_tagLabel hlb, findIdFrom_tagLabel hlb]
  rw [if_neg (show ¬((none : Option Str).isSome = true) from by simp)]
  rw [stripTrailGt_tagLabel hlb]

/-! ## The canonical tag with both label and id -/

theorem render_tagFull (lb i : Str) :
    Seg.render (.tagFull lb i) =
      '<' :: 'p' :: 'a' :: 't' :: 'h' :: ' ' :: 'i' :: 'n' :: 'k' :: 's' ::
        'c' :: 'a' :: 'p' :: 'e' :: ':' :: 'l' :: 'a' :: 'b' :: 'e' :: 'l' ::
        '=' :: '"' :: (lb ++ ('"' :: ' ' :: 'i' :: 'd' :: '=' :: '"' ::
          (i ++ ['"', '>']))) := by
  show (str "<path inkscape:label=\"" ++ lb) ++
      ((str "\" id=\"" ++ i) ++ str "\">") = _
  rw [List.append_assoc, List.append_assoc]
  rfl

theorem cleanTag_tagFull {lb i : Str} (hlb : alnumStr lb) (hi : alnumStr i) :
    cleanTag (Seg.render (.tagFull lb i)) = Seg.render (.tagFull lb i) := by
  have hlbn : ∀ c ∈ lb, isSpaceJS c = false :=
    fun c hc => alnum_not_space (hlb c hc)
  have hin : ∀ c ∈ i, isSpaceJS c = false :=
    fun c hc => alnum_not_space (hi c hc)
  have key : ∀ name : Str,
      (∀ u : Str, ciStarts (name ++ ['=', '"']) ('i' :: u) = false) →
      ∀ t, t <:+ Seg.render (.tagFull lb i) → tryAttrMatch name t = none := by
    intro name hn
    rw [render_tagFull]
    have h7 : ∀ t, t <:+ (['"', '>'] : Str) → tryAttrMatch name t = none :=
      noStrip_nospace_only (by decide)
    have h6 : ∀ t, t <:+ i ++ ['"', '>'] → tryAttrMatch name t = none :=
      noStrip_nospace_block hin h7
    have h5 : ∀ t, t <:+ 'i' :: 'd' :: '=' :: '"' :: (i ++ ['"', '>']) →
        tryAttrMatch name t = none :=
      noStrip_nospace_block (a := ['i', 'd', '=', '"']) (by decide) h6
    have h4 : ∀ t, t <:+ ' ' :: 'i' :: 'd' :: '=' :: '"' :: (i ++ ['"', '>']) →
        tryAttrMatch name t = none :=
      @noStrip_ws_block name [' '] 'i'
        ('d' :: '=' :: '"' :: (i ++ ['"', '>'])) (by decide) (by decide)
        (hn _) h5
    have h4b : ∀ t, t <:+ '"' :: ' ' :: 'i' :: 'd' :: '=' :: '"' ::
        (i ++ ['"', '>']) → tryAttrMatch name t = none :=
      noStrip_nospace_block (a := ['"']) (by decide) h4
    have h3 : ∀ t, t <:+ lb ++ ('"' :: ' ' :: 'i' :: 'd' :: '=' :: '"' ::
        (i ++ ['"', '>'])) → tryAttrMatch name t = none :=
      noStrip_nospace_block hlbn h4b
    have h2 : ∀ t, t <:+ 'i' :: 'n' :: 'k' :: 's' :: 'c' :: 'a' :: 'p' :: 'e' ::
        ':' :: 'l' :: 'a' :: 'b' :: 'e' :: 'l' :: '=' :: '"' ::
        (lb ++ ('"' :: ' ' :: 'i' :: 'd' :: '=' :: '"' :: (i ++ ['"', '>']))) →
        tryAttrMatch name t = none :=
      noStrip_nospace_block
        (a := ['i', 'n', 'k', 's', 'c', 'a', 'p', 'e', ':', 'l', 'a', 'b',
          'e', 'l', '=', '"']) (by decide) h3
    have h1 : ∀ t, t <:+ ' ' :: 'i' :: 'n' :: 'k' :: 's' :: 'c' :: 'a' :: 'p' ::
        'e' :: ':' :: 'l' :: 'a' :: 'b' :: 'e' :: 'l' :: '=' :: '"' ::
        (lb ++ ('"' :: ' ' :: 'i' :: 'd' :: '=' :: '"' :: (i ++ ['"', '>']))) →
        tryAttrMatch name t = none :=
      @noStrip_ws_block name [' '] 'i'
        ('n' :: 'k' :: 's' :: 'c' :: 'a' :: 'p' :: 'e' :: ':' :: 'l' :: 'a' ::
          'b' :: 'e' :: 'l' :: '=' :: '"' ::
          (lb ++ ('"' :: ' ' :: 'i' :: 'd' :: '=' :: '"' :: (i ++ ['"', '>']))))
        (by decide) (by decide) (hn _) h2
    exact noStrip_nospace_block (a := ['<', 'p', 'a', 't', 'h']) (by decide) h1
  have hnl : ∀ u : Str, ciStarts (lnName ++ ['=', '"']) ('i' :: u) = false :=
    fun u => ciStarts_head_false (by decide)
  have hnv : ∀ u : Str, ciStarts (vName ++ ['=', '"']) ('i' :: u) = false :=
    fun u => ciStarts_head_false (by decide)
  have hnr : ∀ u : Str, ciStarts (rName ++ ['=', '"']) ('i' :: u) = false :=
    fun u => ciStarts_head_false (by decide)
  unfold cleanTag
  rw [stripAttr_id (key lnName hnl), stripAttr_id (key vName hnv),
    stripAttr_id (key rName hnr)]

theorem findLabelFrom_tagFull {lb i : Str} (hlb : alnumStr lb) :
    findLabelFrom (Seg.render (.tagFull lb i)) = some lb := by
  rw [render_tagFull]
  rw [findLabelFrom_cons_skipA (ciStarts_head_false (by decide)),
    findLabelFrom_cons_skipA (ciStarts_head_false (by decide)),
    findLabelFrom_cons_skipA (ciStarts_head_false (by decide)),
    findLabelFrom_cons_skipA (ciStarts_head_false (by decide)),
    findLabelFrom_cons_skipA (ciStarts_head_false (by decide)),
    findLabelFrom_cons_skipA (ciStarts_head_false (by decide))]
  apply findLabelFrom_cons_found
  · rw [show ('i' :: 'n' :: 'k' :: 's' :: 'c' :: 'a' :: 'p' :: 'e' :: ':' ::
      'l' :: 'a' :: 'b' :: 'e' :: 'l' :: '=' :: '"' ::
      (lb ++ ('"' :: ' ' :: 'i' :: 'd' :: '=' :: '"' :: (i ++ ['"', '>'])))) =
      labelPat ++ (lb ++ ('"' :: ' ' :: 'i' :: 'd' :: '=' :: '"' ::
        (i ++ ['"', '>']))) from rfl, ciStarts_self_append]
  · show takeCapture (lb ++ '"' :: (' ' :: 'i' :: 'd' :: '=' :: '"' ::
      (i ++ ['"', '>']))) = some lb
    exact takeCapture_of (fun c hc => alnum_ne (hlb c hc) (by decide))

theorem findIdFrom_tagFull {lb i : Str} (hlb : alnumStr lb) (hi : alnumStr i) :
    findIdFrom (Seg.render (.tagFull lb i)) = some i := by
  have hlbn : ∀ c ∈ lb, isSpaceJS c = false :=
    fun c hc => alnum_not_space (hlb c hc)
  have hsp2 : ∀ u : Str,
      ¬(isSpaceJS ' ' && ciStarts idPat ('i' :: 'n' :: u)) = true := by
    intro u
    have hx : ciStarts idPat ('i' :: 'n' :: u) = false :=
      ciStarts_two_false (by decide)
    simp [hx]
  rw [render_tagFull]
  rw [findIdFrom_skip_nospace (by decide), findIdFrom_skip_nospace (by decide),
    findIdFrom_skip_nospace (by decide), findIdFrom_skip_nospace (by decide),
    findIdFrom_skip_nospace (by decide),
    findIdFrom_cons_skip (hsp2 _),
    findIdFrom_skip_nospace (by decide), findIdFrom_skip_nospace (by decide),
    findIdFrom_skip_nospace (by decide), findIdFrom_skip_nospace (by decide),
    findIdFrom_skip_nospace (by decide), findIdFrom_skip_nospace (by decide),
    findIdFrom_skip_nospace (by decide), findIdFrom_skip_nospace (by decide),
    findIdFrom_skip_nospace (by decide), findIdFrom_skip_nospace (by decide),
    findIdFrom_skip_nospace (by decide), findIdFrom_skip_nospace (by decide),
    findIdFrom_skip_nospace (by decide), findIdFrom_skip_nospace (by decide),
    findIdFrom_skip_nospace (by decide), findIdFrom_skip_nospace (by decide),
    findIdFrom_append_nospace hlbn,
    findIdFrom_skip_nospace (by decide)]
  apply findIdFrom_cons_found
  · rw [show ('i' :: 'd' :: '=' :: '"' :: (i ++ ['"', '>'])) =
      idPat ++ (i ++ ['"', '>']) from rfl, ciStarts_self_append]
    decide
  · show takeCapture (i ++ '"' :: ['>']) = some i
    exact takeCapture_of (fun c hc => alnum_ne (hi c hc) (by decide))

theorem findInsIdx_tagFull {lb : Str} (i : Str)
    (hlb : alnumStr lb) :
    findInsIdx (Seg.render (.tagFull lb i)) = some (lb.length + 23) := by
  have hlbn : ∀ c ∈ lb, isSpaceJS c = false :=
    fun c hc => alnum_not_space (hlb c hc)
  have hfound : findInsIdx (' ' :: 'i' :: 'd' :: '=' :: '"' ::
      (i ++ ['"', '>'])) = some 0 := by
    have htw : (' ' :: 'i' :: 'd' :: '=' :: '"' ::
        (i ++ ['"', '>'])).takeWhile isSpaceJS = [' '] := by
      rw [List.takeWhile_cons, if_pos (by decide), List.takeWhile_cons,
        if_neg (by decide)]
    rw [findInsIdx_cons, htw, if_pos]
    rw [show (List.length [' '] : Nat) = 1 from rfl]
    rw [show List.drop 1 (' ' :: 'i' :: 'd' :: '=' :: '"' ::
      (i ++ ['"', '>'])) = idPat ++ (i ++ ['"', '>']) from rfl,
      ciStarts_self_append]
    decide
  rw [render_tagFull]
  rw [findInsIdx_skip_nospace (by decide), findInsIdx_skip_nospace (by decide),
    findInsIdx_skip_nospace (by decide), findInsIdx_skip_nospace (by decide),
    findInsIdx_skip_nospace (by decide),
    findInsIdx_sp_skip (by decide) (ciStarts_two_false (by decide)),
    findInsIdx_skip_nospace (by decide), findInsIdx_skip_nospace (by decide),
    findInsIdx_skip_nospace (by decide), findInsIdx_skip_nospace (by decide),
    findInsIdx_skip_nospace (by decide), findInsIdx_skip_nospace (by decide),
    findInsIdx_skip_nospace (by decide), findInsIdx_skip_nospace (by decide),
    findInsIdx_skip_nospace (by decide), findInsIdx_skip_nospace (by decide),
    findInsIdx_skip_nospace (by decide), findInsIdx_skip_nospace (by decide),
    findInsIdx_skip_nospace (by decide), findInsIdx_skip_nospace (by decide),
    findInsIdx_skip_nospace (by decide), findInsIdx_skip_nospace (by decide),
    findInsIdx_append_nospace hlbn,
    findInsIdx_skip_nospace (by decide), hfound]
  simp
  try omega

theorem rewriteTag_tagFull {lb i : Str} (hlb : alnumStr lb) (hi : alnumStr i)
    {l : Lookup} (hl : okLookup l) :
    rewriteTag l (Seg.render (.tagFull lb i)) =
      ('<' :: 'p' :: 'a' :: 't' :: 'h' :: ' ' :: 'i' :: 'n' :: 'k' :: 's' ::
        'c' :: 'a' :: 'p' :: 'e' :: ':' :: 'l' :: 'a' :: 'b' :: 'e' :: 'l' ::
        '=' :: '"' :: (lb ++ ['"'])) ++
        mkAttrs (resolve l (some i) (some lb)) ++
        (' ' :: 'i' :: 'd' :: '=' :: '"' :: (i ++ ['"', '>'])) := by
  have hres := @resolve_alnum l hl (some i) (some lb)
    (fun s h => by injection h with h1; rw [← h1]; exact hlb)
  have hd : ¬ '$' ∈ mkAttrs (resolve l (some i) (some lb)) :=
    mkAttrs_no_dollar hres.2.2 hres.1 hres.2.1
  have hsplit : Seg.render (.tagFull lb i) =
      ('<' :: 'p' :: 'a' :: 't' :: 'h' :: ' ' :: 'i' :: 'n' :: 'k' :: 's' ::
        'c' :: 'a' :: 'p' :: 'e' :: ':' :: 'l' :: 'a' :: 'b' :: 'e' :: 'l' ::
        '=' :: '"' :: (lb ++ ['"'])) ++
        (' ' :: 'i' :: 'd' :: '=' :: '"' :: (i ++ ['"', '>'])) := by
    rw [render_tagFull]
    simp
  have hlen : ('<' :: 'p' :: 'a' :: 't' :: 'h' :: ' ' :: 'i' :: 'n' :: 'k' ::
      's' :: 'c' :: 'a' :: 'p' :: 'e' :: ':' :: 'l' :: 'a' :: 'b' :: 'e' ::
      'l' :: '=' :: '"' :: (lb ++ ['"'])).length = lb.length + 23 := by
    simp only [List.length_cons, List.length_append, List.length_nil]
    try omega
  unfold rewriteTag
  dsimp only
  rw [cleanTag_tagFull hlb hi, findLabelFrom_tagFull hlb, findIdFrom_tagFull hlb hi]
  rw [if_pos (show ((some i).isSome = true) from rfl)]
  rw [insertBeforeId_eq hd (findInsIdx_tagFull i hlb)]
  rw [hsplit, List.take_left' hlen, List.drop_left' hlen]

/-! ## Stripping the freshly inserted attribute block -/

theorem noStrip_idTail {name i : Str} (hi : alnumStr i)
    (hn : ∀ u : Str, ciStarts (name ++ ['=', '"']) ('i' :: u) = false) :
    ∀ t, t <:+ ' ' :: 'i' :: 'd' :: '=' :: '"' :: (i ++ ['"', '>']) →
      tryAttrMatch name t = none := by
  have hin : ∀ c ∈ i, isSpaceJS c = false :=
    fun c hc => alnum_not_space (hi c hc)
  have h5 : ∀ t, t <:+ (['"', '>'] : Str) → tryAttrMatch name t = none :=
    noStrip_nospace_only (by decide)
  have h4 : ∀ t, t <:+ i ++ ['"', '>'] → tryAttrMatch name t = none :=
    noStrip_nospace_block hin h5
  have h3 : ∀ t, t <:+ 'i' :: 'd' :: '=' :: '"' :: (i ++ ['"', '>']) →
      tryAttrMatch name t = none :=
    noStrip_nospace_block (a := ['i', 'd', '=', '"']) (by decide) h4
  exact @noStrip_ws_block name [' '] 'i' ('d' :: '=' :: '"' :: (i ++ ['"', '>']))
    (by decide) (by decide) (hn _) h3

theorem noStrip_attrR {name r T : Str} (hr : alnumStr r)
    (hT : ∀ t, t <:+ T → tryAttrMatch name t = none)
    (hcr : ∀ u : Str, ciStarts (name ++ ['=', '"']) ('r' :: u) = false) :
    ∀ t, t <:+ attrR r T → tryAttrMatch name t = none := by
  have hrn : ∀ c ∈ r, isSpaceJS c = false :=
    fun c hc => alnum_not_space (hr c hc)
  have b1 : ∀ t, t <:+ '"' :: T → tryAttrMatch name t = none :=
    noStrip_nospace_block (a := ['"']) (by decide) hT
  have b2 : ∀ t, t <:+ r ++ ('"' :: T) → tryAttrMatch name t = none :=
    noStrip_nospace_block hrn b1
  have b3 : ∀ t, t <:+ 'r' :: 'e' :: 'g' :: 'i' :: 'o' :: 'n' :: '=' :: '"' ::
      (r ++ ('"' :: T)) → tryAttrMatch name t = none :=
    noStrip_nospace_block (a := ['r', 'e', 'g', 'i', 'o', 'n', '=', '"'])
      (by decide) b2
  exact @noStrip_ws_block name ['\n', ' ', ' ', ' ', ' '] 'r'
    ('e' :: 'g' :: 'i' :: 'o' :: 'n' :: '=' :: '"' :: (r ++ ('"' :: T)))
    (by decide) (by decide) (hcr _) b3

theorem noStrip_attrV {name v r T : Str} (hv : alnumStr v) (hr : alnumStr r)
    (hT : ∀ t, t <:+ T → tryAttrMatch name t = none)
    (hcv : ∀ u : Str, ciStarts (name ++ ['=', '"']) ('v' :: u) = false)
    (hcr : ∀ u : Str, ciStarts (name ++ ['=', '"']) ('r' :: u) = false) :
    ∀ t, t <:+ attrV v r T → tryAttrMatch name t = none := by
  have hvn : ∀ c ∈ v, isSpaceJS c = false :=
    fun c hc => alnum_not_space (hv c hc)
  have b0 : ∀ t, t <:+ attrR r T → tryAttrMatch name t = none :=
    noStrip_attrR hr hT hcr
  have b1 : ∀ t, t <:+ '"' :: attrR r T → tryAttrMatch name t = none :=
    noStrip_nospace_block (a := ['"']) (by decide) b0
  have b2 : ∀ t, t <:+ v ++ ('"' :: attrR r T) → tryAttrMatch name t = none :=
    noStrip_nospace_block hvn b1
  have b3 : ∀ t, t <:+ 'v' :: 'a' :: 'l' :: 'u' :: 'e' :: '=' :: '"' ::
      (v ++ ('"' :: attrR r T)) → tryAttrMatch name t = none :=
    noStrip_nospace_block (a := ['v', 'a', 'l', 'u', 'e', '=', '"'])
      (by decide) b2
  exact @noStrip_ws_block name ['\n', ' ', ' ', ' ', ' '] 'v'
    ('a' :: 'l' :: 'u' :: 'e' :: '=' :: '"' :: (v ++ ('"' :: attrR r T)))
    (by decide) (by decide) (hcv _) b3

theorem stripA_ln {n v r T : Str} (hn : alnumStr n) (hv : alnumStr v)
    (hr : alnumStr r)
    (hT : ∀ t, t <:+ T → tryAttrMatch lnName t = none) :
    stripAttr lnName (mkA n v r ++ T) = attrV v r T := by
  rw [show mkA n v r ++ T =
    (['\n', ' ', ' ', ' ', ' '] : Str) ++
      (lnName ++ '=' :: '"' :: (n ++ '"' :: attrV v r T)) from by
    simp [mkA, attrV, attrR, lnName]]
  have hstep : stripAttr lnName ((['\n', ' ', ' ', ' ', ' '] : Str) ++
      (lnName ++ '=' :: '"' :: (n ++ '"' :: attrV v r T))) =
      stripAttr lnName (attrV v r T) :=
    stripAttr_attr_head rfl (by decide) rfl (by decide)
      (fun c hc => alnum_ne (hn c hc) (by decide))
  rw [hstep]
  exact stripAttr_id (noStrip_attrV hv hr hT
    (fun u => ciStarts_head_false (by decide))
    (fun u => ciStarts_head_false (by decide)))

theorem stripA_v {v r T : Str} (hv : alnumStr v) (hr : alnumStr r)
    (hT : ∀ t, t <:+ T → tryAttrMatch vName t = none) :
    stripAttr vName (attrV v r T) = attrR r T := by
  show stripAttr vName ((['\n', ' ', ' ', ' ', ' '] : Str) ++
    (vName ++ '=' :: '"' :: (v ++ '"' :: attrR r T))) = attrR r T
  have hstep : stripAttr vName ((['\n', ' ', ' ', ' ', ' '] : Str) ++
      (vName ++ '=' :: '"' :: (v ++ '"' :: attrR r T))) =
      stripAttr vName (attrR r T) :=
    stripAttr_attr_head rfl (by decide) rfl (by decide)
      (fun c hc => alnum_ne (hv c hc) (by decide))
  rw [hstep]
  exact stripAttr_id (noStrip_attrR hr hT
    (fun u => ciStarts_head_false (by decide)))

theorem stripA_r {r T : Str} (hr : alnumStr r)
    (hT : ∀ t, t <:+ T → tryAttrMatch rName t = none) :
    stripAttr rName (attrR r T) = T := by
  show stripAttr rName ((['\n', ' ', ' ', ' ', ' '] : Str) ++
    (rName ++ '=' :: '"' :: (r ++ '"' :: T))) = T
  have hstep : stripAttr rName ((['\n', ' ', ' ', ' ', ' '] : Str) ++
      (rName ++ '=' :: '"' :: (r ++ '"' :: T))) = stripAttr rName T :=
    stripAttr_attr_head rfl (by decide) rfl (by decide)
      (fun c hc => alnum_ne (hr c hc) (by decide))
  rw [hstep]
  exact stripAttr_id hT

theorem crossOK_path (name : Str) :
    ∀ (b t : Str), t <:+ (['<', 'p', 'a', 't', 'h'] : Str) → t ≠ [] →
      tryAttrMatch name (t ++ b) = none :=
  fun b => cross_nospace (by decide) b

theorem crossOK_labelPre {name lb : Str} (hlb : alnumStr lb)
    (hci : ∀ u : Str, ciStarts (name ++ ['=', '"']) ('i' :: u) = false) :
    ∀ (b t : Str), t <:+ '<' :: 'p' :: 'a' :: 't' :: 'h' :: ' ' :: 'i' :: 'n' ::
      'k' :: 's' :: 'c' :: 'a' :: 'p' :: 'e' :: ':' :: 'l' :: 'a' :: 'b' ::
      'e' :: 'l' :: '=' :: '"' :: (lb ++ ['"']) → t ≠ [] →
      tryAttrMatch name (t ++ b) = none := by
  have hlbn : ∀ c ∈ lb, isSpaceJS c = false :=
    fun c hc => alnum_not_space (hlb c hc)
  exact crossOK_append
    (fun b => @cross_nospace name ['<', 'p', 'a', 't', 'h'] (by decide) b)
    (crossOK_append
      (@crossOK_sp_block name 'i'
        ['n', 'k', 's', 'c', 'a', 'p', 'e', ':', 'l', 'a', 'b', 'e', 'l',
          '=', '"'] (by decide) hci)
      (crossOK_append (fun b => @cross_nospace name lb hlbn b)
        (fun b => @cross_nospace name ['"'] (by decide) b)))

theorem cleanOut_tagId {n v r i : Str} (hn : alnumStr n) (hv : alnumStr v)
    (hr : alnumStr r) (hi : alnumStr i) :
    cleanTag ('<' :: 'p' :: 'a' :: 't' :: 'h' ::
      (mkA n v r ++ (' ' :: 'i' :: 'd' :: '=' :: '"' :: (i ++ ['"', '>'])))) =
      Seg.render (.tagId i) := by
  have hTl := @noStrip_idTail lnName i hi
    (fun u => ciStarts_head_false (by decide))
  have hTv := @noStrip_idTail vName i hi
    (fun u => ciStarts_head_false (by decide))
  have hTr := @noStrip_idTail rName i hi
    (fun u => ciStarts_head_false (by decide))
  unfold cleanTag
  show stripAttr rName (stripAttr vName (stripAttr lnName
    ((['<', 'p', 'a', 't', 'h'] : Str) ++
      (mkA n v r ++ (' ' :: 'i' :: 'd' :: '=' :: '"' :: (i ++ ['"', '>'])))))) =
    Seg.render (.tagId i)
  rw [stripAttr_append_skip (fun t ht hne => crossOK_path lnName _ t ht hne),
    stripA_ln hn hv hr hTl,
    stripAttr_append_skip (fun t ht hne => crossOK_path vName _ t ht hne),
    stripA_v hv hr hTv,
    stripAttr_append_skip (fun t ht hne => crossOK_path rName _ t ht hne),
    stripA_r hr hTr, render_tagId]
  rfl

theorem cleanOut_tagLabel {n v r lb : Str} (hn : alnumStr n) (hv : alnumStr v)
    (hr : alnumStr r) (hlb : alnumStr lb) :
    cleanTag (('<' :: 'p' :: 'a' :: 't' :: 'h' :: ' ' :: 'i' :: 'n' :: 'k' ::
      's' :: 'c' :: 'a' :: 'p' :: 'e' :: ':' :: 'l' :: 'a' :: 'b' :: 'e' ::
      'l' :: '=' :: '"' :: (lb ++ ['"'])) ++ (mkA n v r ++ ['>'])) =
      Seg.render (.tagLabel lb) := by
  have hTl : ∀ t, t <:+ (['>'] : Str) → tryAttrMatch lnName t = none :=
    noStrip_nospace_only (by decide)
  have hTv : ∀ t, t <:+ (['>'] : Str) → tryAttrMatch vName t = none :=
    noStrip_nospace_only (by decide)
  have hTr : ∀ t, t <:+ (['>'] : Str) → tryAttrMatch rName t = none :=
    noStrip_nospace_only (by decide)
  unfold cleanTag
  rw [stripAttr_append_skip (fun t ht hne =>
      crossOK_labelPre hlb (fun u => ciStarts_head_false (by decide)) _ t ht hne),
    stripA_ln hn hv hr hTl,
    stripAttr_append_skip (fun t ht hne =>
      crossOK_labelPre hlb (fun u => ciStarts_head_false (by decide)) _ t ht hne),
    stripA_v hv hr hTv,
    stripAttr_append_skip (fun t ht hne =>
      crossOK_labelPre hlb (fun u => ciStarts_head_false (by decide)) _ t ht hne),
    stripA_r hr hTr, render_tagLabel]
  simp

theorem cleanOut_tagFull {n v r lb i : Str} (hn : alnumStr n) (hv : alnumStr v)
    (hr : alnumStr r) (hlb : alnumStr lb) (hi : alnumStr i) :
    cleanTag (('<' :: 'p' :: 'a' :: 't' :: 'h' :: ' ' :: 'i' :: 'n' :: 'k' ::
      's' :: 'c' :: 'a' :: 'p' :: 'e' :: ':' :: 'l' :: 'a' :: 'b' :: 'e' ::
      'l' :: '=' :: '"' :: (lb ++ ['"'])) ++
      (mkA n v r ++ (' ' :: 'i' :: 'd' :: '=' :: '"' :: (i ++ ['"', '>'])))) =
      Seg.render (.tagFull lb i) := by
  have hTl := @noStrip_idTail lnName i hi
    (fun u => ciStarts_head_false (by decide))
  have hTv := @noStrip_idTail vName i hi
    (fun u => ciStarts_head_false (by decide))
  have hTr := @noStrip_idTail rName i hi
    (fun u => ciStarts_head_false (by decide))
  unfold cleanTag
  rw [stripAttr_append_skip (fun t ht hne =>
      crossOK_labelPre hlb (fun u => ciStarts_head_false (by decide)) _ t ht hne),
    stripA_ln hn hv hr hTl,
    stripAttr_append_skip (fun t ht hne =>
      crossOK_labelPre hlb (fun u => ciStarts_head_false (by decide)) _ t ht hne),
    stripA_v hv hr hTv,
    stripAttr_append_skip (fun t ht hne =>
      crossOK_labelPre hlb (fun u => ciStarts_head_false (by decide)) _ t ht hne),
    stripA_r hr hTr, render_tagFull]
  simp

/-! ## Per-form idempotence of the tag rewriter -/

theorem rewriteTag_out_tagId {i : Str} (hi : alnumStr i) {l : Lookup}
    (hl : okLookup l) :
    rewriteTag l (rewriteTag l (Seg.render (.tagId i))) =
      rewriteTag l (Seg.render (.tagId i)) := by
  have hres := @resolve_alnum l hl (some i) none (fun s h => by cases h)
  apply rewriteTag_congr
  rw [rewriteTag_tagId hi hl, mkAttrs_eq_mkA hres.2.2 hres.1 hres.2.1,
    cleanTag_tagId hi, List.append_assoc]
  exact cleanOut_tagId hres.2.2 hres.1 hres.2.1 hi

theorem rewriteTag_out_tagLabel {lb : Str} (hlb : alnumStr lb) {l : Lookup}
    (hl : okLookup l) :
    rewriteTag l (rewriteTag l (Seg.render (.tagLabel lb))) =
      rewriteTag l (Seg.render (.tagLabel lb)) := by
  have hres := @resolve_alnum l hl none (some lb)
    (fun s h => by injection h with h1; rw [← h1]; exact hlb)
  apply rewriteTag_congr
  rw [rewriteTag_tagLabel hlb l, mkAttrs_eq_mkA hres.2.2 hres.1 hres.2.1,
    cleanTag_tagLabel hlb, List.append_assoc]
  exact cleanOut_tagLabel hres.2.2 hres.1 hres.2.1 hlb

theorem rewriteTag_out_tagFull {lb i : Str} (hlb : alnumStr lb)
    (hi : alnumStr i) {l : Lookup} (hl : okLookup l) :
    rewriteTag l (rewriteTag l (Seg.render (.tagFull lb i))) =
      rewriteTag l (Seg.render (.tagFull lb i)) := by
  have hres := @resolve_alnum l hl (some i) (some lb)
    (fun s h => by injection h with h1; rw [← h1]; exact hlb)
  apply rewriteTag_congr
  rw [rewriteTag_tagFull hlb hi hl, mkAttrs_eq_mkA hres.2.2 hres.1 hres.2.1,
    cleanTag_tagFull hlb hi, List.append_assoc]
  exact cleanOut_tagFull hres.2.2 hres.1 hres.2.1 hlb hi

/-! ## The tag pattern matches each canonical tag and its rewrite -/

theorem matchLen_tagId {i : Str} (hi : alnumStr i) (rest : Str) :
    matchLenAt (Seg.render (.tagId i) ++ rest) =
      some (Seg.render (.tagId i)).length := by
  have harr : Seg.render (.tagId i) ++ rest =
      pathPat ++ ((' ' :: 'i' :: 'd' :: '=' :: '"' :: (i ++ ['"'])) ++
        '>' :: rest) := by
    rw [render_tagId]
    simp
    try rfl
  have hin : ∀ c ∈ ' ' :: 'i' :: 'd' :: '=' :: '"' :: (i ++ ['"']),
      c ≠ '>' := by
    intro c hc heq
    subst heq
    have k : ¬ '>' ∈ i := fun hx => alnum_ne (hi _ hx) (by decide) rfl
    simp [k] at hc
  rw [harr, matchLenAt_pathTag hin (hb_of_head rfl (by decide)), render_tagId]
  simp only [List.length_cons, List.length_append, List.length_nil,
    Option.some.injEq]
  omega

theorem matchLen_tagLabel {lb : Str} (hlb : alnumStr lb) (rest : Str) :
    matchLenAt (Seg.render (.tagLabel lb) ++ rest) =
      some (Seg.render (.tagLabel lb)).length := by
  have harr : Seg.render (.tagLabel lb) ++ rest =
      pathPat ++ ((' ' :: 'i' :: 'n' :: 'k' :: 's' :: 'c' :: 'a' :: 'p' ::
        'e' :: ':' :: 'l' :: 'a' :: 'b' :: 'e' :: 'l' :: '=' :: '"' ::
        (lb ++ ['"'])) ++ '>' :: rest) := by
    rw [render_tagLabel]
    simp
    try rfl
  have hin : ∀ c ∈ ' ' :: 'i' :: 'n' :: 'k' :: 's' :: 'c' :: 'a' :: 'p' ::
      'e' :: ':' :: 'l' :: 'a' :: 'b' :: 'e' :: 'l' :: '=' :: '"' ::
      (lb ++ ['"']), c ≠ '>' := by
    intro c hc heq
    subst heq
    have k : ¬ '>' ∈ lb := fun hx => alnum_ne (hlb _ hx) (by decide) rfl
    simp [k] at hc
  rw [harr, matchLenAt_pathTag hin (hb_of_head rfl (by decide)),
    render_tagLabel]
  simp only [List.length_cons, List.length_append, List.length_nil,
    Option.some.injEq]
  omega

theorem matchLen_tagFull {lb i : Str} (hlb : alnumStr lb) (hi : alnumStr i)
    (rest : Str) :
    matchLenAt (Seg.render (.tagFull lb i) ++ rest) =
      some (Seg.render (.tagFull lb i)).length := by
  have harr : Seg.render (.tagFull lb i) ++ rest =
      pathPat ++ ((' ' :: 'i' :: 'n' :: 'k' :: 's' :: 'c' :: 'a' :: 'p' ::
        'e' :: ':' :: 'l' :: 'a' :: 'b' :: 'e' :: 'l' :: '=' :: '"' ::
        (lb ++ ('"' :: ' ' :: 'i' :: 'd' :: '=' :: '"' :: (i ++ ['"'])))) ++
        '>' :: rest) := by
    rw [render_tagFull]
    simp
    try rfl
  have hin : ∀ c ∈ ' ' :: 'i' :: 'n' :: 'k' :: 's' :: 'c' :: 'a' :: 'p' ::
      'e' :: ':' :: 'l' :: 'a' :: 'b' :: 'e' :: 'l' :: '=' :: '"' ::
      (lb ++ ('"' :: ' ' :: 'i' :: 'd' :: '=' :: '"' :: (i ++ ['"']))),
      c ≠ '>' := by
    intro c hc heq
    subst heq
    have k1 : ¬ '>' ∈ lb := fun hx => alnum_ne (hlb _ hx) (by decide) rfl
    have k2 : ¬ '>' ∈ i := fun hx => alnum_ne (hi _ hx) (by decide) rfl
    simp [k1, k2] at hc
  rw [harr, matchLenAt_pathTag hin (hb_of_head rfl (by decide)),
    render_tagFull]
  simp only [List.length_cons, List.length_append, List.length_nil,
    Option.some.injEq]
  omega

theorem matchLen_out_tagId {i : Str} (hi : alnumStr i) {l : Lookup}
    (hl : okLookup l) (rest : Str) :
    matchLenAt (rewriteTag l (Seg.render (.tagId i)) ++ rest) =
      some (rewriteTag l (Seg.render (.tagId i))).length := by
  have hres := @resolve_alnum l hl (some i) none (fun s h => by cases h)
  rw [rewriteTag_tagId hi hl, mkAttrs_eq_mkA hres.2.2 hres.1 hres.2.1]
  have harr : (['<', 'p', 'a', 't', 'h'] ++
      mkA (resolve l (some i) none).longName (resolve l (some i) none).value
        (resolve l (some i) none).region ++
      (' ' :: 'i' :: 'd' :: '=' :: '"' :: (i ++ ['"', '>']))) ++ rest =
      pathPat ++
        ((mkA (resolve l (some i) none).longName
            (resolve l (some i) none).value (resolve l (some i) none).region ++
          (' ' :: 'i' :: 'd' :: '=' :: '"' :: (i ++ ['"']))) ++ '>' :: rest) := by
    simp
    try rfl
  have hin : ∀ c ∈ mkA (resolve l (some i) none).longName
      (resolve l (some i) none).value (resolve l (some i) none).region ++
      (' ' :: 'i' :: 'd' :: '=' :: '"' :: (i ++ ['"'])), c ≠ '>' := by
    intro c hc heq
    subst heq
    have k1 : ¬ '>' ∈ (resolve l (some i) none).longName :=
      fun hx => alnum_ne (hres.2.2 _ hx) (by decide) rfl
    have k2 : ¬ '>' ∈ (resolve l (some i) none).value :=
      fun hx => alnum_ne (hres.1 _ hx) (by decide) rfl
    have k3 : ¬ '>' ∈ (resolve l (some i) none).region :=
      fun hx => alnum_ne (hres.2.1 _ hx) (by decide) rfl
    have k4 : ¬ '>' ∈ i := fun hx => alnum_ne (hi _ hx) (by decide) rfl
    simp [mkA, k1, k2, k3, k4] at hc
  rw [harr, matchLenAt_pathTag hin (hb_of_head rfl (by decide))]
  simp only [mkA, List.length_cons, List.length_append, List.length_nil,
    Option.some.injEq]
  omega

theorem matchLen_out_tagLabel {lb : Str} (hlb : alnumStr lb) {l : Lookup}
    (hl : okLookup l) (rest : Str) :
    matchLenAt (rewriteTag l (Seg.render (.tagLabel lb)) ++ rest) =
      some (rewriteTag l (Seg.render (.tagLabel lb))).length := by
  have hres := @resolve_alnum l hl none (some lb)
    (fun s h => by injection h with h1; rw [← h1]; exact hlb)
  rw [rewriteTag_tagLabel hlb l, mkAttrs_eq_mkA hres.2.2 hres.1 hres.2.1]
  have harr : (('<' :: 'p' :: 'a' :: 't' :: 'h' :: ' ' :: 'i' :: 'n' :: 'k' ::
      's' :: 'c' :: 'a' :: 'p' :: 'e' :: ':' :: 'l' :: 'a' :: 'b' :: 'e' ::
      'l' :: '=' :: '"' :: (lb ++ ['"'])) ++
      mkA (resolve l none (some lb)).longName (resolve l none (some lb)).value
        (resolve l none (some lb)).region ++ ['>']) ++ rest =
      pathPat ++
        ((' ' :: 'i' :: 'n' :: 'k' :: 's' :: 'c' :: 'a' :: 'p' :: 'e' :: ':' ::
          'l' :: 'a' :: 'b' :: 'e' :: 'l' :: '=' :: '"' ::
          (lb ++ ('"' :: mkA (resolve l none (some lb)).longName
            (resolve l none (some lb)).value
            (resolve l none (some lb)).region))) ++ '>' :: rest) := by
    simp
    try rfl
  have hin : ∀ c ∈ ' ' :: 'i' :: 'n' :: 'k' :: 's' :: 'c' :: 'a' :: 'p' ::
      'e' :: ':' :: 'l' :: 'a' :: 'b' :: 'e' :: 'l' :: '=' :: '"' ::
      (lb ++ ('"' :: mkA (resolve l none (some lb)).longName
        (resolve l none (some lb)).value (resolve l none (some lb)).region)),
      c ≠ '>' := by
    intro c hc heq
    subst heq
    have k1 : ¬ '>' ∈ (resolve l none (some lb)).longName :=
      fun hx => alnum_ne (hres.2.2 _ hx) (by decide) rfl
    have k2 : ¬ '>' ∈ (resolve l none (some lb)).value :=
      fun hx => alnum_ne (hres.1 _ hx) (by decide) rfl
    have k3 : ¬ '>' ∈ (resolve l none (some lb)).region :=
      fun hx => alnum_ne (hres.2.1 _ hx) (by decide) rfl
    have k4 : ¬ '>' ∈ lb := fun hx => alnum_ne (hlb _ hx) (by decide) rfl
    simp [mkA, k1, k2, k3, k4] at hc
  rw [harr, matchLenAt_pathTag hin (hb_of_head rfl (by decide))]
  simp only [mkA, List.length_cons, List.length_append, List.length_nil,
    Option.some.injEq]
  omega

theorem matchLen_out_tagFull {lb i : Str} (hlb : alnumStr lb) (hi : alnumStr i)
    {l : Lookup} (hl : okLookup l) (rest : Str) :
    matchLenAt (rewriteTag l (Seg.render (.tagFull lb i)) ++ rest) =
      some (rewriteTag l (Seg.render (.tagFull lb i))).length := by
  have hres := @resolve_alnum l hl (some i) (some lb)
    (fun s h => by injection h with h1; rw [← h1]; exact hlb)
  rw [rewriteTag_tagFull hlb hi hl, mkAttrs_eq_mkA hres.2.2 hres.1 hres.2.1]
  have harr : (('<' :: 'p' :: 'a' :: 't' :: 'h' :: ' ' :: 'i' :: 'n' :: 'k' ::
      's' :: 'c' :: 'a' :: 'p' :: 'e' :: ':' :: 'l' :: 'a' :: 'b' :: 'e' ::
      'l' :: '=' :: '"' :: (lb ++ ['"'])) ++
      mkA (resolve l (some i) (some lb)).longName
        (resolve l (some i) (some lb)).value
        (resolve l (some i) (some lb)).region ++
      (' ' :: 'i' :: 'd' :: '=' :: '"' :: (i ++ ['"', '>']))) ++ rest =
      pathPat ++
        ((' ' :: 'i' :: 'n' :: 'k' :: 's' :: 'c' :: 'a' :: 'p' :: 'e' :: ':' ::
          'l' :: 'a' :: 'b' :: 'e' :: 'l' :: '=' :: '"' ::
          (lb ++ ('"' :: (mkA (resolve l (some i) (some lb)).longName
            (resolve l (some i) (some lb)).value
            (resolve l (some i) (some lb)).region ++
            (' ' :: 'i' :: 'd' :: '=' :: '"' :: (i ++ ['"'])))))) ++
          '>' :: rest) := by
    simp
    try rfl
  have hin : ∀ c ∈ ' ' :: 'i' :: 'n' :: 'k' :: 's' :: 'c' :: 'a' :: 'p' ::
      'e' :: ':' :: 'l' :: 'a' :: 'b' :: 'e' :: 'l' :: '=' :: '"' ::
      (lb ++ ('"' :: (mkA (resolve l (some i) (some lb)).longName
        (resolve l (some i) (some lb)).value
        (resolve l (some i) (some lb)).region ++
        (' ' :: 'i' :: 'd' :: '=' :: '"' :: (i ++ ['"']))))), c ≠ '>' := by
    intro c hc heq
    subst heq
    have k1 : ¬ '>' ∈ (resolve l (some i) (some lb)).longName :=
      fun hx => alnum_ne (hres.2.2 _ hx) (by decide) rfl
    have k2 : ¬ '>' ∈ (resolve l (some i) (some lb)).value :=
      fun hx => alnum_ne (hres.1 _ hx) (by decide) rfl
    have k3 : ¬ '>' ∈ (resolve l (some i) (some lb)).region :=
      fun hx => alnum_ne (hres.2.1 _ hx) (by decide) rfl
    have k4 : ¬ '>' ∈ lb := fun hx => alnum_ne (hlb _ hx) (by decide) rfl
    have k5 : ¬ '>' ∈ i := fun hx => alnum_ne (hi _ hx) (by decide) rfl
    simp [mkA, k1, k2, k3, k4, k5] at hc
  rw [harr, matchLenAt_pathTag hin (hb_of_head rfl (by decide))]
  simp only [mkA, List.length_cons, List.length_append, List.length_nil,
    Option.some.injEq]
  omega

/-! ## The global scan over canonical documents -/

theorem editSvg_renderDoc (l : Lookup) :
    ∀ segs : List Seg, (∀ g ∈ segs, Seg.ok g) →
      editSvg (renderDoc segs) l = outDoc l segs := by
  intro segs
  induction segs with
  | nil => intro _; rfl
  | cons g segs ih =>
      intro hok
      have hokg := hok g (List.mem_cons_self g segs)
      have hoks : ∀ x ∈ segs, Seg.ok x :=
        fun x hx => hok x (List.mem_cons_of_mem g hx)
      have hrd : renderDoc (g :: segs) = Seg.render g ++ renderDoc segs := rfl
      have hod : outDoc l (g :: segs) = outSeg l g ++ outDoc l segs := rfl
      rw [hrd, hod]
      cases g with
      | plain s =>
          show editSvg (s ++ renderDoc segs) l =
            outSeg l (.plain s) ++ outDoc l segs
          rw [editSvg_skip_block hokg, ih hoks]
          rfl
      | bare =>
          rw [editSvg_tag (matchLen_bare (renderDoc segs)), ih hoks]
          rfl
      | tagId i =>
          rw [editSvg_tag (matchLen_tagId hokg (renderDoc segs)), ih hoks]
          rfl
      | tagLabel lb =>
          rw [editSvg_tag (matchLen_tagLabel hokg (renderDoc segs)), ih hoks]
          rfl
      | tagFull lb i =>
          rw [editSvg_tag
            (matchLen_tagFull hokg.1 hokg.2 (renderDoc segs)), ih hoks]
          rfl

theorem editSvg_outDoc {l : Lookup} (hl : okLookup l) :
    ∀ segs : List Seg, (∀ g ∈ segs, Seg.ok g) →
      editSvg (outDoc l segs) l = outDoc l segs := by
  intro segs
  induction segs with
  | nil => intro _; rfl
  | cons g segs ih =>
      intro hok
      have hokg := hok g (List.mem_cons_self g segs)
      have hoks : ∀ x ∈ segs, Seg.ok x :=
        fun x hx => hok x (List.mem_cons_of_mem g hx)
      have hod : outDoc l (g :: segs) = outSeg l g ++ outDoc l segs := rfl
      rw [hod]
      cases g with
      | plain s =>
          show editSvg (s ++ outDoc l segs) l =
            outSeg l (.plain s) ++ outDoc l segs
          rw [editSvg_skip_block hokg, ih hoks]
          rfl
      | bare =>
          show editSvg (rewriteTag l (Seg.render .bare) ++ outDoc l segs) l =
            outSeg l .bare ++ outDoc l segs
          rw [editSvg_tag (matchLen_bare_out l (outDoc l segs)),
            rewriteTag_bare_idem l, ih hoks]
          rfl
      | tagId i =>
          show editSvg (rewriteTag l (Seg.render (.tagId i)) ++
            outDoc l segs) l = outSeg l (.tagId i) ++ outDoc l segs
          rw [editSvg_tag (matchLen_out_tagId hokg hl (outDoc l segs)),
            rewriteTag_out_tagId hokg hl, ih hoks]
          rfl
      | tagLabel lb =>
          show editSvg (rewriteTag l (Seg.render (.tagLabel lb)) ++
            outDoc l segs) l = outSeg l (.tagLabel lb) ++ outDoc l segs
          rw [editSvg_tag (matchLen_out_tagLabel hokg hl (outDoc l segs)),
            rewriteTag_out_tagLabel hokg hl, ih hoks]
          rfl
      | tagFull lb i =>
          show editSvg (rewriteTag l (Seg.render (.tagFull lb i)) ++
            outDoc l segs) l = outSeg l (.tagFull lb i) ++ outDoc l segs
          rw [editSvg_tag (matchLen_out_tagFull hokg.1 hokg.2 hl (outDoc l segs)),
            rewriteTag_out_tagFull hokg.1 hokg.2 hl, ih hoks]
          rfl

/-! ## Claim C1: idempotence of the merge -/

/-- C1 counterexample: on the tag `<path id="p1">` with a stored value
`1>2`, re-running `editSvg` on its own output changes it again (the
inserted `>` truncates the tag span seen by the second pass), so
idempotence fails for general documents and indexes. -/
theorem C1_counterexample :
    editSvg (editSvg gtDoc gtLookup) gtLookup ≠ editSvg gtDoc gtLookup := by
  decide

/-- C1 (amended): the merge is idempotent on every document assembled from
canonical pieces (plain text without `<` and the canonical target-tag
forms with alphanumeric label and id), against any lookup index whose
stored fields are alphanumeric: `editSvg (editSvg doc l) l = editSvg doc l`
for `doc = renderDoc segs`. -/
theorem C1_idempotent {l : Lookup} (hl : okLookup l) {segs : List Seg}
    (hok : ∀ g ∈ segs, Seg.ok g) :
    editSvg (editSvg (renderDoc segs) l) l = editSvg (renderDoc segs) l := by
  rw [editSvg_renderDoc l segs hok]
  exact editSvg_outDoc hl segs hok

/-- C1 witness: the amended idempotence theorem applied to a concrete
five-piece canonical document and the empty index. -/
theorem C1_witness :
    okLookup emptyLookup ∧ (∀ g ∈ demoSegs, Seg.ok g) ∧
      editSvg (editSvg (renderDoc demoSegs) emptyLookup) emptyLookup =
        editSvg (renderDoc demoSegs) emptyLookup := by
  have hl : okLookup emptyLookup :=
    ⟨fun k e h => Option.noConfusion h, fun k e h => Option.noConfusion h⟩
  have hs : ∀ g ∈ demoSegs, Seg.ok g := by
    intro g hg
    simp only [demoSegs, List.mem_cons, List.not_mem_nil, or_false] at hg
    rcases hg with rfl | rfl | rfl | rfl | rfl
    · show ∀ c ∈ str "ab ", c ≠ '<'
      decide
    · show alnumStr (str "p1")
      unfold alnumStr
      decide
    · exact trivial
    · show alnumStr (str "Norte")
      unfold alnumStr
      decide
    · exact ⟨by unfold alnumStr; decide, by unfold alnumStr; decide⟩
  exact ⟨hl, hs, C1_idempotent hl hs⟩

/-! ## Claim C10: the empty-id edge case -/

/-- C10: an empty extracted id skips the identifier tier of the resolution
(`resolve` treats `some ""` exactly like a missing id, falling through to
the label lookup or the defaults), yet the insertion still happens before
the `id=""` occurrence: rewriting the canonical tag `<path id="">` splices
the attribute block between `<path` and ` id=""`, not before the `>`. -/
theorem C10_empty_id (l : Lookup) (hl : okLookup l) :
    (∀ lb : Option Str, resolve l (some []) lb = resolve l none lb) ∧
    rewriteTag l (Seg.render (.tagId [])) =
      ['<', 'p', 'a', 't', 'h'] ++ mkAttrs (resolve l none none) ++
        str " id=\"\">" := by
  have hskip : ∀ lb : Option Str, resolve l (some []) lb = resolve l none lb := by
    intro lb
    unfold resolve
    dsimp only
    rw [dif_neg (by simp)]
  refine ⟨hskip, ?_⟩
  rw [rewriteTag_tagId (fun c hc => absurd hc (List.not_mem_nil c)) hl,
    hskip none]
  rfl

/-- C10 witness: the empty-id theorem applied to the empty index, with a
concrete style label instantiating the resolution equation. -/
theorem C10_witness :
    resolve emptyLookup (some []) (some (str "Norte")) =
        resolve emptyLookup none (some (str "Norte")) ∧
      rewriteTag emptyLookup (Seg.render (.tagId [])) =
        ['<', 'p', 'a', 't', 'h'] ++ mkAttrs (resolve emptyLookup none none) ++
          str " id=\"\">" := by
  have hl : okLookup emptyLookup :=
    ⟨fun k e h => Option.noConfusion h, fun k e h => Option.noConfusion h⟩
  exact ⟨(C10_empty_id emptyLookup hl).1 (some (str "Norte")),
    (C10_empty_id emptyLookup hl).2⟩

/-! ## Counting attribute occurrences in rewritten tags -/

theorem lnPat_eq : lnPat = 'l' :: ['o', 'n', 'g', '-', 'n', 'a', 'm', 'e', '=', '"'] := rfl

theorem vPat_eq : vPat = 'v' :: ['a', 'l', 'u', 'e', '=', '"'] := rfl

theorem rPat_eq : rPat = 'r' :: ['e', 'g', 'i', 'o', 'n', '=', '"'] := rfl

theorem lnPat_nm : lnPat = lnName ++ ['=', '"'] := rfl

theorem vPat_nm : vPat = vName ++ ['=', '"'] := rfl

theorem rPat_nm : rPat = rName ++ ['=', '"'] := rfl

theorem countGo_cons_skip {pat : Str} {c : Char} {rest : Str} {p0 : Char}
    {ps : Str} (hp : pat = p0 :: ps) (h : (lowerA p0 == lowerA c) = false) :
    countGo pat (c :: rest) = countGo pat rest := by
  rw [countGo_cons, hp, ciStarts_head_false h]
  simp

theorem countGo_chunk {pat a b : Str} {p0 : Char} {ps : Str} (k : Nat)
    (hp : pat = p0 :: ps) (hcnt : countGo pat a = k)
    (ha : ∀ x ∈ a.drop (a.length - ps.length),
      (lowerA p0 == lowerA x) = false) :
    countGo pat (a ++ b) = k + countGo pat b := by
  rw [countGo_append_of pat a b (fun t ht hne hlen => by
    rw [hp]
    rw [hp, List.length_cons] at hlen
    exact hshort_of_no_head ps ha b t
      (suffix_trunc ht (by omega)) hne), hcnt]

theorem countGo_skip_alnum {pat a b : Str} (hpe : '=' ∈ pat)
    {nm : Str} (hp : pat = nm ++ ['=', '"'])
    (hnm : ∀ x ∈ nm, (lowerA x == '"') = false)
    (ha : alnumStr a) {b' : Str} (hb : b = '"' :: b') :
    countGo pat (a ++ b) = countGo pat b := by
  have h0 : countGo pat a = 0 := countGo_zero_of (fun t ht =>
    ciStarts_alnum_false hpe (fun c hc => ha c (ht.subset hc)))
  rw [countGo_append_of pat a b (fun t ht hne hlen => by
    subst hp hb
    exact ciStarts_alnum_quote hnm (fun c hc => ha c (ht.subset hc)) b'), h0]
  simp

/-- The `value="` characters never begin a `long-name="` match, wherever
the suffix starts. -/
theorem countGo_skip_vc_ln (b : Str) :
    countGo lnPat ((['v', 'a', 'l', 'u', 'e', '=', '"'] : Str) ++ b) =
      countGo lnPat b := by
  rw [countGo_append_of lnPat ['v', 'a', 'l', 'u', 'e', '=', '"'] b
    (fun t ht hne hlen => by
      have hm := (List.mem_tails t ['v', 'a', 'l', 'u', 'e', '=', '"']).mpr ht
      simp only [List.tails, List.mem_cons, List.not_mem_nil, or_false] at hm
      rcases hm with rfl | rfl | rfl | rfl | rfl | rfl | rfl | rfl
      · exact ciStarts_head_false (by decide)
      · exact ciStarts_head_false (by decide)
      · exact ciStarts_two_false (by decide)
      · exact ciStarts_head_false (by decide)
      · exact ciStarts_head_false (by decide)
      · exact ciStarts_head_false (by decide)
      · exact ciStarts_head_false (by decide)
      · exact absurd rfl hne)]
  rw [show countGo lnPat ['v', 'a', 'l', 'u', 'e', '=', '"'] = 0 from by decide]
  omega

/-- The characters of `<path inkscape:label="` never begin a `long-name="`
match, wherever the suffix starts. -/
theorem countGo_skip_pre22_ln (b : Str) :
    countGo lnPat ((['<', 'p', 'a', 't', 'h', ' ', 'i', 'n', 'k', 's', 'c',
      'a', 'p', 'e', ':', 'l', 'a', 'b', 'e', 'l', '=', '"'] : Str) ++ b) =
      countGo lnPat b := by
  rw [countGo_append_of lnPat
    ['<', 'p', 'a', 't', 'h', ' ', 'i', 'n', 'k', 's', 'c', 'a', 'p', 'e',
      ':', 'l', 'a', 'b', 'e', 'l', '=', '"'] b
    (fun t ht hne hlen => by
      have ht2 := suffix_trunc ht (n := 10)
        (by simp only [lnPat, lnName, List.length_cons, List.length_append,
          List.length_nil] at hlen; omega)
      have hm := (List.mem_tails t
        (['p', 'e', ':', 'l', 'a', 'b', 'e', 'l', '=', '"'] : Str)).mpr
        (by simpa using ht2)
      simp only [List.tails, List.mem_cons, List.not_mem_nil, or_false] at hm
      rcases hm with rfl | rfl | rfl | rfl | rfl | rfl | rfl | rfl | rfl |
        rfl | rfl
      · exact ciStarts_head_false (by decide)
      · exact ciStarts_head_false (by decide)
      · exact ciStarts_head_false (by decide)
      · exact ciStarts_two_false (by decide)
      · exact ciStarts_head_false (by decide)
      · exact ciStarts_head_false (by decide)
      · exact ciStarts_head_false (by decide)
      · exact ciStarts_two_false (by decide)
      · exact ciStarts_head_false (by decide)
      · exact ciStarts_head_false (by decide)
      · exact absurd rfl hne)]
  rw [show countGo lnPat ['<', 'p', 'a', 't', 'h', ' ', 'i', 'n', 'k', 's',
    'c', 'a', 'p', 'e', ':', 'l', 'a', 'b', 'e', 'l', '=', '"'] = 0 from
    by decide]
  omega

theorem countGo_mkA_ln {n v r : Str} (hn : alnumStr n) (hv : alnumStr v)
    (hr : alnumStr r) (T : Str) :
    countGo lnPat (mkA n v r ++ T) = 1 + countGo lnPat T := by
  have e1 : mkA n v r ++ T =
      (['\n', ' ', ' ', ' ', ' '] : Str) ++
        ((['l', 'o', 'n', 'g', '-', 'n', 'a', 'm', 'e', '=', '"'] : Str) ++
          (n ++ ('"' :: ((['\n', ' ', ' ', ' ', ' '] : Str) ++
            ((['v', 'a', 'l', 'u', 'e', '=', '"'] : Str) ++
              (v ++ ('"' :: ((['\n', ' ', ' ', ' ', ' '] : Str) ++
                ((['r', 'e', 'g', 'i', 'o', 'n', '=', '"'] : Str) ++
                  (r ++ ('"' :: T))))))))))) := by
    simp [mkA]
  rw [e1,
    countGo_chunk 0 lnPat_eq (by decide) (by decide),
    countGo_chunk 1 lnPat_eq (by decide) (by decide),
    countGo_skip_alnum (by decide) lnPat_nm (by decide) hn rfl,
    countGo_cons_skip lnPat_eq (by decide),
    countGo_chunk 0 lnPat_eq (by decide) (by decide),
    countGo_skip_vc_ln,
    countGo_skip_alnum (by decide) lnPat_nm (by decide) hv rfl,
    countGo_cons_skip lnPat_eq (by decide),
    countGo_chunk 0 lnPat_eq (by decide) (by decide),
    countGo_chunk 0 lnPat_eq (by decide) (by decide),
    countGo_skip_alnum (by decide) lnPat_nm (by decide) hr rfl,
    countGo_cons_skip lnPat_eq (by decide)]
  omega

theorem countGo_mkA_v {n v r : Str} (hn : alnumStr n) (hv : alnumStr v)
    (hr : alnumStr r) (T : Str) :
    countGo vPat (mkA n v r ++ T) = 1 + countGo vPat T := by
  have e1 : mkA n v r ++ T =
      (['\n', ' ', ' ', ' ', ' '] : Str) ++
        ((['l', 'o', 'n', 'g', '-', 'n', 'a', 'm', 'e', '=', '"'] : Str) ++
          (n ++ ('"' :: ((['\n', ' ', ' ', ' ', ' '] : Str) ++
            ((['v', 'a', 'l', 'u', 'e', '=', '"'] : Str) ++
              (v ++ ('"' :: ((['\n', ' ', ' ', ' ', ' '] : Str) ++
                ((['r', 'e', 'g', 'i', 'o', 'n', '=', '"'] : Str) ++
                  (r ++ ('"' :: T))))))))))) := by
    simp [mkA]
  rw [e1,
    countGo_chunk 0 vPat_eq (by decide) (by decide),
    countGo_chunk 0 vPat_eq (by decide) (by decide),
    countGo_skip_alnum (by decide) vPat_nm (by decide) hn rfl,
    countGo_cons_skip vPat_eq (by decide),
    countGo_chunk 0 vPat_eq (by decide) (by decide),
    countGo_chunk 1 vPat_eq (by decide) (by decide),
    countGo_skip_alnum (by decide) vPat_nm (by decide) hv rfl,
    countGo_cons_skip vPat_eq (by decide),
    countGo_chunk 0 vPat_eq (by decide) (by decide),
    countGo_chunk 0 vPat_eq (by decide) (by decide),
    countGo_skip_alnum (by decide) vPat_nm (by decide) hr rfl,
    countGo_cons_skip vPat_eq (by decide)]
  omega

theorem countGo_mkA_r {n v r : Str} (hn : alnumStr n) (hv : alnumStr v)
    (hr : alnumStr r) (T : Str) :
    countGo rPat (mkA n v r ++ T) = 1 + countGo rPat T := by
  have e1 : mkA n v r ++ T =
      (['\n', ' ', ' ', ' ', ' '] : Str) ++
        ((['l', 'o', 'n', 'g', '-', 'n', 'a', 'm', 'e', '=', '"'] : Str) ++
          (n ++ ('"' :: ((['\n', ' ', ' ', ' ', ' '] : Str) ++
            ((['v', 'a', 'l', 'u', 'e', '=', '"'] : Str) ++
              (v ++ ('"' :: ((['\n', ' ', ' ', ' ', ' '] : Str) ++
                ((['r', 'e', 'g', 'i', 'o', 'n', '=', '"'] : Str) ++
                  (r ++ ('"' :: T))))))))))) := by
    simp [mkA]
  rw [e1,
    countGo_chunk 0 rPat_eq (by decide) (by decide),
    countGo_chunk 0 rPat_eq (by decide) (by decide),
    countGo_skip_alnum (by decide) rPat_nm (by decide) hn rfl,
    countGo_cons_skip rPat_eq (by decide),
    countGo_chunk 0 rPat_eq (by decide) (by decide),
    countGo_chunk 0 rPat_eq (by decide) (by decide),
    countGo_skip_alnum (by decide) rPat_nm (by decide) hv rfl,
    countGo_cons_skip rPat_eq (by decide),
    countGo_chunk 0 rPat_eq (by decide) (by decide),
    countGo_chunk 1 rPat_eq (by decide) (by decide),
    countGo_skip_alnum (by decide) rPat_nm (by decide) hr rfl,
    countGo_cons_skip rPat_eq (by decide)]
  omega

theorem countGo_out_bare (pat : Str)
    (hp : pat = lnPat ∨ pat = vPat ∨ pat = rPat) (l : Lookup) :
    countGo pat (rewriteTag l (Seg.render .bare)) = 1 := by
  rw [rewriteTag_bare l]
  rcases hp with rfl | rfl | rfl
  · decide
  · decide
  · decide

theorem countGo_out_tagId {i : Str} (hi : alnumStr i) {l : Lookup}
    (hl : okLookup l) :
    countGo lnPat (rewriteTag l (Seg.render (.tagId i))) = 1 ∧
    countGo vPat (rewriteTag l (Seg.render (.tagId i))) = 1 ∧
    countGo rPat (rewriteTag l (Seg.render (.tagId i))) = 1 := by
  have hres := @resolve_alnum l hl (some i) none (fun s h => by cases h)
  rw [rewriteTag_tagId hi hl, mkAttrs_eq_mkA hres.2.2 hres.1 hres.2.1]
  have e2 : (['<', 'p', 'a', 't', 'h'] : Str) ++
      mkA (resolve l (some i) none).longName (resolve l (some i) none).value
        (resolve l (some i) none).region ++
      (' ' :: 'i' :: 'd' :: '=' :: '"' :: (i ++ ['"', '>'])) =
      (['<', 'p', 'a', 't', 'h'] : Str) ++
        (mkA (resolve l (some i) none).longName
          (resolve l (some i) none).value (resolve l (some i) none).region ++
          ((([' ', 'i', 'd', '=', '"'] : Str)) ++ (i ++ ('"' :: ['>'])))) := by
    simp
  rw [e2]
  refine ⟨?_, ?_, ?_⟩
  · rw [countGo_chunk 0 lnPat_eq (by decide) (by decide),
      countGo_mkA_ln hres.2.2 hres.1 hres.2.1,
      countGo_chunk 0 lnPat_eq (by decide) (by decide),
      countGo_skip_alnum (by decide) lnPat_nm (by decide) hi rfl,
      countGo_cons_skip lnPat_eq (by decide),
      show countGo lnPat ['>'] = 0 from by decide]
  · rw [countGo_chunk 0 vPat_eq (by decide) (by decide),
      countGo_mkA_v hres.2.2 hres.1 hres.2.1,
      countGo_chunk 0 vPat_eq (by decide) (by decide),
      countGo_skip_alnum (by decide) vPat_nm (by decide) hi rfl,
      countGo_cons_skip vPat_eq (by decide),
      show countGo vPat ['>'] = 0 from by decide]
  · rw [countGo_chunk 0 rPat_eq (by decide) (by decide),
      countGo_mkA_r hres.2.2 hres.1 hres.2.1,
      countGo_chunk 0 rPat_eq (by decide) (by decide),
      countGo_skip_alnum (by decide) rPat_nm (by decide) hi rfl,
      countGo_cons_skip rPat_eq (by decide),
      show countGo rPat ['>'] = 0 from by decide]

theorem countGo_out_tagLabel {lb : Str} (hlb : alnumStr lb) {l : Lookup}
    (hl : okLookup l) :
    countGo lnPat (rewriteTag l (Seg.render (.tagLabel lb))) = 1 ∧
    countGo vPat (rewriteTag l (Seg.render (.tagLabel lb))) = 1 ∧
    countGo rPat (rewriteTag l (Seg.render (.tagLabel lb))) = 1 := by
  have hres := @resolve_alnum l hl none (some lb)
    (fun s h => by injection h with h1; rw [← h1]; exact hlb)
  rw [rewriteTag_tagLabel hlb l, mkAttrs_eq_mkA hres.2.2 hres.1 hres.2.1]
  have e2 : ('<' :: 'p' :: 'a' :: 't' :: 'h' :: ' ' :: 'i' :: 'n' :: 'k' ::
      's' :: 'c' :: 'a' :: 'p' :: 'e' :: ':' :: 'l' :: 'a' :: 'b' :: 'e' ::
      'l' :: '=' :: '"' :: (lb ++ ['"'])) ++
      mkA (resolve l none (some lb)).longName (resolve l none (some lb)).value
        (resolve l none (some lb)).region ++ ['>'] =
      (['<', 'p', 'a', 't', 'h', ' ', 'i', 'n', 'k', 's', 'c', 'a', 'p', 'e',
        ':', 'l', 'a', 'b', 'e', 'l', '=', '"'] : Str) ++
        (lb ++ ('"' :: (mkA (resolve l none (some lb)).longName
          (resolve l none (some lb)).value
          (resolve l none (some lb)).region ++ ['>']))) := by
    simp
  rw [e2]
  refine ⟨?_, ?_, ?_⟩
  · rw [countGo_skip_pre22_ln,
      countGo_skip_alnum (by decide) lnPat_nm (by decide) hlb rfl,
      countGo_cons_skip lnPat_eq (by decide),
      countGo_mkA_ln hres.2.2 hres.1 hres.2.1,
      show countGo lnPat ['>'] = 0 from by decide]
  · rw [countGo_chunk 0 vPat_eq (by decide) (by decide),
      countGo_skip_alnum (by decide) vPat_nm (by decide) hlb rfl,
      countGo_cons_skip vPat_eq (by decide),
      countGo_mkA_v hres.2.2 hres.1 hres.2.1,
      show countGo vPat ['>'] = 0 from by decide]
    try omega
  · rw [countGo_chunk 0 rPat_eq (by decide) (by decide),
      countGo_skip_alnum (by decide) rPat_nm (by decide) hlb rfl,
      countGo_cons_skip rPat_eq (by decide),
      countGo_mkA_r hres.2.2 hres.1 hres.2.1,
      show countGo rPat ['>'] = 0 from by decide]
    try omega

theorem countGo_out_tagFull {lb i : Str} (hlb : alnumStr lb) (hi : alnumStr i)
    {l : Lookup} (hl : okLookup l) :
    countGo lnPat (rewriteTag l (Seg.render (.tagFull lb i))) = 1 ∧
    countGo vPat (rewriteTag l (Seg.render (.tagFull lb i))) = 1 ∧
    countGo rPat (rewriteTag l (Seg.render (.tagFull lb i))) = 1 := by
  have hres := @resolve_alnum l hl (some i) (some lb)
    (fun s h => by injection h with h1; rw [← h1]; exact hlb)
  rw [rewriteTag_tagFull hlb hi hl, mkAttrs_eq_mkA hres.2.2 hres.1 hres.2.1]
  have e2 : ('<' :: 'p' :: 'a' :: 't' :: 'h' :: ' ' :: 'i' :: 'n' :: 'k' ::
      's' :: 'c' :: 'a' :: 'p' :: 'e' :: ':' :: 'l' :: 'a' :: 'b' :: 'e' ::
      'l' :: '=' :: '"' :: (lb ++ ['"'])) ++
      mkA (resolve l (some i) (some lb)).longName
        (resolve l (some i) (some lb)).value
        (resolve l (some i) (some lb)).region ++
      (' ' :: 'i' :: 'd' :: '=' :: '"' :: (i ++ ['"', '>'])) =
      (['<', 'p', 'a', 't', 'h', ' ', 'i', 'n', 'k', 's', 'c', 'a', 'p', 'e',
        ':', 'l', 'a', 'b', 'e', 'l', '=', '"'] : Str) ++
        (lb ++ ('"' :: (mkA (resolve l (some i) (some lb)).longName
          (resolve l (some i) (some lb)).value
          (resolve l (some i) (some lb)).region ++
          (([' ', 'i', 'd', '=', '"'] : Str) ++ (i ++ ('"' :: ['>'])))))) := by
    simp
  rw [e2]
  refine ⟨?_, ?_, ?_⟩
  · rw [countGo_skip_pre22_ln,
      countGo_skip_alnum (by decide) lnPat_nm (by decide) hlb rfl,
      countGo_cons_skip lnPat_eq (by decide),
      countGo_mkA_ln hres.2.2 hres.1 hres.2.1,
      countGo_chunk 0 lnPat_eq (by decide) (by decide),
      countGo_skip_alnum (by decide) lnPat_nm (by decide) hi rfl,
      countGo_cons_skip lnPat_eq (by decide),
      show countGo lnPat ['>'] = 0 from by decide]
  · rw [countGo_chunk 0 vPat_eq (by decide) (by decide),
      countGo_skip_alnum (by decide) vPat_nm (by decide) hlb rfl,
      countGo_cons_skip vPat_eq (by decide),
      countGo_mkA_v hres.2.2 hres.1 hres.2.1,
      countGo_chunk 0 vPat_eq (by decide) (by decide),
      countGo_skip_alnum (by decide) vPat_nm (by decide) hi rfl,
      countGo_cons_skip vPat_eq (by decide),
      show countGo vPat ['>'] = 0 from by decide]
    try omega
  · rw [countGo_chunk 0 rPat_eq (by decide) (by decide),
      countGo_skip_alnum (by decide) rPat_nm (by decide) hlb rfl,
      countGo_cons_skip rPat_eq (by decide),
      countGo_mkA_r hres.2.2 hres.1 hres.2.1,
      countGo_chunk 0 rPat_eq (by decide) (by decide),
      countGo_skip_alnum (by decide) rPat_nm (by decide) hi rfl,
      countGo_cons_skip rPat_eq (by decide),
      show countGo rPat ['>'] = 0 from by decide]
    try omega

/-! ## The segmentation mirrors the scan -/

theorem segsF_cons_skip {c : Char} {rest : Str}
    (h : matchLenAt (c :: rest) = none) (f : Nat) :
    segsF (f + 1) (c :: rest) = (false, [c]) :: segsF f rest := by
  show (match matchLenAt (c :: rest) with
    | some n => (true, (c :: rest).take n) :: segsF f ((c :: rest).drop n)
    | none => (false, [c]) :: segsF f rest) = _
  rw [h]

theorem segsF_cons_match {c : Char} {rest : Str} {n : Nat}
    (h : matchLenAt (c :: rest) = some n) (f : Nat) :
    segsF (f + 1) (c :: rest) =
      (true, (c :: rest).take n) :: segsF f ((c :: rest).drop n) := by
  show (match matchLenAt (c :: rest) with
    | some n => (true, (c :: rest).take n) :: segsF f ((c :: rest).drop n)
    | none => (false, [c]) :: segsF f rest) = _
  rw [h]

theorem segsF_spec (l : Lookup) : ∀ (f : Nat) (s : Str), s.length ≤ f →
    joinSegs (segsF f s) = s ∧
      joinRewrite l (segsF f s) = scanSvgF l f s := by
  intro f
  induction f with
  | zero =>
      intro s hs
      have hnil : s = [] := List.eq_nil_of_length_eq_zero (Nat.le_zero.mp hs)
      subst hnil
      exact ⟨rfl, rfl⟩
  | succ f ih =>
      intro s hs
      match s with
      | [] => exact ⟨rfl, rfl⟩
      | c :: rest =>
          cases hm : matchLenAt (c :: rest) with
          | none =>
              have hlen : rest.length ≤ f := by
                simp only [List.length_cons] at hs
                omega
              obtain ⟨h1, h2⟩ := ih rest hlen
              rw [segsF_cons_skip hm f, scanSvgF_cons_skip hm f]
              constructor
              · show c :: joinSegs (segsF f rest) = c :: rest
                rw [h1]
              · show c :: joinRewrite l (segsF f rest) = c :: scanSvgF l f rest
                rw [h2]
          | some n =>
              have hpos := matchLenAt_pos hm
              have hlen : ((c :: rest).drop n).length ≤ f := by
                rw [List.length_drop]
                simp only [List.length_cons] at hs ⊢
                omega
              obtain ⟨h1, h2⟩ := ih ((c :: rest).drop n) hlen
              rw [segsF_cons_match hm f, scanSvgF_cons_match hm f]
              constructor
              · show (c :: rest).take n ++ joinSegs (segsF f ((c :: rest).drop n)) =
                  c :: rest
                rw [h1, List.take_append_drop]
              · show rewriteTag l ((c :: rest).take n) ++
                  joinRewrite l (segsF f ((c :: rest).drop n)) =
                  rewriteTag l ((c :: rest).take n) ++
                    scanSvgF l f ((c :: rest).drop n)
                rw [h2]

/-! ## Claim C4: the frame property of the merge -/

/-- C4 counterexample: in `<path value region="q"="z" id="w">` the strip
pass removes ` region="q"` and thereby juxtaposes `value` with `="z"`,
creating a second `value="` occurrence in the rewritten tag, so the
"exactly one attribute each" part of the claim fails. -/
theorem C4_counterexample :
    countGo vPat (editSvg dupDoc emptyLookup) = 2 := by
  decide

/-- C4 (amended): the frame part holds unconditionally — the output is the
segmentation of the input with matched tag spans rewritten in place and
everything outside matched spans preserved byte-for-byte
(`joinSegs (segsOf s) = s` reconstructs the input, and `editSvg` equals
the segment-wise rewrite).  The exactly-one-attribute part holds for the
canonical tag forms over an alphanumeric index (but not in general, see
the counterexample). -/
theorem C4_frame (l : Lookup) (s : Str) :
    (joinSegs (segsOf s) = s ∧ editSvg s l = joinRewrite l (segsOf s)) ∧
    (okLookup l → ∀ g : Seg, Seg.ok g → Seg.isTag g = true →
      countGo lnPat (rewriteTag l (Seg.render g)) = 1 ∧
      countGo vPat (rewriteTag l (Seg.render g)) = 1 ∧
      countGo rPat (rewriteTag l (Seg.render g)) = 1) := by
  constructor
  · obtain ⟨h1, h2⟩ := segsF_spec l s.length s (Nat.le_refl _)
    exact ⟨h1, h2.symm⟩
  · intro hl g hok htag
    cases g with
    | plain t => exact absurd htag (by simp [Seg.isTag])
    | bare =>
        exact ⟨countGo_out_bare lnPat (Or.inl rfl) l,
          countGo_out_bare vPat (Or.inr (Or.inl rfl)) l,
          countGo_out_bare rPat (Or.inr (Or.inr rfl)) l⟩
    | tagId i => exact countGo_out_tagId hok hl
    | tagLabel lb => exact countGo_out_tagLabel hok hl
    | tagFull lb i => exact countGo_out_tagFull hok.1 hok.2 hl

/-- C4 witness: the frame theorem applied to a concrete document with one
bare tag surrounded by plain text, and the count part instantiated at a
canonical id-carrying tag over the empty index. -/
theorem C4_witness :
    (joinSegs (segsOf (str "a<path>b")) = str "a<path>b" ∧
      editSvg (str "a<path>b") emptyLookup =
        joinRewrite emptyLookup (segsOf (str "a<path>b"))) ∧
    (countGo lnPat (rewriteTag emptyLookup (Seg.render (.tagId (str "w")))) = 1 ∧
     countGo vPat (rewriteTag emptyLookup (Seg.render (.tagId (str "w")))) = 1 ∧
     countGo rPat (rewriteTag emptyLookup (Seg.render (.tagId (str "w")))) = 1) := by
  have hl : okLookup emptyLookup :=
    ⟨fun k e h => Option.noConfusion h, fun k e h => Option.noConfusion h⟩
  exact ⟨(C4_frame emptyLookup (str "a<path>b")).1,
    (C4_frame emptyLookup (str "a<path>b")).2 hl (.tagId (str "w"))
      (by show alnumStr (str "w"); unfold alnumStr; decide) rfl⟩

end Loucura
